import Mathlib

/-!
# NEO header synchronisation and cross-chain message verification

A shallow embedding of `native/service/header_sync/neo/header_sync.go`,
`native/service/header_sync/neo/utils.go`, `core/types/address.go` and
`native/service/cross_chain_manager/btc/states.go`.

* Byte strings are lists of naturals; the fixed-width values `UInt160`,
  `Uint256` and `Address` are only ever compared for equality and are kept as
  byte strings.
* `uint32` heights and indices and `uint64` chain ids are naturals: the code
  only compares them, it never does arithmetic on them.
* The wire codecs, the hash functions and the multi-signature check are not
  part of these source files; they are the fields of `Env`.
* The cache database is kept at the level of decoded values, one map per key
  family (`CONSENSUS_PEER`, `KEY_HASH`), both indexed by the chain id.
* Every entry point returns its result together with the `NativeService` as
  it stands when the function returns, so the writes done before an error are
  visible.
* In `states.go` the sink and source primitives are the fields of `Codec`, a
  Go map is the list of its entries in the order of `range`, `uint64`
  arithmetic is taken modulo `2 ^ 64`, and the `float64` tests of the coin
  selector are fields of `CoinSelector`.
-/

namespace Poly

abbrev Bytes := List Nat
abbrev UInt160 := Bytes
abbrev Uint256 := Bytes
abbrev Address := Bytes
abbrev PublicKey := Bytes

/-- The `tx.Witness` of a block header: both scripts as raw bytes. -/
structure Witness where
  InvocationScript : Bytes
  VerificationScript : Bytes
deriving DecidableEq, Repr

/-- The fields of `NeoBlockHeader` the handler reads; `body` stands for every
other field of the header. -/
structure NeoBlockHeader where
  Index : Nat
  NextConsensus : UInt160
  Witness : Witness
  body : Bytes
deriving DecidableEq, Repr

/-- The witness of a cross-chain message: both scripts as hex strings. -/
structure MsgWitness where
  InvocationScript : String
  VerificationScript : String
deriving DecidableEq, Repr

/-- The fields of `NeoCrossChainMsg` the handler reads; `body` stands for the
state root and every other field. -/
structure NeoCrossChainMsg where
  Index : Nat
  Witness : MsgWitness
  body : Bytes
deriving DecidableEq, Repr

/-- The consensus record kept per chain id. -/
structure NeoConsensus where
  ChainID : Nat
  Height : Nat
  NextConsensus : UInt160
deriving DecidableEq, Repr

/-- The decoded `hscommon.SyncGenesisHeaderParam`. -/
structure SyncGenesisHeaderParam where
  ChainID : Nat
  GenesisHeader : Bytes
deriving DecidableEq, Repr

/-- The decoded `hscommon.SyncBlockHeaderParam`. -/
structure SyncBlockHeaderParam where
  ChainID : Nat
  Headers : List Bytes
deriving DecidableEq, Repr

/-- The error sites of the three source files. -/
inductive Err where
  | wrongMultiSigParam
  | genesisParamsDeserialize
  | genesisCheckWitness
  | genesisDeserializeHeader
  | blockParamsDeserialize
  | notInitialized
  | headerFromBytes
  | processVerifyHeader (inner : Err)
  | msgNotAtCurrentEpoch
  | processVerifyCrossChainMsg (inner : Err)
  | processGetMessage
  | verifyHeaderScriptHash
  | verifyHeaderGetMessage
  | verifyHeaderMultiSig
  | verifyMsgGetMessage
  | verifyMsgFailed
  | sigGetScriptHash
  | sigScriptHash
  | sigGetMessage
  | sigMultiSig
  | consensusNotFound
  | msgHashNotFound
deriving DecidableEq, Repr

/-- The declarations the three source files use and do not contain: the
configuration, the codecs and the cryptographic primitives. -/
structure Env where
  GenesisBookkeepers : List PublicKey
  MULTI_SIG_MAX_PUBKEY_SIZE : Nat
  SerializePublicKey : PublicKey → Bytes
  AddressFromVmCode : Bytes → Address
  WriteVarBytes : Bytes → Bytes
  decodeSyncGenesisHeaderParam : Bytes → Option SyncGenesisHeaderParam
  decodeSyncBlockHeaderParam : Bytes → Option SyncBlockHeaderParam
  decodeNeoBlockHeader : Bytes → Option NeoBlockHeader
  headerGetMessage : NeoBlockHeader → Option Bytes
  witnessGetScriptHash : Witness → UInt160
  VerifyMultiSignatureWitness : Bytes → Witness → Bool
  msgGetScriptHash : NeoCrossChainMsg → Option UInt160
  msgGetMessage : NeoCrossChainMsg → Option Bytes
  hexDecodeString : String → Bytes
  sha256Sum256 : Bytes → Uint256

/-- The cache database under the header-sync contract: the value stored under
`(CONSENSUS_PEER, chainID)` and the one stored under `(KEY_HASH, chainID)`. -/
structure CacheDB where
  consensusPeer : Nat → Option NeoConsensus
  keyHash : Nat → Option Uint256

/-- The parts of `native.NativeService` the handler uses: the call input, the
witness check of the transaction, and the cache database. -/
structure NativeService where
  input : Bytes
  checkWitness : Address → Bool
  cacheDB : CacheDB

/-- A database with no entry. -/
def CacheDB.empty : CacheDB :=
  { consensusPeer := fun _ => none, keyHash := fun _ => none }

/-! ## core/types/address.go -/

def AddressFromPubKey (env : Env) (pubkey : PublicKey) : Address :=
  env.AddressFromVmCode (env.SerializePublicKey pubkey)

def AddressFromMultiPubKeys (env : Env) (pubkeys : List PublicKey) (m : Int) :
    Except Err Address :=
  let n : Int := pubkeys.length
  if ¬ (1 ≤ m ∧ m ≤ n ∧ n > 1 ∧ n ≤ (env.MULTI_SIG_MAX_PUBKEY_SIZE : Int)) then
    .error .wrongMultiSigParam
  else
    .ok (env.AddressFromVmCode
      (pubkeys.foldl (fun sink v => sink ++ env.WriteVarBytes (env.SerializePublicKey v)) []))

/-- The body of `AddressFromBookkeepers`, with the two functions it calls as
parameters: `single` stands for `AddressFromPubKey` returned with a nil error,
`multi` for `AddressFromMultiPubKeys`. `len(bookkeepers)` is a Go `int`, and
`/` on it is the truncated division. -/
def AddressFromBookkeepersWith {α : Type} (single : PublicKey → α)
    (multi : List PublicKey → Int → α) (bookkeepers : List PublicKey) : α :=
  match bookkeepers with
  | [pk] => single pk
  | _ =>
    multi bookkeepers
      ((bookkeepers.length : Int) - Int.tdiv ((bookkeepers.length : Int) - 1) 3)

def AddressFromBookkeepers (env : Env) (bookkeepers : List PublicKey) :
    Except Err Address :=
  AddressFromBookkeepersWith (fun pk => .ok (AddressFromPubKey env pk))
    (AddressFromMultiPubKeys env) bookkeepers

/-- The check of `utils.ValidateOwner`: the transaction carries the witness
of `address`. -/
def ValidateOwner (native : NativeService) (address : Address) : Except Err Unit :=
  if native.checkWitness address then .ok () else .error .genesisCheckWitness

/-! ## native/service/header_sync/neo/utils.go -/

def verifyHeader (env : Env) (header : NeoBlockHeader) (neoConsensus : NeoConsensus) :
    Except Err Unit :=
  if neoConsensus.NextConsensus ≠ env.witnessGetScriptHash header.Witness then
    .error .verifyHeaderScriptHash
  else
    match env.headerGetMessage header with
    | none => .error .verifyHeaderGetMessage
    | some msg =>
      if env.VerifyMultiSignatureWitness msg header.Witness then .ok ()
      else .error .verifyHeaderMultiSig

def verifyCrossChainMsgSig (env : Env) (crossChainMsg : NeoCrossChainMsg)
    (neoConsensus : NeoConsensus) : Except Err Unit :=
  match env.msgGetScriptHash crossChainMsg with
  | none => .error .sigGetScriptHash
  | some crossChainMsgConsensus =>
    if neoConsensus.NextConsensus ≠ crossChainMsgConsensus then .error .sigScriptHash
    else
      match env.msgGetMessage crossChainMsg with
      | none => .error .sigGetMessage
      | some msg =>
        let witness : Witness :=
          { InvocationScript := env.hexDecodeString crossChainMsg.Witness.InvocationScript
            VerificationScript := env.hexDecodeString crossChainMsg.Witness.VerificationScript }
        if env.VerifyMultiSignatureWitness msg witness then .ok ()
        else .error .sigMultiSig

def getConsensusValByChainId (native : NativeService) (chainID : Nat) :
    Except Err NeoConsensus :=
  match native.cacheDB.consensusPeer chainID with
  | none => .error .consensusNotFound
  | some neoConsensus => .ok neoConsensus

def putConsensusValByChainId (native : NativeService) (neoConsensus : NeoConsensus) :
    NativeService :=
  { native with
    cacheDB :=
      { native.cacheDB with
        consensusPeer := fun c =>
          if c = neoConsensus.ChainID then some neoConsensus
          else native.cacheDB.consensusPeer c } }

def putMsgHash (native : NativeService) (chainID : Nat) (msgHash : Uint256) :
    NativeService :=
  { native with
    cacheDB :=
      { native.cacheDB with
        keyHash := fun c =>
          if c = chainID then some msgHash else native.cacheDB.keyHash c } }

def getMsgHash (native : NativeService) (chainID : Nat) : Except Err Uint256 :=
  match native.cacheDB.keyHash chainID with
  | none => .error .msgHashNotFound
  | some msgHash => .ok msgHash

def verifyCrossChainMsg (env : Env) (native : NativeService)
    (crossChainMsg : NeoCrossChainMsg) (neoConsensus : NeoConsensus) : Except Err Unit :=
  match verifyCrossChainMsgSig env crossChainMsg neoConsensus with
  | .ok _ => .ok ()
  | .error _ =>
    match env.msgGetMessage crossChainMsg with
    | none => .error .verifyMsgGetMessage
    | some msgBs =>
      match getMsgHash native neoConsensus.ChainID with
      | .ok msgHash =>
        if msgHash = env.sha256Sum256 msgBs then .ok () else .error .verifyMsgFailed
      | .error _ => .error .verifyMsgFailed

/-! ## native/service/header_sync/neo/header_sync.go -/

/-- The `for _, v := range headers` loop of `processHeadersAndMsg`, on the
pair `(previousConsensus, newNeoConsensus)`. -/
def headerLoop (env : Env) :
    List Bytes → NeoConsensus × NeoConsensus → Except Err (NeoConsensus × NeoConsensus)
  | [], st => .ok st
  | v :: vs, (previousConsensus, newNeoConsensus) =>
    match env.decodeNeoBlockHeader v with
    | none => .error .headerFromBytes
    | some header =>
      if header.NextConsensus ≠ newNeoConsensus.NextConsensus
          ∧ header.Index > newNeoConsensus.Height then
        match verifyHeader env header newNeoConsensus with
        | .error e => .error (.processVerifyHeader e)
        | .ok _ =>
          headerLoop env vs
            (newNeoConsensus,
              { ChainID := newNeoConsensus.ChainID
                Height := header.Index
                NextConsensus := header.NextConsensus })
      else headerLoop env vs (previousConsensus, newNeoConsensus)

/-- The part of `processHeadersAndMsg` after the consensus record is written:
the check of a message that is present. -/
def processMsg (env : Env) (native : NativeService) (chainId : Nat)
    (msg : NeoCrossChainMsg) (previousConsensus newNeoConsensus : NeoConsensus) :
    Except Err Unit × NativeService :=
  if msg.Index < newNeoConsensus.Height then (.error .msgNotAtCurrentEpoch, native)
  else if msg.Index = newNeoConsensus.Height then
    match verifyCrossChainMsg env native msg previousConsensus with
    | .error e => (.error (.processVerifyCrossChainMsg e), native)
    | .ok _ =>
      match env.msgGetMessage msg with
      | none => (.error .processGetMessage, native)
      | some msgBs => (.ok (), putMsgHash native chainId (env.sha256Sum256 msgBs))
  else
    match verifyCrossChainMsg env native msg newNeoConsensus with
    | .error e => (.error (.processVerifyCrossChainMsg e), native)
    | .ok _ => (.ok (), native)

/-- The write of line 116: the record is stored when its height has grown. -/
def storeIfHigher (native : NativeService) (neoConsensus newNeoConsensus : NeoConsensus) :
    NativeService :=
  if newNeoConsensus.Height > neoConsensus.Height then
    putConsensusValByChainId native newNeoConsensus
  else native

def processHeadersAndMsg (env : Env) (native : NativeService) (chainId : Nat)
    (headers : List Bytes) (msg : Option NeoCrossChainMsg) :
    Except Err Unit × NativeService :=
  match getConsensusValByChainId native chainId with
  | .error _ => (.error .notInitialized, native)
  | .ok neoConsensus =>
    match headerLoop env headers (neoConsensus, neoConsensus) with
    | .error e => (.error e, native)
    | .ok (previousConsensus, newNeoConsensus) =>
      match msg with
      | none => (.ok (), storeIfHigher native neoConsensus newNeoConsensus)
      | some msg =>
        processMsg env (storeIfHigher native neoConsensus newNeoConsensus) chainId msg
          previousConsensus newNeoConsensus

def SyncGenesisHeader (env : Env) (native : NativeService) :
    Except Err Unit × NativeService :=
  match env.decodeSyncGenesisHeaderParam native.input with
  | none => (.error .genesisParamsDeserialize, native)
  | some params =>
    match AddressFromBookkeepers env env.GenesisBookkeepers with
    | .error e => (.error e, native)
    | .ok operatorAddress =>
      match ValidateOwner native operatorAddress with
      | .error e => (.error e, native)
      | .ok _ =>
        match env.decodeNeoBlockHeader params.GenesisHeader with
        | none => (.error .genesisDeserializeHeader, native)
        | some header =>
          match getConsensusValByChainId native params.ChainID with
          | .ok _ => (.ok (), native)
          | .error _ =>
            (.ok (), putConsensusValByChainId native
              { ChainID := params.ChainID
                Height := header.Index
                NextConsensus := header.NextConsensus })

def SyncBlockHeader (env : Env) (native : NativeService) :
    Except Err Unit × NativeService :=
  match env.decodeSyncBlockHeaderParam native.input with
  | none => (.error .blockParamsDeserialize, native)
  | some params => processHeadersAndMsg env native params.ChainID params.Headers none

def VerifyCrossChainMsgSig (env : Env) (native : NativeService) (chainID : Nat)
    (crossChainMsg : NeoCrossChainMsg) (headers : List Bytes) :
    Except Err Unit × NativeService :=
  if headers.length > 0 then
    processHeadersAndMsg env native chainID headers (some crossChainMsg)
  else
    match getConsensusValByChainId native chainID with
    | .error _ => (.error .notInitialized, native)
    | .ok neoConsensus => (verifyCrossChainMsg env native crossChainMsg neoConsensus, native)

/-! ## Lineage of consensus records -/

/-- One rotation step: some header of the batch, decoded from `v`, differs
from `r` in `NextConsensus`, lies above `r.Height`, carries the script hash
`r.NextConsensus`, verifies under `VerifyMultiSignatureWitness`, and `r2` is
the record made from it. -/
def VerifiedStep (env : Env) (headers : List Bytes) (r r2 : NeoConsensus) : Prop :=
  ∃ v header, v ∈ headers ∧ env.decodeNeoBlockHeader v = some header ∧
    header.NextConsensus ≠ r.NextConsensus ∧ header.Index > r.Height ∧
    env.witnessGetScriptHash header.Witness = r.NextConsensus ∧
    (∃ m, env.headerGetMessage header = some m ∧
      env.VerifyMultiSignatureWitness m header.Witness = true) ∧
    r2 = { ChainID := r.ChainID, Height := header.Index, NextConsensus := header.NextConsensus }

/-- The records reachable from `r` through verified rotation steps only. -/
def Lineage (env : Env) (headers : List Bytes) (r r2 : NeoConsensus) : Prop :=
  Relation.ReflTransGen (VerifiedStep env headers) r r2

/-- The header `v` is skipped by the loop when `n` is tracked. -/
def Skipped (env : Env) (n : NeoConsensus) (v : Bytes) : Prop :=
  ∃ header, env.decodeNeoBlockHeader v = some header ∧
    ¬ (header.NextConsensus ≠ n.NextConsensus ∧ header.Index > n.Height)

/-! ## Calls and sequences of calls -/

/-- One call of an entry point: the call input and witness check of its
transaction, and for `VerifyCrossChainMsgSig` its arguments. -/
inductive Call where
  | syncGenesisHeader (input : Bytes) (checkWitness : Address → Bool)
  | syncBlockHeader (input : Bytes) (checkWitness : Address → Bool)
  | verifyCrossChainMsgSig (chainID : Nat) (crossChainMsg : NeoCrossChainMsg)
      (headers : List Bytes)

/-- The result of a call on a database and the database as the call leaves
it, whether the call succeeds or fails. -/
def Call.run (env : Env) (db : CacheDB) : Call → Except Err Unit × CacheDB
  | .syncGenesisHeader input checkWitness =>
    let r := SyncGenesisHeader env { input := input, checkWitness := checkWitness, cacheDB := db }
    (r.1, r.2.cacheDB)
  | .syncBlockHeader input checkWitness =>
    let r := SyncBlockHeader env { input := input, checkWitness := checkWitness, cacheDB := db }
    (r.1, r.2.cacheDB)
  | .verifyCrossChainMsgSig chainID crossChainMsg headers =>
    let r := VerifyCrossChainMsgSig env
      { input := [], checkWitness := fun _ => false, cacheDB := db } chainID crossChainMsg headers
    (r.1, r.2.cacheDB)

/-- The database after a sequence of calls, each one run on what the
previous one left. -/
def runCalls (env : Env) (db : CacheDB) (calls : List Call) : CacheDB :=
  calls.foldl (fun d c => (c.run env d).2) db

/-- Every stored record sits under its own chain id. -/
def KeyedByChainID (db : CacheDB) : Prop :=
  ∀ c r, db.consensusPeer c = some r → r.ChainID = c

/-- No record of `db` is lost in `db2` and no height of `db` is lowered. -/
def HeightsKept (db db2 : CacheDB) : Prop :=
  ∀ c r, db.consensusPeer c = some r →
    ∃ r2, db2.consensusPeer c = some r2 ∧ r.Height ≤ r2.Height

/-! ## Store keys -/

/-- The `k` low bytes of `n`, least significant first. -/
def leBytes : Nat → Nat → Bytes
  | 0, _ => []
  | k + 1, n => n % 256 :: leBytes k (n / 256)

/-- The number whose bytes, least significant first, are given. -/
def leValue : Bytes → Nat
  | [] => 0
  | b :: bs => b + 256 * leValue bs

/-- Modelled from the spec: `utils.GetUint64Bytes` is not among the source
files. The chain id part of a key, a `uint64` written as its eight bytes,
least significant first. -/
def GetUint64Bytes (num : Nat) : Bytes := leBytes 8 num

/-- Modelled from the spec: `utils.ConcatKey` is not among the source files.
The key layout `(module_id, tag, chain_id)`: the contract address followed by
each argument in turn. -/
def ConcatKey (contract : Address) (args : List Bytes) : Bytes :=
  args.foldl (fun temp arg => temp ++ arg) contract

/-- The key under which `getConsensusValByChainId` and
`putConsensusValByChainId` read and write, for the tag bytes
`CONSENSUS_PEER`. -/
def consensusPeerKey (contract : Address) (CONSENSUS_PEER : Bytes) (chainID : Nat) : Bytes :=
  ConcatKey contract [CONSENSUS_PEER, GetUint64Bytes chainID]

/-- The key under which `getMsgHash` and `putMsgHash` read and write, for the
tag bytes `KEY_HASH`. -/
def keyHashKey (contract : Address) (KEY_HASH : Bytes) (chainID : Nat) : Bytes :=
  ConcatKey contract [KEY_HASH, GetUint64Bytes chainID]

/-- The chain id a call is made for, when its input names one. -/
def Call.chainOf (env : Env) : Call → Option Nat
  | .syncGenesisHeader input _ =>
    (env.decodeSyncGenesisHeaderParam input).map (fun params => params.ChainID)
  | .syncBlockHeader input _ =>
    (env.decodeSyncBlockHeaderParam input).map (fun params => params.ChainID)
  | .verifyCrossChainMsgSig chainID _ _ => some chainID


/-! ## native/service/cross_chain_manager/btc/states.go: wire structures -/

set_option linter.dupNamespace false

/-- The `ZeroCopySink` writers and `ZeroCopySource` readers that `states.go`
calls; they are not among the source files. A writer gives the bytes it
appends to the sink. A reader takes the unread part of the source and gives
the value read with what is left, or `none` for `eof`. Strings are their
bytes. -/
structure Codec where
  WriteUint32 : Nat → Bytes
  WriteUint64 : Nat → Bytes
  WriteVarBytes : Bytes → Bytes
  WriteString : Bytes → Bytes
  NextUint32 : Bytes → Option (Nat × Bytes)
  NextUint64 : Bytes → Option (Nat × Bytes)
  NextVarBytes : Bytes → Option (Bytes × Bytes)
  NextString : Bytes → Option (Bytes × Bytes)

/-- What the codec layer promises: a reader applied to what its writer wrote,
followed by anything, gives back the value and leaves the rest; and a reader
applied to a source cut short inside what its writer wrote reports `eof`. -/
structure Codec.Lawful (c : Codec) : Prop where
  uint32_read : ∀ n rest, n < 2 ^ 32 → c.NextUint32 (c.WriteUint32 n ++ rest) = some (n, rest)
  uint64_read : ∀ n rest, n < 2 ^ 64 → c.NextUint64 (c.WriteUint64 n ++ rest) = some (n, rest)
  varBytes_read : ∀ b rest, b.length < 2 ^ 64 →
    c.NextVarBytes (c.WriteVarBytes b ++ rest) = some (b, rest)
  string_read : ∀ b rest, b.length < 2 ^ 64 →
    c.NextString (c.WriteString b ++ rest) = some (b, rest)
  uint32_short : ∀ n p, n < 2 ^ 32 → p <+: c.WriteUint32 n → p ≠ c.WriteUint32 n →
    c.NextUint32 p = none
  uint64_short : ∀ n p, n < 2 ^ 64 → p <+: c.WriteUint64 n → p ≠ c.WriteUint64 n →
    c.NextUint64 p = none
  varBytes_short : ∀ b p, b.length < 2 ^ 64 → p <+: c.WriteVarBytes b →
    p ≠ c.WriteVarBytes b → c.NextVarBytes p = none

structure OutPoint where
  Hash : Bytes
  Index : Nat
deriving DecidableEq, Repr

/-- A `Utxo` whose `Op` is not nil. -/
structure Utxo where
  Op : OutPoint
  AtHeight : Nat
  Value : Nat
  ScriptPubkey : Bytes
deriving DecidableEq, Repr

structure Utxos where
  Utxos : List Utxo
deriving DecidableEq, Repr

def OutPoint.Serialization (c : Codec) (this : OutPoint) : Bytes :=
  c.WriteVarBytes this.Hash ++ c.WriteUint32 this.Index

def OutPoint.Deserialization (c : Codec) (source : Bytes) : Option (OutPoint × Bytes) :=
  match c.NextVarBytes source with
  | none => none
  | some (hash, s1) =>
    match c.NextUint32 s1 with
    | none => none
    | some (index, s2) => some ({ Hash := hash, Index := index }, s2)

def Utxo.Serialization (c : Codec) (this : Utxo) : Bytes :=
  this.Op.Serialization c ++ c.WriteUint32 this.AtHeight ++ c.WriteUint64 this.Value
    ++ c.WriteVarBytes this.ScriptPubkey

def Utxo.Deserialization (c : Codec) (source : Bytes) : Option (Utxo × Bytes) :=
  match OutPoint.Deserialization c source with
  | none => none
  | some (op, s1) =>
    match c.NextUint32 s1 with
    | none => none
    | some (atHeight, s2) =>
      match c.NextUint64 s2 with
      | none => none
      | some (value, s3) =>
        match c.NextVarBytes s3 with
        | none => none
        | some (scriptPubkey, s4) =>
          some ({ Op := op, AtHeight := atHeight, Value := value,
                  ScriptPubkey := scriptPubkey }, s4)

def Utxos.Serialization (c : Codec) (this : Poly.Utxos) : Bytes :=
  this.Utxos.foldl (fun sink v => sink ++ v.Serialization c)
    (c.WriteUint64 this.Utxos.length)

/-- The loop of `Utxos.Deserialization`: `n` more entries are read and
appended to `utxos`. -/
def Utxos.readLoop (c : Codec) : Nat → Bytes → List Utxo → Option (List Utxo × Bytes)
  | 0, source, utxos => some (utxos, source)
  | n + 1, source, utxos =>
    match Utxo.Deserialization c source with
    | none => none
    | some (utxo, s) => Utxos.readLoop c n s (utxos ++ [utxo])

def Utxos.Deserialization (c : Codec) (source : Bytes) : Option (Poly.Utxos × Bytes) :=
  match c.NextUint64 source with
  | none => none
  | some (n, s) =>
    match Utxos.readLoop c n s [] with
    | none => none
    | some (utxos, s2) => some ({ Utxos := utxos }, s2)

/-- The fields of an out point fit their wire types. -/
def OutPoint.InRange (o : OutPoint) : Prop :=
  o.Hash.length < 2 ^ 64 ∧ o.Index < 2 ^ 32

/-- The fields of a utxo fit their wire types. -/
def Utxo.InRange (u : Utxo) : Prop :=
  u.Op.InRange ∧ u.AtHeight < 2 ^ 32 ∧ u.Value < 2 ^ 64 ∧ u.ScriptPubkey.length < 2 ^ 64

/-- The number of entries and the fields of every entry fit their wire
types. -/
def Utxos.InRange (u : Poly.Utxos) : Prop :=
  u.Utxos.length < 2 ^ 64 ∧ ∀ v ∈ u.Utxos, v.InRange


/-- The order of strings: byte by byte, a proper prefix first. -/
def strLess : Bytes → Bytes → Bool
  | [], [] => false
  | [], _ :: _ => true
  | _ :: _, [] => false
  | a :: as, b :: bs => decide (a < b) || (decide (a = b) && strLess as bs)

/-- The map of `MultiSignInfo`, from strings to lists of byte strings: its
entries in the order in which `range` yields them. The keys of a map are
distinct. -/
structure MultiSignInfo where
  MultiSignInfo : List (Bytes × List Bytes)
deriving DecidableEq, Repr

/-- The map read `m[k]`: the value under `k`, nil when there is none. -/
def mapIndex : List (Bytes × List Bytes) → Bytes → List Bytes
  | [], _ => []
  | (k2, v) :: m, k => if k = k2 then v else mapIndex m k

/-- The map write `m[k] = v`. -/
def mapAssign : List (Bytes × List Bytes) → Bytes → List Bytes → List (Bytes × List Bytes)
  | [], k, v => [(k, v)]
  | (k2, v2) :: m, k, v => if k = k2 then (k, v) :: m else (k2, v2) :: mapAssign m k v

/-- The bytes written for one key and its value. -/
def MultiSignInfo.entryBytes (c : Codec) (k : Bytes) (v : List Bytes) : Bytes :=
  c.WriteString k ++ c.WriteUint64 v.length ++ (v.map c.WriteVarBytes).flatten

/-- The keys are collected in the order of `range`, sorted with
`sort.SliceStable` under `MultiSignInfoList[i] > MultiSignInfoList[j]`, and
written each with its value. -/
def MultiSignInfo.Serialization (c : Codec) (this : Poly.MultiSignInfo) : Bytes :=
  ((this.MultiSignInfo.map Prod.fst).insertionSort (fun a b => strLess b a = true)).foldl
    (fun sink k =>
      (mapIndex this.MultiSignInfo k).foldl (fun sink b => sink ++ c.WriteVarBytes b)
        (sink ++ c.WriteString k ++ c.WriteUint64 (mapIndex this.MultiSignInfo k).length))
    (c.WriteUint64 this.MultiSignInfo.length)

/-- The inner loop of `MultiSignInfo.Deserialization`. -/
def MultiSignInfo.readItems (c : Codec) :
    Nat → Bytes → List Bytes → Option (List Bytes × Bytes)
  | 0, source, multiSignItem => some (multiSignItem, source)
  | m + 1, source, multiSignItem =>
    match c.NextVarBytes source with
    | none => none
    | some (b, s) => MultiSignInfo.readItems c m s (multiSignItem ++ [b])

/-- The outer loop of `MultiSignInfo.Deserialization`. -/
def MultiSignInfo.readLoop (c : Codec) :
    Nat → Bytes → List (Bytes × List Bytes) → Option (List (Bytes × List Bytes) × Bytes)
  | 0, source, multiSignInfo => some (multiSignInfo, source)
  | n + 1, source, multiSignInfo =>
    match c.NextString source with
    | none => none
    | some (k, s1) =>
      match c.NextUint64 s1 with
      | none => none
      | some (m, s2) =>
        match MultiSignInfo.readItems c m s2 [] with
        | none => none
        | some (multiSignItem, s3) =>
          MultiSignInfo.readLoop c n s3 (mapAssign multiSignInfo k multiSignItem)

def MultiSignInfo.Deserialization (c : Codec) (source : Bytes) :
    Option (Poly.MultiSignInfo × Bytes) :=
  match c.NextUint64 source with
  | none => none
  | some (n, s) =>
    match MultiSignInfo.readLoop c n s [] with
    | none => none
    | some (multiSignInfo, s2) => some ({ MultiSignInfo := multiSignInfo }, s2)

/-- The sizes of a map fit their wire types. -/
def MultiSignInfo.InRange (m : Poly.MultiSignInfo) : Prop :=
  m.MultiSignInfo.length < 2 ^ 64 ∧
  ∀ e ∈ m.MultiSignInfo, e.1.length < 2 ^ 64 ∧ e.2.length < 2 ^ 64 ∧
    ∀ b ∈ e.2, b.length < 2 ^ 64


/-! ## native/service/cross_chain_manager/btc/states.go: the coin selector -/

/-- The ways a run of the selector can stop without returning: the model ran
out of the call depth it was given, an index was out of range, or
`SortedUtxos` was nil. -/
inductive Fault where
  | outOfFuel
  | indexOutOfRange
  | nilPointer
deriving DecidableEq, Repr

/-- The `CoinSelector`. `Mc` and `Target` are `uint64`, `Tries` is `int64`.
The `float64` fields `MaxP` and `K` and the field `TxOuts` occur in the source
only inside the tests and the fee estimate that the last five fields stand
for: `estimateTxFee selection`; `lr >= selector.MaxP` for the loss ratio of
`getLossRatio selection`; `float64(sum) > selector.K*float64(selector.Target)`;
`float64(sum) <= selector.K*float64(selector.Target)`; and whether
`txscript.DisasmString` fails on a script. -/
structure CoinSelector where
  SortedUtxos : Option Utxos
  Mc : Nat
  Target : Nat
  Tries : Int
  estimateTxFee : List Utxo → Nat
  lossRatioReached : List Utxo → Bool
  sumAboveK : Nat → Bool
  sumWithinK : Nat → Bool
  disasmFails : Bytes → Bool

/-- The choice of `next` in `SimpleBnbSearch`, for `len = SortedUtxos.Len()`. -/
def nextDepth (len : Int) (depth : Int) : Int :=
  if depth > Int.tdiv len 2 then len - depth
  else if depth < Int.tdiv len 2 then len - depth - 1
  else -1

/-- The depths of the successive calls: `d 0 = 0`, `d (k + 1) = next (d k)`. -/
def depthSeq (len : Int) : Nat → Int
  | 0 => 0
  | k + 1 => nextDepth len (depthSeq len k)

/-- `SimpleBnbSearch`: the first argument bounds the depth of the nested
calls, the second is `selector.Tries` on entry; the result comes with
`selector.Tries` on return. A nil slice is `none`. -/
def CoinSelector.SimpleBnbSearch (selector : CoinSelector) :
    Nat → Int → Int → List Utxo → Nat →
      Except Fault ((Option (List Utxo) × Nat × Nat) × Int)
  | 0, _, _, _, _ => .error .outOfFuel
  | fuel + 1, tries, depth, selection, sum =>
    if selector.lossRatioReached selection = true ∨ selector.sumAboveK sum = true ∨
        (sum > selector.Target ∧ sum < (selector.Target + selector.Mc) % 2 ^ 64) then
      .ok ((none, 0, 0), tries)
    else if sum = selector.Target ∨
        (sum ≥ (selector.Target + selector.Mc) % 2 ^ 64 ∧ selector.sumWithinK sum = true) then
      .ok ((some selection, sum, selector.estimateTxFee selection), tries)
    else if tries ≤ 0 ∨ depth = -1 then
      .ok ((none, 0, 0), tries)
    else
      match selector.SortedUtxos with
      | none => .error .nilPointer
      | some sorted =>
        if depth < 0 then .error .indexOutOfRange
        else
          match sorted.Utxos[depth.toNat]? with
          | none => .error .indexOutOfRange
          | some u =>
            match CoinSelector.SimpleBnbSearch selector fuel (tries - 1)
                (nextDepth sorted.Utxos.length depth) (selection ++ [u])
                ((sum + u.Value) % 2 ^ 64) with
            | .error f => .error f
            | .ok ((some result, resSum, fee), tries1) =>
              .ok ((some result, resSum, fee), tries1)
            | .ok ((none, _, _), tries1) =>
              if nextDepth sorted.Utxos.length depth = -1 then .ok ((none, 0, 0), tries1)
              else
                CoinSelector.SimpleBnbSearch selector fuel tries1
                  (nextDepth sorted.Utxos.length depth) selection sum

/-- The loop of `SortedSearch` over the utxos still to come, on the local
variables `selection`, `sum`, `pass` and `fee`. -/
def CoinSelector.sortedLoop (selector : CoinSelector) :
    List Utxo → List Utxo → Nat → Nat → Nat → Except Fault (Option (List Utxo) × Nat × Nat)
  | [], selection, sum, pass, fee =>
    if pass = 1 then .ok (some selection, sum, fee) else .ok (none, 0, 0)
  | u :: us, selection, sum, pass, fee =>
    if pass = 0 then
      if selector.lossRatioReached (selection ++ [u]) = true then .ok (none, 0, 0)
      else if (sum + u.Value) % 2 ^ 64 = selector.Target ∨
          (sum + u.Value) % 2 ^ 64 ≥ (selector.Target + selector.Mc) % 2 ^ 64 then
        CoinSelector.sortedLoop selector us (selection ++ [u]) ((sum + u.Value) % 2 ^ 64) 1
          (selector.estimateTxFee (selection ++ [u]))
      else
        CoinSelector.sortedLoop selector us (selection ++ [u]) ((sum + u.Value) % 2 ^ 64) 0
          (selector.estimateTxFee (selection ++ [u]))
    else if pass = 1 then
      match selection.getLast? with
      | none => .error .indexOutOfRange
      | some last =>
        if ((sum + 2 ^ 64 - last.Value) % 2 ^ 64 + u.Value) % 2 ^ 64 = selector.Target ∨
            ((sum + 2 ^ 64 - last.Value) % 2 ^ 64 + u.Value) % 2 ^ 64
              ≥ (selector.Target + selector.Mc) % 2 ^ 64 then
          CoinSelector.sortedLoop selector us (selection.dropLast ++ [u])
            (((sum + 2 ^ 64 - last.Value) % 2 ^ 64 + u.Value) % 2 ^ 64) 1 fee
        else .ok (some selection, sum, selector.estimateTxFee selection)
    else CoinSelector.sortedLoop selector us selection sum pass fee

def CoinSelector.SortedSearch (selector : CoinSelector) :
    Except Fault (Option (List Utxo) × Nat × Nat) :=
  match selector.SortedUtxos with
  | none => .error .nilPointer
  | some sorted => CoinSelector.sortedLoop selector sorted.Utxos [] 0 0 0

/-- The logging loop of `Select`: the result is dropped when a script does
not disassemble. -/
def CoinSelector.logged (selector : CoinSelector) (r : Option (List Utxo) × Nat × Nat) :
    Option (List Utxo) × Nat × Nat :=
  if (r.1.getD []).any (fun v => selector.disasmFails v.ScriptPubkey) then (none, 0, 0)
  else r

/-- `Select`, with the depth of nested calls allowed to `SimpleBnbSearch`. -/
def CoinSelector.Select (selector : CoinSelector) (fuel : Nat) :
    Except Fault (Option (List Utxo) × Nat × Nat) :=
  match selector.SortedUtxos with
  | none => .ok (none, 0, 0)
  | some sorted =>
    if sorted.Utxos.length = 0 then .ok (none, 0, 0)
    else
      match CoinSelector.SimpleBnbSearch selector fuel selector.Tries 0 [] 0 with
      | .error f => .error f
      | .ok ((some result, sum, fee), _) => .ok (selector.logged (some result, sum, fee))
      | .ok ((none, _, _), tries1) =>
        match CoinSelector.SortedSearch { selector with Tries := tries1 } with
        | .error f => .error f
        | .ok r => .ok (selector.logged r)

/-- The indices in the order in which the calls of one search reach them:
`0, n - 1, 1, n - 2, ...`. -/
def visitIndices (n : Nat) : List Nat :=
  (List.range n).map (fun k => if k % 2 = 0 then k / 2 else n - 1 - k / 2)

/-- The sum of the `Value` fields. -/
def sumValues (l : List Utxo) : Nat := (l.map (fun u => u.Value)).sum


/-- The arguments `depth` and `selection` that a call of `SimpleBnbSearch`
can get in a search started with `depth = 0` and an empty selection: a call
whose `depth` is not `-1` can reach the default case, where it calls itself
with `next` and the selection extended by `SortedUtxos.Utxos[depth]`, and, when
`next` is not `-1`, once more with `next` and the selection it got. The other
guards of the source are left out, so that no call of a run is missed. -/
inductive SearchCall (sorted : Poly.Utxos) : Int → List Utxo → Prop where
  | start : SearchCall sorted 0 []
  | withUtxo (depth : Int) (selection : List Utxo) (u : Utxo) :
      SearchCall sorted depth selection → depth ≠ -1 → 0 ≤ depth →
      sorted.Utxos[depth.toNat]? = some u →
      SearchCall sorted (nextDepth sorted.Utxos.length depth) (selection ++ [u])
  | withoutUtxo (depth : Int) (selection : List Utxo) :
      SearchCall sorted depth selection → depth ≠ -1 →
      nextDepth sorted.Utxos.length depth ≠ -1 →
      SearchCall sorted (nextDepth sorted.Utxos.length depth) selection


/-! ## A small concrete environment

Headers are the bytes `index :: nextConsensus :: key :: signature`; a
signature is valid when it is the key followed by the signed bytes; the
script hash of a witness is its verification script; the digest of a byte
string is the byte string. -/

namespace Demo

def decodeNeoBlockHeader : Bytes → Option NeoBlockHeader
  | i :: nc :: key :: sig =>
    some { Index := i, NextConsensus := [nc],
           Witness := { InvocationScript := sig, VerificationScript := [key] },
           body := [] }
  | _ => none

def decodeSyncGenesisHeaderParam : Bytes → Option SyncGenesisHeaderParam
  | c :: hdr => some { ChainID := c, GenesisHeader := hdr }
  | _ => none

def decodeSyncBlockHeaderParam : Bytes → Option SyncBlockHeaderParam
  | c :: hdr => some { ChainID := c, Headers := [hdr] }
  | _ => none

def hexDecodeString (s : String) : Bytes := s.data.map Char.toNat

def env : Env :=
  { GenesisBookkeepers := [[9]]
    MULTI_SIG_MAX_PUBKEY_SIZE := 16
    SerializePublicKey := fun pk => pk
    AddressFromVmCode := fun code => code
    WriteVarBytes := fun b => b.length :: b
    decodeSyncGenesisHeaderParam := decodeSyncGenesisHeaderParam
    decodeSyncBlockHeaderParam := decodeSyncBlockHeaderParam
    decodeNeoBlockHeader := decodeNeoBlockHeader
    headerGetMessage := fun h => some (h.Index :: h.NextConsensus)
    witnessGetScriptHash := fun w => w.VerificationScript
    VerifyMultiSignatureWitness := fun m w =>
      decide (w.InvocationScript = w.VerificationScript ++ m)
    msgGetScriptHash := fun m => some (hexDecodeString m.Witness.VerificationScript)
    msgGetMessage := fun m => some (m.Index :: m.body)
    hexDecodeString := hexDecodeString
    sha256Sum256 := fun b => b }

/-- The validator sets `A`, `B` and `C`. -/
def setA : UInt160 := [1]
def setB : UInt160 := [2]
def setC : UInt160 := [3]

/-- A database in which chain 7 is tracked at height 100 with set `A`. -/
def db100A : CacheDB :=
  { consensusPeer := fun c =>
      if c = 7 then some { ChainID := 7, Height := 100, NextConsensus := setA } else none
    keyHash := fun _ => none }

/-- A call context over a database, signed by the governance address. -/
def nativeOn (db : CacheDB) (input : Bytes) : NativeService :=
  { input := input, checkWitness := fun a => decide (a = [9]), cacheDB := db }

/-- The header at 150 signed by `A` with `NextConsensus = B`. -/
def header150AB : Bytes := [150, 2, 1, 1, 150, 2]

/-- The header at 200 signed by `B` with `NextConsensus = C`. -/
def header200BC : Bytes := [200, 3, 2, 2, 200, 3]

/-- The header at 50 with `NextConsensus = C` whose key is neither tracked set. -/
def header50Z : Bytes := [50, 3, 8, 0]

/-- The signed message at `index` under the one-byte key `key`. -/
def msgAt (index key : Nat) : NeoCrossChainMsg :=
  { Index := index
    Witness :=
      { InvocationScript := String.mk [Char.ofNat key, Char.ofNat index]
        VerificationScript := String.mk [Char.ofNat key] }
    body := [] }

/-- The witness check of a transaction signed by the governance address. -/
def governance : Address → Bool := fun a => decide (a = [9])

/-- The database after `SyncGenesisHeader` for chain 7 with a header at 100
whose `NextConsensus` is `A`, on an empty database. -/
def dbBootstrapped : CacheDB :=
  (SyncGenesisHeader env (nativeOn CacheDB.empty [7, 100, 1, 0])).2.cacheDB

/-- The database after a following `SyncBlockHeader` with the header at 150
signed by `A` whose `NextConsensus` is `B`. -/
def dbRotated : CacheDB :=
  (SyncBlockHeader env (nativeOn dbBootstrapped (7 :: header150AB))).2.cacheDB

/-- The database after `VerifyCrossChainMsgSig` for chain 7, on the database
tracked at 100 with `A`, with the header at 150 from `A` to `B` and the
message at 150 signed by `A`: the record is at 150 with `B` and the digest of
the message is cached. -/
def dbCached : CacheDB :=
  (VerifyCrossChainMsgSig env (nativeOn db100A []) 7 (msgAt 150 1) [header150AB]).2.cacheDB

/-- The database after `VerifyCrossChainMsgSig` with no headers for the
message at 200 signed by `B`, on the database tracked at 150 with `B`. -/
def dbAfterMsg200 : CacheDB :=
  (VerifyCrossChainMsgSig env (nativeOn dbRotated []) 7 (msgAt 200 2) []).2.cacheDB

/-- The database after a following `SyncBlockHeader` with the header at 200
signed by `B` whose `NextConsensus` is `C`. -/
def dbRotatedAgain : CacheDB :=
  (SyncBlockHeader env (nativeOn dbAfterMsg200 (7 :: header200BC))).2.cacheDB

/-- A fixed-width reader: `k` bytes, least significant first. -/
def nextLE (k : Nat) (source : Bytes) : Option (Nat × Bytes) :=
  if source.length < k then none else some (leValue (source.take k), source.drop k)

/-- A variable-length unsigned integer: one byte below `0xFD`, otherwise a
marker byte and 2, 4 or 8 bytes. -/
def writeVarUint (n : Nat) : Bytes :=
  if n < 0xFD then [n]
  else if n ≤ 0xFFFF then 0xFD :: leBytes 2 n
  else if n ≤ 0xFFFFFFFF then 0xFE :: leBytes 4 n
  else 0xFF :: leBytes 8 n

def nextVarUint : Bytes → Option (Nat × Bytes)
  | [] => none
  | fb :: rest =>
    if fb = 0xFD then nextLE 2 rest
    else if fb = 0xFE then nextLE 4 rest
    else if fb = 0xFF then nextLE 8 rest
    else some (fb, rest)

def writeVarBytes (b : Bytes) : Bytes := writeVarUint b.length ++ b

def nextVarBytes (source : Bytes) : Option (Bytes × Bytes) :=
  match nextVarUint source with
  | none => none
  | some (n, rest) => if rest.length < n then none else some (rest.take n, rest.drop n)

/-- A concrete codec: little-endian fixed-width integers, and byte strings
behind their variable-length size. -/
def codec : Codec :=
  { WriteUint32 := leBytes 4
    WriteUint64 := leBytes 8
    WriteVarBytes := writeVarBytes
    WriteString := writeVarBytes
    NextUint32 := nextLE 4
    NextUint64 := nextLE 8
    NextVarBytes := nextVarBytes
    NextString := nextVarBytes }

/-- Two utxos. -/
def utxoA : Utxo :=
  { Op := { Hash := [170, 187], Index := 1 }, AtHeight := 600000, Value := 5000,
    ScriptPubkey := [169, 20, 135] }

def utxoB : Utxo :=
  { Op := { Hash := [204], Index := 0 }, AtHeight := 0, Value := 70000, ScriptPubkey := [] }


/-- A map with the keys `"k"` and `"z"`, and the same map with `range` in the
other order. -/
def signInfo : Poly.MultiSignInfo :=
  { MultiSignInfo := [([107], [[1, 2], [3]]), ([122], [[]])] }

def signInfoSwapped : Poly.MultiSignInfo :=
  { MultiSignInfo := [([122], [[]]), ([107], [[1, 2], [3]])] }


/-- Five utxos with the values 9, 7, 5, 3 and 2. -/
def coin (value : Nat) : Utxo :=
  { Op := { Hash := [value], Index := 0 }, AtHeight := 1, Value := value, ScriptPubkey := [] }

def coins : Poly.Utxos := { Utxos := [coin 9, coin 7, coin 5, coin 3, coin 2] }

/-- A selector over `coins` with the target 10 and `Mc = 4`, in which the
loss ratio stays under `MaxP`, `K` is 3, the fee estimate is the number of
inputs and every script disassembles. -/
def selector : CoinSelector :=
  { SortedUtxos := some coins, Mc := 4, Target := 10, Tries := 100,
    estimateTxFee := fun l => l.length,
    lossRatioReached := fun _ => false,
    sumAboveK := fun sum => decide (sum > 30),
    sumWithinK := fun sum => decide (sum ≤ 30),
    disasmFails := fun _ => false }


end Demo

/-! ## Lemmas on `verifyHeader` and `headerLoop` -/

theorem verifyHeader_ok_iff (env : Env) (header : NeoBlockHeader) (r : NeoConsensus) :
    verifyHeader env header r = .ok () ↔
      env.witnessGetScriptHash header.Witness = r.NextConsensus ∧
      ∃ m, env.headerGetMessage header = some m ∧
        env.VerifyMultiSignatureWitness m header.Witness = true := by
  unfold verifyHeader
  by_cases h : r.NextConsensus = env.witnessGetScriptHash header.Witness
  · cases hm : env.headerGetMessage header with
    | none => simp [h]
    | some m =>
      cases hv : env.VerifyMultiSignatureWitness m header.Witness <;> simp [h, hv]
  · have h2 : ¬ env.witnessGetScriptHash header.Witness = r.NextConsensus := fun e => h e.symm
    simp [h, h2]

theorem headerLoop_append (env : Env) (pre post : List Bytes)
    (st : NeoConsensus × NeoConsensus) :
    headerLoop env (pre ++ post) st = (headerLoop env pre st).bind (headerLoop env post) := by
  induction pre generalizing st with
  | nil => cases st; simp [headerLoop, Except.bind]
  | cons v vs ih =>
    obtain ⟨p, n⟩ := st
    simp only [List.cons_append, headerLoop]
    cases env.decodeNeoBlockHeader v with
    | none => simp [Except.bind]
    | some header =>
      simp only
      split
      · cases verifyHeader env header n with
        | error e => simp [Except.bind]
        | ok u => simp only; exact ih _
      · exact ih _

/-- What one iteration of the loop does to a tracked pair. -/
theorem headerLoop_single (env : Env) (v : Bytes) (p n : NeoConsensus)
    (header : NeoBlockHeader) (hd : env.decodeNeoBlockHeader v = some header) :
    headerLoop env [v] (p, n) =
      if header.NextConsensus ≠ n.NextConsensus ∧ header.Index > n.Height then
        match verifyHeader env header n with
        | .error e => .error (.processVerifyHeader e)
        | .ok _ =>
          .ok (n, { ChainID := n.ChainID, Height := header.Index,
                    NextConsensus := header.NextConsensus })
      else .ok (p, n) := by
  simp only [headerLoop, hd]

theorem headerLoop_skipped (env : Env) (vs : List Bytes) (p n : NeoConsensus)
    (h : ∀ v ∈ vs, Skipped env n v) : headerLoop env vs (p, n) = .ok (p, n) := by
  induction vs with
  | nil => rfl
  | cons v vs ih =>
    obtain ⟨header, hd, hc⟩ := h v (List.mem_cons_self _ _)
    simp only [headerLoop, hd, hc, if_false]
    exact ih (fun w hw => h w (List.mem_cons_of_mem _ hw))

theorem headerLoop_chainID_height (env : Env) (vs : List Bytes)
    (p n p2 n2 : NeoConsensus) (h : headerLoop env vs (p, n) = .ok (p2, n2)) :
    n2.ChainID = n.ChainID ∧ n.Height ≤ n2.Height := by
  induction vs generalizing p n with
  | nil =>
    simp only [headerLoop, Except.ok.injEq, Prod.mk.injEq] at h
    obtain ⟨-, rfl⟩ := h
    exact ⟨rfl, le_refl _⟩
  | cons v vs ih =>
    simp only [headerLoop] at h
    cases hd : env.decodeNeoBlockHeader v with
    | none => simp [hd] at h
    | some header =>
      simp only [hd] at h
      split at h
      · rename_i hc
        cases hv : verifyHeader env header n with
        | error e => simp [hv] at h
        | ok u =>
          simp only [hv] at h
          obtain ⟨h1, h2⟩ := ih _ _ h
          exact ⟨h1, le_trans (le_of_lt hc.2) h2⟩
      · exact ih _ _ h

theorem headerLoop_lineage (env : Env) (headers vs : List Bytes)
    (p n p2 n2 : NeoConsensus) (hsub : ∀ v ∈ vs, v ∈ headers)
    (h : headerLoop env vs (p, n) = .ok (p2, n2)) : Lineage env headers n n2 := by
  induction vs generalizing p n with
  | nil =>
    simp only [headerLoop, Except.ok.injEq, Prod.mk.injEq] at h
    obtain ⟨-, rfl⟩ := h
    exact Relation.ReflTransGen.refl
  | cons v vs ih =>
    have hsub2 : ∀ w ∈ vs, w ∈ headers := fun w hw => hsub w (List.mem_cons_of_mem _ hw)
    simp only [headerLoop] at h
    cases hd : env.decodeNeoBlockHeader v with
    | none => simp [hd] at h
    | some header =>
      simp only [hd] at h
      split at h
      · rename_i hc
        cases hv : verifyHeader env header n with
        | error e => simp [hv] at h
        | ok u =>
          simp only [hv] at h
          have hstep : VerifiedStep env headers n
              { ChainID := n.ChainID, Height := header.Index,
                NextConsensus := header.NextConsensus } :=
            ⟨v, header, hsub v (List.mem_cons_self _ _), hd, hc.1, hc.2,
              ((verifyHeader_ok_iff env header n).1 hv).1,
              ((verifyHeader_ok_iff env header n).1 hv).2, rfl⟩
          exact Relation.ReflTransGen.head hstep (ih _ _ hsub2 h)
      · exact ih _ _ hsub2 h

/-- The consensus map after `storeIfHigher`. -/
theorem storeIfHigher_consensusPeer (native : NativeService) (cur newest : NeoConsensus)
    (c : Nat) :
    (storeIfHigher native cur newest).cacheDB.consensusPeer c =
      if newest.Height > cur.Height ∧ c = newest.ChainID then some newest
      else native.cacheDB.consensusPeer c := by
  unfold storeIfHigher putConsensusValByChainId
  by_cases h1 : newest.Height > cur.Height <;> by_cases h2 : c = newest.ChainID <;>
    simp [h1, h2]

theorem storeIfHigher_keyHash (native : NativeService) (cur newest : NeoConsensus) :
    (storeIfHigher native cur newest).cacheDB.keyHash = native.cacheDB.keyHash := by
  unfold storeIfHigher putConsensusValByChainId
  split <;> rfl

/-- The function `processMsg` never touches the consensus map. -/
theorem processMsg_consensusPeer (env : Env) (native : NativeService) (chainId : Nat)
    (msg : NeoCrossChainMsg) (prior newest : NeoConsensus) :
    (processMsg env native chainId msg prior newest).2.cacheDB.consensusPeer =
      native.cacheDB.consensusPeer := by
  unfold processMsg
  split
  · rfl
  · split
    · cases verifyCrossChainMsg env native msg prior with
      | error e => rfl
      | ok u =>
        simp only
        cases env.msgGetMessage msg <;> rfl
    · cases verifyCrossChainMsg env native msg newest <;> rfl

/-- The consensus map after `processHeadersAndMsg`, when the chain is
initialised and the loop ends with `(prior, newest)`. -/
theorem processHeadersAndMsg_consensusPeer (env : Env) (native : NativeService)
    (chainId : Nat) (headers : List Bytes) (msg : Option NeoCrossChainMsg)
    (cur prior newest : NeoConsensus)
    (hcur : native.cacheDB.consensusPeer chainId = some cur)
    (hloop : headerLoop env headers (cur, cur) = .ok (prior, newest)) :
    (processHeadersAndMsg env native chainId headers msg).2.cacheDB.consensusPeer =
      (storeIfHigher native cur newest).cacheDB.consensusPeer := by
  simp only [processHeadersAndMsg, getConsensusValByChainId, hcur, hloop]
  cases msg with
  | none => rfl
  | some m => exact processMsg_consensusPeer env _ chainId m prior newest

/-- When the loop fails, or the chain is not initialised, nothing is written. -/
theorem processHeadersAndMsg_loop_error (env : Env) (native : NativeService)
    (chainId : Nat) (headers : List Bytes) (msg : Option NeoCrossChainMsg)
    (cur : NeoConsensus) (e : Err)
    (hcur : native.cacheDB.consensusPeer chainId = some cur)
    (hloop : headerLoop env headers (cur, cur) = .error e) :
    processHeadersAndMsg env native chainId headers msg = (.error e, native) := by
  simp only [processHeadersAndMsg, getConsensusValByChainId, hcur, hloop]

theorem processHeadersAndMsg_uninitialised (env : Env) (native : NativeService)
    (chainId : Nat) (headers : List Bytes) (msg : Option NeoCrossChainMsg)
    (hcur : native.cacheDB.consensusPeer chainId = none) :
    processHeadersAndMsg env native chainId headers msg = (.error .notInitialized, native) := by
  simp only [processHeadersAndMsg, getConsensusValByChainId, hcur]

/-- The signature check of a message, spelled out. -/
theorem verifyCrossChainMsgSig_ok_iff (env : Env) (msg : NeoCrossChainMsg)
    (r : NeoConsensus) :
    verifyCrossChainMsgSig env msg r = .ok () ↔
      env.msgGetScriptHash msg = some r.NextConsensus ∧
      ∃ bs, env.msgGetMessage msg = some bs ∧
        env.VerifyMultiSignatureWitness bs
          { InvocationScript := env.hexDecodeString msg.Witness.InvocationScript
            VerificationScript := env.hexDecodeString msg.Witness.VerificationScript }
          = true := by
  unfold verifyCrossChainMsgSig
  cases hs : env.msgGetScriptHash msg with
  | none => simp
  | some sh =>
    by_cases h : r.NextConsensus = sh
    · cases hm : env.msgGetMessage msg with
      | none => simp [h]
      | some bs =>
        cases hv : env.VerifyMultiSignatureWitness bs
          { InvocationScript := env.hexDecodeString msg.Witness.InvocationScript
            VerificationScript := env.hexDecodeString msg.Witness.VerificationScript }
          <;> simp [h, hv]
    · have h2 : ¬ sh = r.NextConsensus := fun e => h e.symm
      simp [h, h2]

/-- The result of `verifyCrossChainMsg`, spelled out: the signature check, or
else the cached digest of the record's chain id. -/
theorem verifyCrossChainMsg_ok_iff (env : Env) (native : NativeService)
    (msg : NeoCrossChainMsg) (r : NeoConsensus) :
    verifyCrossChainMsg env native msg r = .ok () ↔
      verifyCrossChainMsgSig env msg r = .ok () ∨
      ∃ bs, env.msgGetMessage msg = some bs ∧
        native.cacheDB.keyHash r.ChainID = some (env.sha256Sum256 bs) := by
  unfold verifyCrossChainMsg getMsgHash
  cases hsig : verifyCrossChainMsgSig env msg r with
  | ok u => simp
  | error e =>
    cases hm : env.msgGetMessage msg with
    | none => simp
    | some bs =>
      cases hk : native.cacheDB.keyHash r.ChainID with
      | none => simp
      | some d =>
        by_cases hd : d = env.sha256Sum256 bs <;> simp [hd]

/-- A message that `verifyCrossChainMsg` accepts has signing bytes. -/
theorem verifyCrossChainMsg_ok_getMessage (env : Env) (native : NativeService)
    (msg : NeoCrossChainMsg) (r : NeoConsensus)
    (h : verifyCrossChainMsg env native msg r = .ok ()) :
    ∃ bs, env.msgGetMessage msg = some bs := by
  rcases (verifyCrossChainMsg_ok_iff env native msg r).1 h with h1 | ⟨bs, h2, _⟩
  · obtain ⟨_, bs, hbs, _⟩ := (verifyCrossChainMsgSig_ok_iff env msg r).1 h1
    exact ⟨bs, hbs⟩
  · exact ⟨bs, h2⟩

/-- The pair the loop ends with: either nothing was accepted, or the batch
splits at the last accepted rotation `v`, checked against `p2`, the record
tracked just before it. -/
theorem headerLoop_prior (env : Env) (vs : List Bytes) (p n p2 n2 : NeoConsensus)
    (h : headerLoop env vs (p, n) = .ok (p2, n2)) :
    (p2 = p ∧ n2 = n ∧ ∀ v ∈ vs, Skipped env n v) ∨
    (∃ pre v post header p0,
      vs = pre ++ v :: post ∧
      headerLoop env pre (p, n) = .ok (p0, p2) ∧
      env.decodeNeoBlockHeader v = some header ∧
      header.NextConsensus ≠ p2.NextConsensus ∧ header.Index > p2.Height ∧
      verifyHeader env header p2 = .ok () ∧
      n2 = { ChainID := p2.ChainID, Height := header.Index,
             NextConsensus := header.NextConsensus } ∧
      ∀ w ∈ post, Skipped env n2 w) := by
  induction vs generalizing p n with
  | nil =>
    simp only [headerLoop, Except.ok.injEq, Prod.mk.injEq] at h
    exact Or.inl ⟨h.1.symm, h.2.symm, by simp⟩
  | cons v vs ih =>
    simp only [headerLoop] at h
    cases hd : env.decodeNeoBlockHeader v with
    | none => simp [hd] at h
    | some header =>
      simp only [hd] at h
      split at h
      · rename_i hc
        cases hv : verifyHeader env header n with
        | error e => simp [hv] at h
        | ok u =>
          simp only [hv] at h
          rcases ih _ _ h with ⟨h1, h2, h3⟩ | ⟨pre, w, post, hw, p0, e1, e2, e3, e4, e5, e6, e7, e8⟩
          · subst h1
            exact Or.inr ⟨[], v, vs, header, p, rfl, rfl, hd, hc.1, hc.2, hv, h2, h2 ▸ h3⟩
          · refine Or.inr ⟨v :: pre, w, post, hw, p0, by rw [e1]; rfl, ?_, e3, e4, e5, e6, e7, e8⟩
            simp only [headerLoop, hd]
            rw [if_pos hc]
            simp only [hv]
            exact e2
      · rename_i hc
        rcases ih _ _ h with ⟨h1, h2, h3⟩ | ⟨pre, w, post, hw, p0, e1, e2, e3, e4, e5, e6, e7, e8⟩
        · refine Or.inl ⟨h1, h2, ?_⟩
          intro w hw
          rcases List.mem_cons.1 hw with rfl | hw
          · exact ⟨header, hd, hc⟩
          · exact h3 w hw
        · refine Or.inr ⟨v :: pre, w, post, hw, p0, by rw [e1]; rfl, ?_, e3, e4, e5, e6, e7, e8⟩
          simp only [headerLoop, hd]
          rw [if_neg hc]
          exact e2

/-! ## Records are kept under their chain id and heights never go down -/

theorem heightsKept_refl (db : CacheDB) : HeightsKept db db :=
  fun _ r h => ⟨r, h, le_refl _⟩

theorem heightsKept_trans {a b c : CacheDB} (h1 : HeightsKept a b) (h2 : HeightsKept b c) :
    HeightsKept a c := by
  intro k r hr
  obtain ⟨r2, hr2, hle⟩ := h1 k r hr
  obtain ⟨r3, hr3, hle2⟩ := h2 k r2 hr2
  exact ⟨r3, hr3, le_trans hle hle2⟩

/-- Two databases with the same consensus map. -/
theorem heightsKept_of_same {a b : CacheDB} (h : b.consensusPeer = a.consensusPeer) :
    HeightsKept a b := fun _ r hr => ⟨r, by rw [h]; exact hr, le_refl _⟩

theorem keyedByChainID_of_same {a b : CacheDB} (h : b.consensusPeer = a.consensusPeer)
    (ha : KeyedByChainID a) : KeyedByChainID b := fun c r hr => ha c r (by rw [← h]; exact hr)

/-- The consensus map after `SyncGenesisHeader`: untouched, or a record
written under a chain id that had none. -/
theorem SyncGenesisHeader_consensusPeer (env : Env) (native : NativeService) :
    (SyncGenesisHeader env native).2.cacheDB.consensusPeer = native.cacheDB.consensusPeer ∨
    ∃ params header,
      env.decodeSyncGenesisHeaderParam native.input = some params ∧
      env.decodeNeoBlockHeader params.GenesisHeader = some header ∧
      native.cacheDB.consensusPeer params.ChainID = none ∧
      (SyncGenesisHeader env native).2.cacheDB.consensusPeer = fun c =>
        if c = params.ChainID then
          some { ChainID := params.ChainID, Height := header.Index,
                 NextConsensus := header.NextConsensus }
        else native.cacheDB.consensusPeer c := by
  unfold SyncGenesisHeader
  cases hp : env.decodeSyncGenesisHeaderParam native.input with
  | none => exact Or.inl rfl
  | some params =>
    simp only
    cases AddressFromBookkeepers env env.GenesisBookkeepers with
    | error e => exact Or.inl rfl
    | ok operatorAddress =>
      simp only
      cases ValidateOwner native operatorAddress with
      | error e => exact Or.inl rfl
      | ok u =>
        simp only
        cases hh : env.decodeNeoBlockHeader params.GenesisHeader with
        | none => exact Or.inl rfl
        | some header =>
          simp only [getConsensusValByChainId]
          cases hc : native.cacheDB.consensusPeer params.ChainID with
          | some r => exact Or.inl rfl
          | none => exact Or.inr ⟨params, header, rfl, hh, hc, rfl⟩

/-- The function `SyncGenesisHeader` never touches the digest map. -/
theorem SyncGenesisHeader_keyHash (env : Env) (native : NativeService) :
    (SyncGenesisHeader env native).2.cacheDB.keyHash = native.cacheDB.keyHash := by
  unfold SyncGenesisHeader
  cases env.decodeSyncGenesisHeaderParam native.input with
  | none => rfl
  | some params =>
    simp only
    cases AddressFromBookkeepers env env.GenesisBookkeepers with
    | error e => rfl
    | ok operatorAddress =>
      simp only
      cases ValidateOwner native operatorAddress with
      | error e => rfl
      | ok u =>
        simp only
        cases env.decodeNeoBlockHeader params.GenesisHeader with
        | none => rfl
        | some header =>
          simp only [getConsensusValByChainId]
          cases native.cacheDB.consensusPeer params.ChainID <;> rfl

theorem SyncGenesisHeader_keeps (env : Env) (native : NativeService)
    (hk : KeyedByChainID native.cacheDB) :
    KeyedByChainID (SyncGenesisHeader env native).2.cacheDB ∧
    HeightsKept native.cacheDB (SyncGenesisHeader env native).2.cacheDB := by
  rcases SyncGenesisHeader_consensusPeer env native with h | ⟨params, header, _, _, hnone, h⟩
  · exact ⟨keyedByChainID_of_same h hk, heightsKept_of_same h⟩
  · constructor
    · intro c r hr
      rw [h] at hr
      by_cases hc : c = params.ChainID
      · simp only [hc, if_true, Option.some.injEq] at hr
        rw [← hr, hc]
      · simp only [hc, if_false] at hr
        exact hk c r hr
    · intro c r hr
      by_cases hc : c = params.ChainID
      · rw [hc, hnone] at hr
        exact absurd hr (by simp)
      · exact ⟨r, by rw [h]; simp only [hc, if_false]; exact hr, le_refl _⟩

theorem processHeadersAndMsg_keeps (env : Env) (native : NativeService) (chainId : Nat)
    (headers : List Bytes) (msg : Option NeoCrossChainMsg)
    (hk : KeyedByChainID native.cacheDB) :
    KeyedByChainID (processHeadersAndMsg env native chainId headers msg).2.cacheDB ∧
    HeightsKept native.cacheDB (processHeadersAndMsg env native chainId headers msg).2.cacheDB := by
  cases hcur : native.cacheDB.consensusPeer chainId with
  | none =>
    rw [processHeadersAndMsg_uninitialised env native chainId headers msg hcur]
    exact ⟨hk, heightsKept_refl _⟩
  | some cur =>
    cases hloop : headerLoop env headers (cur, cur) with
    | error e =>
      rw [processHeadersAndMsg_loop_error env native chainId headers msg cur e hcur hloop]
      exact ⟨hk, heightsKept_refl _⟩
    | ok st =>
      obtain ⟨prior, newest⟩ := st
      have hcons := processHeadersAndMsg_consensusPeer env native chainId headers msg cur prior
        newest hcur hloop
      obtain ⟨hid, hle⟩ := headerLoop_chainID_height env headers cur cur prior newest hloop
      have hcid : cur.ChainID = chainId := hk chainId cur hcur
      constructor
      · intro c r hr
        rw [hcons, storeIfHigher_consensusPeer] at hr
        split at hr
        · rename_i hc
          simp only [Option.some.injEq] at hr
          rw [← hr]
          exact hc.2.symm
        · exact hk c r hr
      · intro c r hr
        rw [hcons, storeIfHigher_consensusPeer]
        by_cases hc : newest.Height > cur.Height ∧ c = newest.ChainID
        · rw [if_pos hc]
          have hcc : c = chainId := by rw [hc.2, hid, hcid]
          rw [hcc, hcur] at hr
          simp only [Option.some.injEq] at hr
          exact ⟨newest, rfl, by rw [← hr]; exact hle⟩
        · rw [if_neg hc]
          exact ⟨r, hr, le_refl _⟩

theorem VerifyCrossChainMsgSig_keeps (env : Env) (native : NativeService) (chainID : Nat)
    (msg : NeoCrossChainMsg) (headers : List Bytes) (hk : KeyedByChainID native.cacheDB) :
    KeyedByChainID (VerifyCrossChainMsgSig env native chainID msg headers).2.cacheDB ∧
    HeightsKept native.cacheDB
      (VerifyCrossChainMsgSig env native chainID msg headers).2.cacheDB := by
  unfold VerifyCrossChainMsgSig
  split
  · exact processHeadersAndMsg_keeps env native chainID headers (some msg) hk
  · cases getConsensusValByChainId native chainID <;> exact ⟨hk, heightsKept_refl _⟩

theorem callRun_keeps (env : Env) (db : CacheDB) (call : Call) (hk : KeyedByChainID db) :
    KeyedByChainID (call.run env db).2 ∧ HeightsKept db (call.run env db).2 := by
  cases call with
  | syncGenesisHeader input checkWitness =>
    exact SyncGenesisHeader_keeps env
      { input := input, checkWitness := checkWitness, cacheDB := db } hk
  | syncBlockHeader input checkWitness =>
    simp only [Call.run, SyncBlockHeader]
    cases env.decodeSyncBlockHeaderParam input with
    | none => exact ⟨hk, heightsKept_refl _⟩
    | some params =>
      exact processHeadersAndMsg_keeps env
        { input := input, checkWitness := checkWitness, cacheDB := db } _ _ none hk
  | verifyCrossChainMsgSig chainID msg headers =>
    exact VerifyCrossChainMsgSig_keeps env
      { input := [], checkWitness := fun _ => false, cacheDB := db } chainID msg headers hk

theorem runCalls_keeps (env : Env) (calls : List Call) (db : CacheDB)
    (hk : KeyedByChainID db) :
    KeyedByChainID (runCalls env db calls) ∧ HeightsKept db (runCalls env db calls) := by
  induction calls generalizing db with
  | nil => exact ⟨hk, heightsKept_refl _⟩
  | cons call calls ih =>
    obtain ⟨h1, h2⟩ := callRun_keeps env db call hk
    obtain ⟨h3, h4⟩ := ih (call.run env db).2 h1
    exact ⟨h3, heightsKept_trans h2 h4⟩

theorem keyedByChainID_empty : KeyedByChainID CacheDB.empty := by
  intro c r hr
  simp [CacheDB.empty] at hr


/-- A batch that holds a header that does not decode makes the loop fail,
at that header or before it. -/
theorem headerLoop_undecodable (env : Env) (vs : List Bytes)
    (st : NeoConsensus × NeoConsensus)
    (h : ∃ v ∈ vs, env.decodeNeoBlockHeader v = none) :
    ∃ e, headerLoop env vs st = .error e := by
  induction vs generalizing st with
  | nil =>
    obtain ⟨v, hv, _⟩ := h
    exact absurd hv (List.not_mem_nil v)
  | cons w ws ih =>
    obtain ⟨p, n⟩ := st
    simp only [headerLoop]
    cases hd : env.decodeNeoBlockHeader w with
    | none => exact ⟨_, rfl⟩
    | some header =>
      have hrest : ∃ v ∈ ws, env.decodeNeoBlockHeader v = none := by
        obtain ⟨v, hv, hnone⟩ := h
        rcases List.mem_cons.1 hv with rfl | hv
        · rw [hd] at hnone
          exact absurd hnone (by simp)
        · exact ⟨v, hv, hnone⟩
      simp only
      split
      · cases verifyHeader env header n with
        | error e => exact ⟨_, rfl⟩
        | ok u => exact ih _ hrest
      · exact ih _ hrest

/-- A failing `processMsg` writes nothing. -/
theorem processMsg_error (env : Env) (native : NativeService) (chainId : Nat)
    (msg : NeoCrossChainMsg) (prior newest : NeoConsensus) (e : Err)
    (h : (processMsg env native chainId msg prior newest).1 = .error e) :
    (processMsg env native chainId msg prior newest).2 = native := by
  unfold processMsg at h ⊢
  split
  · rfl
  · split
    · cases hv : verifyCrossChainMsg env native msg prior with
      | error e2 => rfl
      | ok u =>
        obtain ⟨bs, hbs⟩ := verifyCrossChainMsg_ok_getMessage env native msg prior hv
        rename_i h1 h2
        rw [if_neg h1, if_pos h2] at h
        simp [hv, hbs] at h
    · cases hv : verifyCrossChainMsg env native msg newest with
      | error e2 => rfl
      | ok u => rfl

/-- A record of the same height is not written. -/
theorem storeIfHigher_self (native : NativeService) (cur : NeoConsensus) :
    storeIfHigher native cur cur = native := by
  unfold storeIfHigher
  rw [if_neg (lt_irrefl _)]

/-! ## Store keys do not collide -/

theorem leBytes_length (k n : Nat) : (leBytes k n).length = k := by
  induction k generalizing n with
  | zero => rfl
  | succ k ih => simp [leBytes, ih]

theorem leValue_leBytes (k n : Nat) : leValue (leBytes k n) = n % 256 ^ k := by
  induction k generalizing n with
  | zero => simp [leBytes, leValue, Nat.mod_one]
  | succ k ih =>
    show n % 256 + 256 * leValue (leBytes k (n / 256)) = n % 256 ^ (k + 1)
    rw [ih, pow_succ, Nat.mul_comm (256 ^ k) 256, Nat.mod_mul]

theorem GetUint64Bytes_inj (a b : Nat) (ha : a < 2 ^ 64) (hb : b < 2 ^ 64)
    (h : GetUint64Bytes a = GetUint64Bytes b) : a = b := by
  have h2 := congrArg leValue h
  simp only [GetUint64Bytes, leValue_leBytes] at h2
  have e : (256 : Nat) ^ 8 = 2 ^ 64 := by norm_num
  rw [e, Nat.mod_eq_of_lt ha, Nat.mod_eq_of_lt hb] at h2
  exact h2

theorem consensusPeerKey_inj (contract tag : Bytes) (a b : Nat) (ha : a < 2 ^ 64)
    (hb : b < 2 ^ 64) (h : consensusPeerKey contract tag a = consensusPeerKey contract tag b) :
    a = b := by
  simp only [consensusPeerKey, ConcatKey, List.foldl] at h
  exact GetUint64Bytes_inj a b ha hb (List.append_cancel_left h)

theorem keyHashKey_inj (contract tag : Bytes) (a b : Nat) (ha : a < 2 ^ 64)
    (hb : b < 2 ^ 64) (h : keyHashKey contract tag a = keyHashKey contract tag b) :
    a = b := by
  simp only [keyHashKey, ConcatKey, List.foldl] at h
  exact GetUint64Bytes_inj a b ha hb (List.append_cancel_left h)

theorem consensusPeerKey_ne_keyHashKey (contract tagP tagK : Bytes) (a b : Nat)
    (hne : tagP ≠ tagK) : consensusPeerKey contract tagP a ≠ keyHashKey contract tagK b := by
  intro h
  simp only [consensusPeerKey, keyHashKey, ConcatKey, List.foldl] at h
  have hl : (GetUint64Bytes a).length = (GetUint64Bytes b).length := by
    simp [GetUint64Bytes, leBytes_length]
  exact hne (List.append_cancel_left (List.append_inj' h hl).1)

/-! ## Calls touch the entries of their chain id only -/

/-- The check of a message reads the database at the digest of the record's
chain id only. -/
theorem verifyCrossChainMsg_congr (env : Env) (n1 n2 : NativeService)
    (msg : NeoCrossChainMsg) (r : NeoConsensus)
    (h : n1.cacheDB.keyHash r.ChainID = n2.cacheDB.keyHash r.ChainID) :
    verifyCrossChainMsg env n1 msg r = verifyCrossChainMsg env n2 msg r := by
  simp only [verifyCrossChainMsg, getMsgHash, h]

theorem headerLoop_prior_chainID (env : Env) (vs : List Bytes)
    (p n p2 n2 : NeoConsensus) (hpn : p.ChainID = n.ChainID)
    (h : headerLoop env vs (p, n) = .ok (p2, n2)) : p2.ChainID = n.ChainID := by
  induction vs generalizing p n with
  | nil =>
    simp only [headerLoop, Except.ok.injEq, Prod.mk.injEq] at h
    rw [← h.1]; exact hpn
  | cons v vs ih =>
    simp only [headerLoop] at h
    cases hd : env.decodeNeoBlockHeader v with
    | none => simp [hd] at h
    | some header =>
      simp only [hd] at h
      split at h
      · cases hv : verifyHeader env header n with
        | error e => simp [hv] at h
        | ok u =>
          simp only [hv] at h
          exact ih n { ChainID := n.ChainID, Height := header.Index,
                       NextConsensus := header.NextConsensus } rfl h
      · exact ih _ _ hpn h

/-- The digests of the other chain ids after `processMsg`. -/
theorem processMsg_keyHash_other (env : Env) (native : NativeService) (chainId Y : Nat)
    (msg : NeoCrossChainMsg) (prior newest : NeoConsensus) (hY : Y ≠ chainId) :
    (processMsg env native chainId msg prior newest).2.cacheDB.keyHash Y =
      native.cacheDB.keyHash Y := by
  unfold processMsg
  split
  · rfl
  · split
    · cases verifyCrossChainMsg env native msg prior with
      | error e => rfl
      | ok u =>
        simp only
        cases env.msgGetMessage msg with
        | none => rfl
        | some bs => simp [putMsgHash, hY]
    · cases verifyCrossChainMsg env native msg newest <;> rfl

/-- The function `processMsg` for chain id `X` on two services that hold the
same digest for `X`. -/
theorem processMsg_local (env : Env) (n1 n2 : NativeService) (X : Nat)
    (msg : NeoCrossChainMsg) (prior newest : NeoConsensus)
    (hp : prior.ChainID = X) (hn : newest.ChainID = X)
    (h : n1.cacheDB.keyHash X = n2.cacheDB.keyHash X) :
    (processMsg env n1 X msg prior newest).1 = (processMsg env n2 X msg prior newest).1 ∧
    (processMsg env n1 X msg prior newest).2.cacheDB.keyHash X =
      (processMsg env n2 X msg prior newest).2.cacheDB.keyHash X := by
  have e1 := verifyCrossChainMsg_congr env n1 n2 msg prior (by rw [hp]; exact h)
  have e2 := verifyCrossChainMsg_congr env n1 n2 msg newest (by rw [hn]; exact h)
  unfold processMsg
  rw [e1, e2]
  split
  · exact ⟨rfl, h⟩
  · split
    · cases verifyCrossChainMsg env n2 msg prior with
      | error e => exact ⟨rfl, h⟩
      | ok u =>
        simp only
        cases env.msgGetMessage msg with
        | none => exact ⟨rfl, h⟩
        | some bs => exact ⟨rfl, by simp [putMsgHash]⟩
    · cases verifyCrossChainMsg env n2 msg newest <;> exact ⟨rfl, h⟩

/-- What `processHeadersAndMsg` for chain id `X` leaves of the entries of
another chain id `Y`, when the record of `X` sits under its own id. -/
theorem processHeadersAndMsg_frame (env : Env) (native : NativeService) (X Y : Nat)
    (headers : List Bytes) (msg : Option NeoCrossChainMsg) (hY : Y ≠ X)
    (hk : KeyedByChainID native.cacheDB) :
    (processHeadersAndMsg env native X headers msg).2.cacheDB.consensusPeer Y =
      native.cacheDB.consensusPeer Y ∧
    (processHeadersAndMsg env native X headers msg).2.cacheDB.keyHash Y =
      native.cacheDB.keyHash Y := by
  cases hcur : native.cacheDB.consensusPeer X with
  | none =>
    rw [processHeadersAndMsg_uninitialised env native X headers msg hcur]
    exact ⟨rfl, rfl⟩
  | some cur =>
    cases hloop : headerLoop env headers (cur, cur) with
    | error e =>
      rw [processHeadersAndMsg_loop_error env native X headers msg cur e hcur hloop]
      exact ⟨rfl, rfl⟩
    | ok st =>
      obtain ⟨prior, newest⟩ := st
      have hid := (headerLoop_chainID_height env headers cur cur prior newest hloop).1
      have hcid : cur.ChainID = X := hk X cur hcur
      constructor
      · rw [processHeadersAndMsg_consensusPeer env native X headers msg cur prior newest
          hcur hloop, storeIfHigher_consensusPeer]
        rw [if_neg]
        rintro ⟨_, h2⟩
        exact hY (by rw [h2, hid, hcid])
      · simp only [processHeadersAndMsg, getConsensusValByChainId, hcur, hloop]
        cases msg with
        | none => simp only [storeIfHigher_keyHash]
        | some m =>
          simp only []
          rw [processMsg_keyHash_other env _ X Y m prior newest hY, storeIfHigher_keyHash]

/-- The function `processHeadersAndMsg` for chain id `X` on two services
that hold the same record and the same digest for `X`. -/
theorem processHeadersAndMsg_local (env : Env) (n1 n2 : NativeService) (X : Nat)
    (headers : List Bytes) (msg : Option NeoCrossChainMsg)
    (hk : KeyedByChainID n1.cacheDB)
    (hc : n1.cacheDB.consensusPeer X = n2.cacheDB.consensusPeer X)
    (hh : n1.cacheDB.keyHash X = n2.cacheDB.keyHash X) :
    (processHeadersAndMsg env n1 X headers msg).1 =
      (processHeadersAndMsg env n2 X headers msg).1 ∧
    (processHeadersAndMsg env n1 X headers msg).2.cacheDB.consensusPeer X =
      (processHeadersAndMsg env n2 X headers msg).2.cacheDB.consensusPeer X ∧
    (processHeadersAndMsg env n1 X headers msg).2.cacheDB.keyHash X =
      (processHeadersAndMsg env n2 X headers msg).2.cacheDB.keyHash X := by
  cases hcur : n1.cacheDB.consensusPeer X with
  | none =>
    rw [processHeadersAndMsg_uninitialised env n1 X headers msg hcur,
      processHeadersAndMsg_uninitialised env n2 X headers msg (hc ▸ hcur)]
    exact ⟨rfl, hc, hh⟩
  | some cur =>
    have hcur2 : n2.cacheDB.consensusPeer X = some cur := hc ▸ hcur
    cases hloop : headerLoop env headers (cur, cur) with
    | error e =>
      rw [processHeadersAndMsg_loop_error env n1 X headers msg cur e hcur hloop,
        processHeadersAndMsg_loop_error env n2 X headers msg cur e hcur2 hloop]
      exact ⟨rfl, hc, hh⟩
    | ok st =>
      obtain ⟨prior, newest⟩ := st
      have hcid : cur.ChainID = X := hk X cur hcur
      have hn : newest.ChainID = X :=
        (headerLoop_chainID_height env headers cur cur prior newest hloop).1.trans hcid
      have hp : prior.ChainID = X :=
        (headerLoop_prior_chainID env headers cur cur prior newest rfl hloop).trans hcid
      refine ⟨?_, ?_, ?_⟩
      · simp only [processHeadersAndMsg, getConsensusValByChainId, hcur, hcur2, hloop]
        cases msg with
        | none => rfl
        | some m =>
          exact (processMsg_local env _ _ X m prior newest hp hn
            (by rw [storeIfHigher_keyHash, storeIfHigher_keyHash]; exact hh)).1
      · rw [processHeadersAndMsg_consensusPeer env n1 X headers msg cur prior newest hcur hloop,
          processHeadersAndMsg_consensusPeer env n2 X headers msg cur prior newest hcur2 hloop,
          storeIfHigher_consensusPeer, storeIfHigher_consensusPeer, hc]
      · simp only [processHeadersAndMsg, getConsensusValByChainId, hcur, hcur2, hloop]
        cases msg with
        | none => simp only [storeIfHigher_keyHash]; exact hh
        | some m =>
          exact (processMsg_local env _ _ X m prior newest hp hn
            (by rw [storeIfHigher_keyHash, storeIfHigher_keyHash]; exact hh)).2


theorem VerifyCrossChainMsgSig_frame (env : Env) (native : NativeService) (X Y : Nat)
    (msg : NeoCrossChainMsg) (headers : List Bytes) (hY : Y ≠ X)
    (hk : KeyedByChainID native.cacheDB) :
    (VerifyCrossChainMsgSig env native X msg headers).2.cacheDB.consensusPeer Y =
      native.cacheDB.consensusPeer Y ∧
    (VerifyCrossChainMsgSig env native X msg headers).2.cacheDB.keyHash Y =
      native.cacheDB.keyHash Y := by
  unfold VerifyCrossChainMsgSig
  split
  · exact processHeadersAndMsg_frame env native X Y headers (some msg) hY hk
  · cases getConsensusValByChainId native X <;> exact ⟨rfl, rfl⟩

theorem VerifyCrossChainMsgSig_local (env : Env) (n1 n2 : NativeService) (X : Nat)
    (msg : NeoCrossChainMsg) (headers : List Bytes)
    (hk : KeyedByChainID n1.cacheDB)
    (hc : n1.cacheDB.consensusPeer X = n2.cacheDB.consensusPeer X)
    (hh : n1.cacheDB.keyHash X = n2.cacheDB.keyHash X) :
    (VerifyCrossChainMsgSig env n1 X msg headers).1 =
      (VerifyCrossChainMsgSig env n2 X msg headers).1 ∧
    (VerifyCrossChainMsgSig env n1 X msg headers).2.cacheDB.consensusPeer X =
      (VerifyCrossChainMsgSig env n2 X msg headers).2.cacheDB.consensusPeer X ∧
    (VerifyCrossChainMsgSig env n1 X msg headers).2.cacheDB.keyHash X =
      (VerifyCrossChainMsgSig env n2 X msg headers).2.cacheDB.keyHash X := by
  unfold VerifyCrossChainMsgSig
  split
  · exact processHeadersAndMsg_local env n1 n2 X headers (some msg) hk hc hh
  · simp only [getConsensusValByChainId, ← hc]
    cases hcur : n1.cacheDB.consensusPeer X with
    | none => exact ⟨rfl, hcur.trans (hc ▸ hcur).symm, hh⟩
    | some cur =>
      simp only
      refine ⟨verifyCrossChainMsg_congr env n1 n2 msg cur ?_, hcur.trans (hc ▸ hcur).symm, hh⟩
      rw [hk X cur hcur]
      exact hh

theorem SyncGenesisHeader_frame (env : Env) (native : NativeService) (Y : Nat)
    (hY : ∀ params, env.decodeSyncGenesisHeaderParam native.input = some params →
      params.ChainID ≠ Y) :
    (SyncGenesisHeader env native).2.cacheDB.consensusPeer Y = native.cacheDB.consensusPeer Y ∧
    (SyncGenesisHeader env native).2.cacheDB.keyHash Y = native.cacheDB.keyHash Y := by
  refine ⟨?_, by rw [SyncGenesisHeader_keyHash]⟩
  rcases SyncGenesisHeader_consensusPeer env native with h | ⟨params, header, hp, _, _, h⟩
  · rw [h]
  · rw [h]
    simp only [if_neg (fun e : Y = params.ChainID => hY params hp e.symm)]

theorem SyncGenesisHeader_local (env : Env) (input : Bytes) (checkWitness : Address → Bool)
    (db1 db2 : CacheDB) (X : Nat)
    (hX : ∀ params, env.decodeSyncGenesisHeaderParam input = some params →
      params.ChainID = X)
    (hc : db1.consensusPeer X = db2.consensusPeer X)
    (hh : db1.keyHash X = db2.keyHash X) :
    (SyncGenesisHeader env
        { input := input, checkWitness := checkWitness, cacheDB := db1 }).1 =
      (SyncGenesisHeader env
        { input := input, checkWitness := checkWitness, cacheDB := db2 }).1 ∧
    (SyncGenesisHeader env
        { input := input, checkWitness := checkWitness, cacheDB := db1 }).2.cacheDB.consensusPeer X =
      (SyncGenesisHeader env
        { input := input, checkWitness := checkWitness, cacheDB := db2 }).2.cacheDB.consensusPeer X ∧
    (SyncGenesisHeader env
        { input := input, checkWitness := checkWitness, cacheDB := db1 }).2.cacheDB.keyHash X =
      (SyncGenesisHeader env
        { input := input, checkWitness := checkWitness, cacheDB := db2 }).2.cacheDB.keyHash X := by
  refine ⟨?_, ?_, by rw [SyncGenesisHeader_keyHash, SyncGenesisHeader_keyHash]; exact hh⟩
  · unfold SyncGenesisHeader
    cases hp : env.decodeSyncGenesisHeaderParam input with
    | none => rfl
    | some params =>
      have hx := hX params hp
      simp only
      cases AddressFromBookkeepers env env.GenesisBookkeepers with
      | error e => rfl
      | ok operatorAddress =>
        simp only [ValidateOwner]
        by_cases hw : checkWitness operatorAddress = true
        · simp only [hw, if_true]
          cases env.decodeNeoBlockHeader params.GenesisHeader with
          | none => rfl
          | some header =>
            simp only [getConsensusValByChainId, hx, hc]
            cases db2.consensusPeer X <;> rfl
        · simp [hw]
  · unfold SyncGenesisHeader
    cases hp : env.decodeSyncGenesisHeaderParam input with
    | none => exact hc
    | some params =>
      have hx := hX params hp
      simp only
      cases AddressFromBookkeepers env env.GenesisBookkeepers with
      | error e => exact hc
      | ok operatorAddress =>
        simp only [ValidateOwner]
        by_cases hw : checkWitness operatorAddress = true
        · simp only [hw, if_true]
          cases env.decodeNeoBlockHeader params.GenesisHeader with
          | none => exact hc
          | some header =>
            simp only [getConsensusValByChainId, hx, hc]
            cases h2 : db2.consensusPeer X with
            | none => simp [putConsensusValByChainId]
            | some r => exact hc
        · simp only [hw, Bool.false_eq_true, if_false]
          exact hc

/-- A call made for chain id `X` leaves the entries of every other chain id
as they were, on a database keyed by chain id. -/
theorem callRun_frame (env : Env) (db : CacheDB) (call : Call) (X Y : Nat)
    (hcall : call.chainOf env = some X) (hXY : X ≠ Y) (hk : KeyedByChainID db) :
    (call.run env db).2.consensusPeer Y = db.consensusPeer Y ∧
    (call.run env db).2.keyHash Y = db.keyHash Y := by
  cases call with
  | syncGenesisHeader input checkWitness =>
    refine SyncGenesisHeader_frame env
      { input := input, checkWitness := checkWitness, cacheDB := db } Y ?_
    intro params hp
    simp only [Call.chainOf] at hcall
    rw [hp] at hcall
    simp only [Option.map_some', Option.some.injEq] at hcall
    rw [hcall]; exact hXY
  | syncBlockHeader input checkWitness =>
    simp only [Call.chainOf] at hcall
    simp only [Call.run, SyncBlockHeader]
    cases hp : env.decodeSyncBlockHeaderParam input with
    | none => exact ⟨rfl, rfl⟩
    | some params =>
      rw [hp] at hcall
      simp only [Option.map_some', Option.some.injEq] at hcall
      simp only [hcall]
      exact processHeadersAndMsg_frame env
        { input := input, checkWitness := checkWitness, cacheDB := db } X Y _ none
        (fun e => hXY e.symm) hk
  | verifyCrossChainMsgSig chainID msg headers =>
    simp only [Call.chainOf, Option.some.injEq] at hcall
    subst hcall
    exact VerifyCrossChainMsgSig_frame env
      { input := [], checkWitness := fun _ => false, cacheDB := db } chainID Y msg headers
      (fun e => hXY e.symm) hk

/-- A call made for chain id `X` gives the same result and the same entries
for `X` on two databases that hold the same entries for `X`. -/
theorem callRun_local (env : Env) (db1 db2 : CacheDB) (call : Call) (X : Nat)
    (hcall : call.chainOf env = some X) (hk : KeyedByChainID db1)
    (hc : db1.consensusPeer X = db2.consensusPeer X)
    (hh : db1.keyHash X = db2.keyHash X) :
    (call.run env db1).1 = (call.run env db2).1 ∧
    (call.run env db1).2.consensusPeer X = (call.run env db2).2.consensusPeer X ∧
    (call.run env db1).2.keyHash X = (call.run env db2).2.keyHash X := by
  cases call with
  | syncGenesisHeader input checkWitness =>
    refine SyncGenesisHeader_local env input checkWitness db1 db2 X ?_ hc hh
    intro params hp
    simp only [Call.chainOf] at hcall
    rw [hp] at hcall
    simpa using hcall
  | syncBlockHeader input checkWitness =>
    simp only [Call.chainOf] at hcall
    simp only [Call.run, SyncBlockHeader]
    cases hp : env.decodeSyncBlockHeaderParam input with
    | none => exact ⟨rfl, hc, hh⟩
    | some params =>
      rw [hp] at hcall
      simp only [Option.map_some', Option.some.injEq] at hcall
      simp only [hcall]
      exact processHeadersAndMsg_local env
        { input := input, checkWitness := checkWitness, cacheDB := db1 }
        { input := input, checkWitness := checkWitness, cacheDB := db2 } X _ none hk hc hh
  | verifyCrossChainMsgSig chainID msg headers =>
    simp only [Call.chainOf, Option.some.injEq] at hcall
    subst hcall
    exact VerifyCrossChainMsgSig_local env
      { input := [], checkWitness := fun _ => false, cacheDB := db1 }
      { input := [], checkWitness := fun _ => false, cacheDB := db2 } chainID msg headers
      hk hc hh


/-- The address `AddressFromMultiPubKeys` returns once the parameter check
has passed. -/
theorem multisig_threshold_free_aux (env : Env) (pubkeys : List PublicKey) (m : Int)
    (h : 1 ≤ m ∧ m ≤ (pubkeys.length : Int) ∧ (pubkeys.length : Int) > 1 ∧
      (pubkeys.length : Int) ≤ (env.MULTI_SIG_MAX_PUBKEY_SIZE : Int)) :
    AddressFromMultiPubKeys env pubkeys m =
      .ok (env.AddressFromVmCode
        (pubkeys.foldl
          (fun sink v => sink ++ env.WriteVarBytes (env.SerializePublicKey v)) [])) := by
  unfold AddressFromMultiPubKeys
  simp only [h, and_self, not_true_eq_false, if_false]


/-! ## Reading back what was written -/

/-- A source cut short inside `a ++ b` is cut inside `a`, or holds all of `a`
and is cut inside `b`. -/
theorem strictPrefix_append {α : Type} (p a b : List α) (hp : p <+: a ++ b)
    (hne : p ≠ a ++ b) :
    (p <+: a ∧ p ≠ a) ∨ ∃ q, p = a ++ q ∧ q <+: b ∧ q ≠ b := by
  rcases List.prefix_or_prefix_of_prefix hp (List.prefix_append a b) with h | h
  · by_cases hpa : p = a
    · refine Or.inr ⟨[], by simp [hpa], List.nil_prefix, ?_⟩
      intro hb
      exact hne (by rw [hpa, ← hb]; simp)
    · exact Or.inl ⟨h, hpa⟩
  · obtain ⟨q, rfl⟩ := h
    refine Or.inr ⟨q, rfl, (List.prefix_append_right_inj a).1 hp, ?_⟩
    intro hq
    exact hne (by rw [hq])

theorem nextLE_read (k n : Nat) (rest : Bytes) :
    Demo.nextLE k (leBytes k n ++ rest) = some (n % 256 ^ k, rest) := by
  unfold Demo.nextLE
  have hl := leBytes_length k n
  rw [if_neg (by simp [hl]), List.take_left' hl, List.drop_left' hl, leValue_leBytes]

theorem nextLE_short (k n : Nat) (p : Bytes) (hp : p <+: leBytes k n)
    (hne : p ≠ leBytes k n) : Demo.nextLE k p = none := by
  unfold Demo.nextLE
  have hl := leBytes_length k n
  have h1 := hp.length_le
  have h2 : p.length ≠ k := fun h => hne (hp.eq_of_length (by rw [h, hl]))
  rw [if_pos (by omega)]

theorem nextVarUint_read (n : Nat) (rest : Bytes) (hn : n < 2 ^ 64) :
    Demo.nextVarUint (Demo.writeVarUint n ++ rest) = some (n, rest) := by
  unfold Demo.writeVarUint
  by_cases h1 : n < 0xFD
  · rw [if_pos h1]
    simp only [List.singleton_append, Demo.nextVarUint]
    rw [if_neg (by omega), if_neg (by omega), if_neg (by omega)]
  · rw [if_neg h1]
    by_cases h2 : n ≤ 0xFFFF
    · rw [if_pos h2]
      simp only [List.cons_append, Demo.nextVarUint, if_true]
      rw [nextLE_read, Nat.mod_eq_of_lt (by norm_num; omega)]
    · rw [if_neg h2]
      by_cases h3 : n ≤ 0xFFFFFFFF
      · rw [if_pos h3]
        simp only [List.cons_append, Demo.nextVarUint]
        rw [if_pos trivial, nextLE_read, Nat.mod_eq_of_lt (by norm_num; omega)]
        simp
      · rw [if_neg h3]
        simp only [List.cons_append, Demo.nextVarUint]
        rw [if_pos trivial, nextLE_read, Nat.mod_eq_of_lt (by norm_num at hn ⊢; omega)]
        simp

theorem nextVarUint_short (n : Nat) (p : Bytes) (hp : p <+: Demo.writeVarUint n)
    (hne : p ≠ Demo.writeVarUint n) : Demo.nextVarUint p = none := by
  cases p with
  | nil => rfl
  | cons fb q =>
    unfold Demo.writeVarUint at hp hne
    by_cases h1 : n < 0xFD
    · rw [if_pos h1] at hp hne
      have := hp.length_le
      have hq : q = [] := by
        cases q with
        | nil => rfl
        | cons _ _ => simp at this
      subst hq
      exact absurd (hp.eq_of_length rfl) hne
    · rw [if_neg h1] at hp hne
      by_cases h2 : n ≤ 0xFFFF
      · rw [if_pos h2] at hp hne
        obtain ⟨rfl, hq⟩ := List.cons_prefix_cons.1 hp
        simp only [Demo.nextVarUint, if_true]
        exact nextLE_short 2 n q hq (fun h => hne (by rw [h]))
      · rw [if_neg h2] at hp hne
        by_cases h3 : n ≤ 0xFFFFFFFF
        · rw [if_pos h3] at hp hne
          obtain ⟨rfl, hq⟩ := List.cons_prefix_cons.1 hp
          simp only [Demo.nextVarUint]
          rw [if_pos trivial]
          exact nextLE_short 4 n q hq (fun h => hne (by rw [h]))
        · rw [if_neg h3] at hp hne
          obtain ⟨rfl, hq⟩ := List.cons_prefix_cons.1 hp
          simp only [Demo.nextVarUint]
          rw [if_pos trivial]
          exact nextLE_short 8 n q hq (fun h => hne (by rw [h]))

theorem nextVarBytes_read (b rest : Bytes) (hb : b.length < 2 ^ 64) :
    Demo.nextVarBytes (Demo.writeVarBytes b ++ rest) = some (b, rest) := by
  unfold Demo.nextVarBytes Demo.writeVarBytes
  rw [List.append_assoc, nextVarUint_read _ _ hb]
  simp only
  rw [if_neg (by simp), List.take_left' rfl, List.drop_left' rfl]

theorem nextVarBytes_short (b p : Bytes) (hb : b.length < 2 ^ 64)
    (hp : p <+: Demo.writeVarBytes b) (hne : p ≠ Demo.writeVarBytes b) :
    Demo.nextVarBytes p = none := by
  unfold Demo.writeVarBytes at hp hne
  unfold Demo.nextVarBytes
  rcases strictPrefix_append p _ _ hp hne with ⟨h1, h2⟩ | ⟨q, rfl, h1, h2⟩
  · rw [nextVarUint_short _ p h1 h2]
  · rw [nextVarUint_read _ _ hb]
    simp only
    have hl := h1.length_le
    have : q.length ≠ b.length := fun h => h2 (h1.eq_of_length h)
    rw [if_pos (by omega)]

/-- The concrete codec keeps the promises of the codec layer. -/
theorem demo_codec_lawful : Demo.codec.Lawful where
  uint32_read := fun n rest hn => by
    show Demo.nextLE 4 (leBytes 4 n ++ rest) = _
    rw [nextLE_read, Nat.mod_eq_of_lt (by norm_num at hn ⊢; omega)]
  uint64_read := fun n rest hn => by
    show Demo.nextLE 8 (leBytes 8 n ++ rest) = _
    rw [nextLE_read, Nat.mod_eq_of_lt (by norm_num at hn ⊢; omega)]
  varBytes_read := fun b rest hb => nextVarBytes_read b rest hb
  string_read := fun b rest hb => nextVarBytes_read b rest hb
  uint32_short := fun n p _ hp hne => nextLE_short 4 n p hp hne
  uint64_short := fun n p _ hp hne => nextLE_short 8 n p hp hne
  varBytes_short := fun b p hb hp hne => nextVarBytes_short b p hb hp hne


theorem OutPoint_read (c : Codec) (hc : c.Lawful) (o : OutPoint) (ho : o.InRange)
    (rest : Bytes) :
    OutPoint.Deserialization c (o.Serialization c ++ rest) = some (o, rest) := by
  unfold OutPoint.Deserialization OutPoint.Serialization
  rw [List.append_assoc, hc.varBytes_read _ _ ho.1]
  simp only
  rw [hc.uint32_read _ _ ho.2]

theorem OutPoint_short (c : Codec) (hc : c.Lawful) (o : OutPoint) (ho : o.InRange)
    (p : Bytes) (hp : p <+: o.Serialization c) (hne : p ≠ o.Serialization c) :
    OutPoint.Deserialization c p = none := by
  unfold OutPoint.Serialization at hp hne
  unfold OutPoint.Deserialization
  rcases strictPrefix_append p _ _ hp hne with ⟨h1, h2⟩ | ⟨q, rfl, h1, h2⟩
  · rw [hc.varBytes_short _ p ho.1 h1 h2]
  · rw [hc.varBytes_read _ _ ho.1]
    simp only
    rw [hc.uint32_short _ q ho.2 h1 h2]

theorem Utxo_read (c : Codec) (hc : c.Lawful) (u : Utxo) (hu : u.InRange) (rest : Bytes) :
    Utxo.Deserialization c (u.Serialization c ++ rest) = some (u, rest) := by
  unfold Utxo.Deserialization Utxo.Serialization
  simp only [List.append_assoc]
  rw [OutPoint_read c hc u.Op hu.1]
  simp only
  rw [hc.uint32_read _ _ hu.2.1]
  simp only
  rw [hc.uint64_read _ _ hu.2.2.1]
  simp only
  rw [hc.varBytes_read _ _ hu.2.2.2]

theorem Utxo_short (c : Codec) (hc : c.Lawful) (u : Utxo) (hu : u.InRange)
    (p : Bytes) (hp : p <+: u.Serialization c) (hne : p ≠ u.Serialization c) :
    Utxo.Deserialization c p = none := by
  unfold Utxo.Serialization at hp hne
  simp only [List.append_assoc] at hp hne
  unfold Utxo.Deserialization
  rcases strictPrefix_append p _ _ hp hne with ⟨h1, h2⟩ | ⟨q, rfl, h1, h2⟩
  · rw [OutPoint_short c hc u.Op hu.1 p h1 h2]
  · rw [OutPoint_read c hc u.Op hu.1]
    simp only
    rcases strictPrefix_append q _ _ h1 h2 with ⟨h3, h4⟩ | ⟨q2, rfl, h3, h4⟩
    · rw [hc.uint32_short _ q hu.2.1 h3 h4]
    · rw [hc.uint32_read _ _ hu.2.1]
      simp only
      rcases strictPrefix_append q2 _ _ h3 h4 with ⟨h5, h6⟩ | ⟨q3, rfl, h5, h6⟩
      · rw [hc.uint64_short _ q2 hu.2.2.1 h5 h6]
      · rw [hc.uint64_read _ _ hu.2.2.1]
        simp only
        rw [hc.varBytes_short _ q3 hu.2.2.2 h5 h6]

/-- What the loop of `Utxos.Serialization` appends to the sink. -/
theorem Utxos_foldl_eq (c : Codec) (l : List Utxo) (sink : Bytes) :
    l.foldl (fun sink v => sink ++ v.Serialization c) sink =
      sink ++ (l.map (fun v => v.Serialization c)).flatten := by
  induction l generalizing sink with
  | nil => simp
  | cons v l ih => simp [ih, List.append_assoc]

theorem Utxos_readLoop_read (c : Codec) (hc : c.Lawful) (l : List Utxo)
    (hl : ∀ v ∈ l, v.InRange) (acc : List Utxo) (rest : Bytes) :
    Utxos.readLoop c l.length ((l.map (fun v => v.Serialization c)).flatten ++ rest) acc =
      some (acc ++ l, rest) := by
  induction l generalizing acc with
  | nil => simp [Utxos.readLoop]
  | cons v l ih =>
    simp only [List.length_cons, List.map_cons, List.flatten_cons, List.append_assoc,
      Utxos.readLoop]
    rw [Utxo_read c hc v (hl v (List.mem_cons_self _ _))]
    simp only
    rw [ih (fun w hw => hl w (List.mem_cons_of_mem _ hw))]
    simp

theorem Utxos_readLoop_short (c : Codec) (hc : c.Lawful) (l : List Utxo)
    (hl : ∀ v ∈ l, v.InRange) (acc : List Utxo) (p : Bytes)
    (hp : p <+: (l.map (fun v => v.Serialization c)).flatten)
    (hne : p ≠ (l.map (fun v => v.Serialization c)).flatten) :
    Utxos.readLoop c l.length p acc = none := by
  induction l generalizing acc p with
  | nil =>
    simp only [List.map_nil, List.flatten_nil, List.prefix_nil] at hp hne
    exact absurd hp hne
  | cons v l ih =>
    simp only [List.map_cons, List.flatten_cons] at hp hne
    simp only [List.length_cons, Utxos.readLoop]
    rcases strictPrefix_append p _ _ hp hne with ⟨h1, h2⟩ | ⟨q, rfl, h1, h2⟩
    · rw [Utxo_short c hc v (hl v (List.mem_cons_self _ _)) p h1 h2]
    · rw [Utxo_read c hc v (hl v (List.mem_cons_self _ _))]
      simp only
      exact ih (fun w hw => hl w (List.mem_cons_of_mem _ hw)) _ q h1 h2


/-! ## The order of strings and the sorted key list -/

theorem strLess_irrefl (a : Bytes) : strLess a a = false := by
  induction a with
  | nil => rfl
  | cons x xs ih => simp [strLess, ih]

theorem strLess_trans (a b c : Bytes) (h1 : strLess a b = true) (h2 : strLess b c = true) :
    strLess a c = true := by
  induction a generalizing b c with
  | nil =>
    cases b with
    | nil => simp [strLess] at h1
    | cons y ys =>
      cases c with
      | nil => simp [strLess] at h2
      | cons z zs => rfl
  | cons x xs ih =>
    cases b with
    | nil => simp [strLess] at h1
    | cons y ys =>
      cases c with
      | nil => simp [strLess] at h2
      | cons z zs =>
        simp only [strLess, Bool.or_eq_true, Bool.and_eq_true, decide_eq_true_eq] at h1 h2 ⊢
        rcases h1 with h1 | ⟨h1, h1'⟩
        · rcases h2 with h2 | ⟨h2, _⟩
          · exact Or.inl (by omega)
          · exact Or.inl (by omega)
        · rcases h2 with h2 | ⟨h2, h2'⟩
          · exact Or.inl (by omega)
          · exact Or.inr ⟨by omega, ih ys zs h1' h2'⟩

theorem strLess_trichotomy (a b : Bytes) (h : a ≠ b) :
    strLess a b = true ∨ strLess b a = true := by
  induction a generalizing b with
  | nil =>
    cases b with
    | nil => exact absurd rfl h
    | cons y ys => exact Or.inl rfl
  | cons x xs ih =>
    cases b with
    | nil => exact Or.inr rfl
    | cons y ys =>
      simp only [strLess, Bool.or_eq_true, Bool.and_eq_true, decide_eq_true_eq]
      rcases Nat.lt_trichotomy x y with hxy | hxy | hxy
      · exact Or.inl (Or.inl hxy)
      · subst hxy
        have hne : xs ≠ ys := fun e => h (by rw [e])
        rcases ih ys hne with h1 | h1
        · exact Or.inl (Or.inr ⟨rfl, h1⟩)
        · exact Or.inr (Or.inr ⟨rfl, h1⟩)
      · exact Or.inr (Or.inl hxy)

theorem strLess_asymm (a b : Bytes) (h1 : strLess a b = true) (h2 : strLess b a = true) :
    False := by
  have := strLess_trans a b a h1 h2
  rw [strLess_irrefl] at this
  exact absurd this (by simp)

/-- Inserting a new key into a list in strictly descending order keeps the
order. -/
theorem sorted_orderedInsert_desc (a : Bytes) (l : List Bytes)
    (hs : List.Sorted (fun a b => strLess b a = true) l) (ha : a ∉ l) :
    List.Sorted (fun a b => strLess b a = true)
      (List.orderedInsert (fun a b => strLess b a = true) a l) := by
  induction l with
  | nil => simp
  | cons b t ih =>
    have hab : a ≠ b := fun e => ha (by rw [e]; exact List.mem_cons_self _ _)
    have hat : a ∉ t := fun e => ha (List.mem_cons_of_mem _ e)
    have hcons := List.pairwise_cons.1 hs
    simp only [List.orderedInsert]
    split
    · rename_i hr
      refine List.pairwise_cons.2 ⟨?_, hs⟩
      intro x hx
      rcases List.mem_cons.1 hx with rfl | hx
      · exact hr
      · exact strLess_trans x b a (hcons.1 x hx) hr
    · rename_i hr
      refine List.pairwise_cons.2 ⟨?_, ih hcons.2 hat⟩
      intro x hx
      rcases (List.mem_orderedInsert _).1 hx with rfl | hx
      · rcases strLess_trichotomy x b hab with h | h
        · exact h
        · exact absurd h hr
      · exact hcons.1 x hx

/-- The sorted list of distinct keys is in strictly descending order. -/
theorem sorted_insertionSort_desc (l : List Bytes) (hl : l.Nodup) :
    List.Sorted (fun a b => strLess b a = true)
      (l.insertionSort (fun a b => strLess b a = true)) := by
  induction l with
  | nil => simp
  | cons a t ih =>
    have hn := List.nodup_cons.1 hl
    simp only [List.insertionSort]
    refine sorted_orderedInsert_desc a _ (ih hn.2) ?_
    intro hmem
    exact hn.1 ((List.perm_insertionSort _ t).mem_iff.1 hmem)

/-- Two key lists with the same distinct keys sort to the same list. -/
theorem insertionSort_desc_perm (l1 l2 : List Bytes) (hp : l1.Perm l2) (hl : l2.Nodup) :
    l1.insertionSort (fun a b => strLess b a = true) =
      l2.insertionSort (fun a b => strLess b a = true) := by
  haveI : IsAntisymm Bytes (fun a b => strLess b a = true) :=
    ⟨fun a b h1 h2 => (strLess_asymm b a h1 h2).elim⟩
  refine List.eq_of_perm_of_sorted ?_ (sorted_insertionSort_desc l1 (hp.nodup_iff.2 hl))
    (sorted_insertionSort_desc l2 hl)
  exact ((List.perm_insertionSort _ l1).trans hp).trans (List.perm_insertionSort _ l2).symm

/-! ## Maps as entry lists -/

theorem mapIndex_of_mem (m : List (Bytes × List Bytes)) (hk : (m.map Prod.fst).Nodup)
    (k : Bytes) (v : List Bytes) (h : (k, v) ∈ m) : mapIndex m k = v := by
  induction m with
  | nil => exact absurd h (List.not_mem_nil _)
  | cons e m ih =>
    obtain ⟨k2, v2⟩ := e
    simp only [List.map_cons, List.nodup_cons] at hk
    simp only [mapIndex]
    rcases List.mem_cons.1 h with h | h
    · simp only [Prod.mk.injEq] at h
      rw [if_pos h.1, h.2]
    · have hne : k ≠ k2 := by
        intro e
        exact hk.1 (by rw [← e]; exact List.mem_map.2 ⟨(k, v), h, rfl⟩)
      rw [if_neg hne]
      exact ih hk.2 h

theorem mapIndex_not_mem (m : List (Bytes × List Bytes)) (k : Bytes)
    (h : k ∉ m.map Prod.fst) : mapIndex m k = [] := by
  induction m with
  | nil => rfl
  | cons e m ih =>
    obtain ⟨k2, v2⟩ := e
    simp only [List.map_cons, List.mem_cons, not_or] at h
    simp only [mapIndex]
    rw [if_neg h.1]
    exact ih h.2

theorem mapIndex_mem (m : List (Bytes × List Bytes)) (k : Bytes)
    (h : k ∈ m.map Prod.fst) : (k, mapIndex m k) ∈ m := by
  induction m with
  | nil => simp at h
  | cons e m ih =>
    obtain ⟨k2, v2⟩ := e
    simp only [mapIndex]
    by_cases hk : k = k2
    · rw [if_pos hk, hk]
      exact List.mem_cons_self _ _
    · rw [if_neg hk]
      simp only [List.map_cons, List.mem_cons] at h
      rcases h with h | h
      · exact absurd h hk
      · exact List.mem_cons_of_mem _ (ih h)

/-- Two entry lists with the same entries and distinct keys are the same
map. -/
theorem mapIndex_perm (m1 m2 : List (Bytes × List Bytes)) (hp : m1.Perm m2)
    (hk : (m2.map Prod.fst).Nodup) (k : Bytes) : mapIndex m1 k = mapIndex m2 k := by
  have hk1 : (m1.map Prod.fst).Nodup := (hp.map Prod.fst).nodup_iff.2 hk
  by_cases h : k ∈ m2.map Prod.fst
  · exact mapIndex_of_mem m1 hk1 k _ (hp.mem_iff.2 (mapIndex_mem m2 k h))
  · rw [mapIndex_not_mem m2 k h,
      mapIndex_not_mem m1 k (fun e => h ((hp.map Prod.fst).mem_iff.1 e))]

theorem mapAssign_new (m : List (Bytes × List Bytes)) (k : Bytes) (v : List Bytes)
    (h : k ∉ m.map Prod.fst) : mapAssign m k v = m ++ [(k, v)] := by
  induction m with
  | nil => rfl
  | cons e m ih =>
    obtain ⟨k2, v2⟩ := e
    simp only [List.map_cons, List.mem_cons, not_or] at h
    simp only [mapAssign]
    rw [if_neg h.1, ih h.2]
    rfl

/-- Listing each key of a map with the value read under it gives back the
entries. -/
theorem map_keys_mapIndex (m : List (Bytes × List Bytes)) (hk : (m.map Prod.fst).Nodup) :
    (m.map Prod.fst).map (fun k => (k, mapIndex m k)) = m := by
  rw [List.map_map]
  conv_rhs => rw [← List.map_id m]
  apply List.map_congr_left
  intro e he
  obtain ⟨k, v⟩ := e
  simp only [Function.comp, id]
  rw [mapIndex_of_mem m hk k v he]

/-! ## `MultiSignInfo` on the wire -/

/-- What a loop that appends `f v` for each `v` leaves in the sink. -/
theorem foldl_append_flatten {α : Type} (f : α → Bytes) (l : List α) (sink : Bytes) :
    l.foldl (fun sink v => sink ++ f v) sink = sink ++ (l.map f).flatten := by
  induction l generalizing sink with
  | nil => simp
  | cons v l ih => simp [ih, List.append_assoc]

/-- The bytes of `MultiSignInfo.Serialization`: the count, then one block per
key of the sorted key list. -/
theorem MultiSignInfo_Serialization_eq (c : Codec) (m : Poly.MultiSignInfo) :
    m.Serialization c =
      c.WriteUint64 m.MultiSignInfo.length ++
        (((m.MultiSignInfo.map Prod.fst).insertionSort (fun a b => strLess b a = true)).map
          (fun k => MultiSignInfo.entryBytes c k (mapIndex m.MultiSignInfo k))).flatten := by
  unfold MultiSignInfo.Serialization
  have hf : (fun (sink : Bytes) (k : Bytes) =>
      (mapIndex m.MultiSignInfo k).foldl (fun sink b => sink ++ c.WriteVarBytes b)
        (sink ++ c.WriteString k ++ c.WriteUint64 (mapIndex m.MultiSignInfo k).length)) =
      (fun sink k => sink ++ MultiSignInfo.entryBytes c k (mapIndex m.MultiSignInfo k)) := by
    funext sink k
    rw [foldl_append_flatten]
    simp [MultiSignInfo.entryBytes, List.append_assoc]
  rw [hf, foldl_append_flatten]

theorem MultiSignInfo_readItems_read (c : Codec) (hc : c.Lawful) (v : List Bytes)
    (hv : ∀ b ∈ v, b.length < 2 ^ 64) (acc : List Bytes) (rest : Bytes) :
    MultiSignInfo.readItems c v.length ((v.map c.WriteVarBytes).flatten ++ rest) acc =
      some (acc ++ v, rest) := by
  induction v generalizing acc with
  | nil => simp [MultiSignInfo.readItems]
  | cons b v ih =>
    simp only [List.length_cons, List.map_cons, List.flatten_cons, List.append_assoc,
      MultiSignInfo.readItems]
    rw [hc.varBytes_read _ _ (hv b (List.mem_cons_self _ _))]
    simp only
    rw [ih (fun x hx => hv x (List.mem_cons_of_mem _ hx))]
    simp

/-- Reading back the blocks of a list of new, distinct keys appends one entry
per key to the map read so far. -/
theorem MultiSignInfo_readLoop_read (c : Codec) (hc : c.Lawful) (f : Bytes → List Bytes)
    (ks : List Bytes) (hnd : ks.Nodup)
    (hr : ∀ k ∈ ks, k.length < 2 ^ 64 ∧ (f k).length < 2 ^ 64 ∧
      ∀ b ∈ f k, b.length < 2 ^ 64)
    (acc : List (Bytes × List Bytes)) (hacc : ∀ k ∈ ks, k ∉ acc.map Prod.fst)
    (rest : Bytes) :
    MultiSignInfo.readLoop c ks.length
        ((ks.map (fun k => MultiSignInfo.entryBytes c k (f k))).flatten ++ rest) acc =
      some (acc ++ ks.map (fun k => (k, f k)), rest) := by
  induction ks generalizing acc with
  | nil => simp [MultiSignInfo.readLoop]
  | cons k ks ih =>
    have hk := hr k (List.mem_cons_self _ _)
    have hn := List.nodup_cons.1 hnd
    simp only [List.length_cons, List.map_cons, List.flatten_cons, List.append_assoc,
      MultiSignInfo.readLoop, MultiSignInfo.entryBytes]
    rw [hc.string_read _ _ hk.1]
    simp only
    rw [hc.uint64_read _ _ hk.2.1]
    simp only
    rw [MultiSignInfo_readItems_read c hc (f k) hk.2.2]
    simp only [List.nil_append]
    rw [mapAssign_new acc k (f k) (hacc k (List.mem_cons_self _ _))]
    have hstep := ih hn.2 (fun x hx => hr x (List.mem_cons_of_mem _ hx))
      (acc ++ [(k, f k)]) (by
        intro x hx hmem
        simp only [List.map_append, List.map_cons, List.map_nil, List.mem_append,
          List.mem_singleton] at hmem
        rcases hmem with hmem | hmem
        · exact hacc x (List.mem_cons_of_mem _ hx) hmem
        · exact hn.1 (by rw [← hmem]; exact hx))
    simp only [MultiSignInfo.entryBytes, List.append_assoc] at hstep
    rw [hstep]
    simp

/-! ## The order in which the search visits the indices -/

theorem tdiv_two_cast (n : Nat) : Int.tdiv (n : Int) 2 = ((n / 2 : Nat) : Int) := by
  rw [Int.tdiv_eq_ediv (by omega) (by omega)]
  omega

/-- The depth of the `k`-th call, in closed form, up to the call that gets
`-1`. -/
theorem depthSeq_closed (n : Nat) (hn : 1 ≤ n) (k : Nat) (hk : k ≤ n) :
    depthSeq n k =
      if k = n then -1
      else if k % 2 = 0 then ((k / 2 : Nat) : Int) else ((n - 1 - k / 2 : Nat) : Int) := by
  induction k with
  | zero =>
    have : (0 : Nat) ≠ n := by omega
    simp [depthSeq, this]
  | succ k ih =>
    have hk2 : k ≠ n := by omega
    have ih2 := ih (by omega)
    rw [if_neg hk2] at ih2
    simp only [depthSeq, ih2, nextDepth, tdiv_two_cast]
    split_ifs <;> omega

theorem visitIndices_length (n : Nat) : (visitIndices n).length = n := by
  simp [visitIndices]

theorem visitIndices_getElem (n k : Nat) (hk : k < n) :
    (visitIndices n)[k]? = some (if k % 2 = 0 then k / 2 else n - 1 - k / 2) := by
  simp [visitIndices, List.getElem?_map, List.getElem?_range hk]

theorem visitIndices_lt (n i : Nat) (h : i ∈ visitIndices n) : i < n := by
  simp only [visitIndices, List.mem_map, List.mem_range] at h
  obtain ⟨k, hk, rfl⟩ := h
  split_ifs <;> omega

theorem visitIndices_nodup (n : Nat) : (visitIndices n).Nodup := by
  unfold visitIndices
  refine List.Nodup.map_on ?_ (List.nodup_range n)
  intro x hx y hy hxy
  simp only [List.mem_range] at hx hy
  split_ifs at hxy <;> omega

theorem visitIndices_perm (n : Nat) : (visitIndices n).Perm (List.range n) := by
  refine (List.perm_ext_iff_of_nodup (visitIndices_nodup n) (List.nodup_range n)).2 ?_
  intro i
  constructor
  · intro h
    exact List.mem_range.2 (visitIndices_lt n i h)
  · intro h
    have hi := List.mem_range.1 h
    simp only [visitIndices, List.mem_map, List.mem_range]
    by_cases h2 : 2 * i < n
    · exact ⟨2 * i, h2, by simp⟩
    · refine ⟨2 * (n - 1 - i) + 1, by omega, ?_⟩
      have : (2 * (n - 1 - i) + 1) % 2 ≠ 0 := by omega
      rw [if_neg this]
      omega

/-- The depth of the `k`-th call is the `k`-th visited index. -/
theorem depthSeq_visit (n : Nat) (hn : 1 ≤ n) (k : Nat) (hk : k < n) :
    ∃ i, (visitIndices n)[k]? = some i ∧ depthSeq n k = (i : Int) ∧ i < n := by
  refine ⟨_, visitIndices_getElem n k hk, ?_, ?_⟩
  · rw [depthSeq_closed n hn k (by omega), if_neg (by omega)]
    split_ifs <;> rfl
  · split_ifs <;> omega

/-- A search that is at the `k`-th call of its branch, with call depth for
the calls still to come: it returns, and a selection it returns is the one it
was given followed by utxos at indices taken, in order, from the indices not
yet visited. -/
theorem bnb_search_from (selector : CoinSelector) (sorted : Poly.Utxos)
    (hs : selector.SortedUtxos = some sorted) (hn : 1 ≤ sorted.Utxos.length) :
    ∀ r k, k + r = sorted.Utxos.length → ∀ fuel, r + 1 ≤ fuel →
      ∀ (tries : Int) (selection : List Utxo) (sum : Nat),
        ∃ res t,
          selector.SimpleBnbSearch fuel tries (depthSeq sorted.Utxos.length k) selection sum
            = .ok (res, t) ∧
          ∀ s, res.1 = some s →
            ∃ idxs : List Nat,
              idxs.Sublist ((visitIndices sorted.Utxos.length).drop k) ∧
              s.map some = selection.map some ++ idxs.map (fun i => sorted.Utxos[i]?) := by
  intro r
  induction r with
  | zero =>
    intro k hk fuel hf tries selection sum
    obtain ⟨f, rfl⟩ : ∃ f, fuel = f + 1 := ⟨fuel - 1, by omega⟩
    have hd : depthSeq sorted.Utxos.length k = -1 := by
      rw [depthSeq_closed _ hn k (by omega), if_pos (by omega)]
    rw [hd]
    rw [CoinSelector.SimpleBnbSearch]
    by_cases h1 : selector.lossRatioReached selection = true ∨ selector.sumAboveK sum = true ∨
        (sum > selector.Target ∧ sum < (selector.Target + selector.Mc) % 2 ^ 64)
    · rw [if_pos h1]
      exact ⟨_, _, rfl, fun s h => by simp at h⟩
    rw [if_neg h1]
    by_cases h2 : sum = selector.Target ∨
        (sum ≥ (selector.Target + selector.Mc) % 2 ^ 64 ∧ selector.sumWithinK sum = true)
    · rw [if_pos h2]
      refine ⟨_, _, rfl, fun s h => ⟨[], List.nil_sublist _, ?_⟩⟩
      simp only [Option.some.injEq] at h
      simp [h]
    rw [if_neg h2, if_pos (Or.inr rfl)]
    exact ⟨_, _, rfl, fun s h => by simp at h⟩
  | succ r ih =>
    intro k hk fuel hf tries selection sum
    obtain ⟨f, rfl⟩ : ∃ f, fuel = f + 1 := ⟨fuel - 1, by omega⟩
    have hkn : k < sorted.Utxos.length := by omega
    obtain ⟨i, hvi, hd, hin⟩ := depthSeq_visit _ hn k hkn
    have hnext : nextDepth sorted.Utxos.length (i : Int) =
        depthSeq sorted.Utxos.length (k + 1) := by
      rw [← hd]; rfl
    have hdrop : (visitIndices sorted.Utxos.length).drop k =
        i :: (visitIndices sorted.Utxos.length).drop (k + 1) := by
      have hlen : k < (visitIndices sorted.Utxos.length).length := by
        rw [visitIndices_length]; exact hkn
      rw [List.drop_eq_getElem_cons hlen]
      congr 1
      have := List.getElem?_eq_getElem hlen
      rw [hvi] at this
      exact (Option.some.inj this).symm
    rw [hd]
    rw [CoinSelector.SimpleBnbSearch]
    by_cases h1 : selector.lossRatioReached selection = true ∨ selector.sumAboveK sum = true ∨
        (sum > selector.Target ∧ sum < (selector.Target + selector.Mc) % 2 ^ 64)
    · rw [if_pos h1]
      exact ⟨_, _, rfl, fun s h => by simp at h⟩
    rw [if_neg h1]
    by_cases h2 : sum = selector.Target ∨
        (sum ≥ (selector.Target + selector.Mc) % 2 ^ 64 ∧ selector.sumWithinK sum = true)
    · rw [if_pos h2]
      refine ⟨_, _, rfl, fun s h => ⟨[], List.nil_sublist _, ?_⟩⟩
      simp only [Option.some.injEq] at h
      simp [h]
    rw [if_neg h2]
    by_cases h3 : tries ≤ 0 ∨ (i : Int) = -1
    · rw [if_pos h3]
      exact ⟨_, _, rfl, fun s h => by simp at h⟩
    rw [if_neg h3]
    · have hu : sorted.Utxos[i]? = some (sorted.Utxos[i]) := List.getElem?_eq_getElem hin
      simp only [hs, Int.toNat_ofNat, hu, hnext]
      rw [if_neg (by omega)]
      obtain ⟨res1, t1, e1, p1⟩ := ih (k + 1) (by omega) f (by omega) (tries - 1)
        (selection ++ [sorted.Utxos[i]]) ((sum + (sorted.Utxos[i]).Value) % 2 ^ 64)
      obtain ⟨o1, a1, b1⟩ := res1
      cases o1 with
      | some s1 =>
        simp only [e1]
        refine ⟨_, _, rfl, fun s h => ?_⟩
        simp only [Option.some.injEq] at h
        subst h
        obtain ⟨idxs, hsub, heq⟩ := p1 s1 rfl
        refine ⟨i :: idxs, ?_, ?_⟩
        · rw [hdrop]
          exact hsub.cons₂ i
        · rw [heq]
          simp [hu]
      | none =>
        simp only [e1]
        split_ifs with h4
        · exact ⟨_, _, rfl, fun s h => by simp at h⟩
        · obtain ⟨res2, t2, e2, p2⟩ := ih (k + 1) (by omega) f (by omega) t1 selection sum
          refine ⟨res2, t2, e2, fun s h => ?_⟩
          obtain ⟨idxs, hsub, heq⟩ := p2 s h
          exact ⟨idxs, by rw [hdrop]; exact hsub.cons i, heq⟩

/-- The loop of `SortedSearch` never indexes an empty selection. -/
theorem sortedLoop_no_fault (selector : CoinSelector) (us selection : List Utxo)
    (sum pass fee : Nat) (hpass : pass = 1 → selection ≠ []) :
    ∃ r, selector.sortedLoop us selection sum pass fee = .ok r := by
  induction us generalizing selection sum pass fee with
  | nil =>
    simp only [CoinSelector.sortedLoop]
    split_ifs <;> exact ⟨_, rfl⟩
  | cons u us ih =>
    simp only [CoinSelector.sortedLoop]
    split_ifs with h0 h1 h2 h3
    · exact ⟨_, rfl⟩
    · exact ih _ _ _ _ (fun _ => by simp)
    · exact ih _ _ _ _ (fun _ => by simp)
    · cases hl : selection.getLast? with
      | none =>
        rw [List.getLast?_eq_none_iff] at hl
        exact absurd hl (hpass h3)
      | some last =>
        simp only
        split_ifs
        · exact ih _ _ _ _ (fun _ => by simp)
        · exact ⟨_, rfl⟩
    · exact ih _ _ _ _ (fun h => absurd h h3)

theorem depthSeq_last (n : Nat) (hn : 1 ≤ n) : depthSeq n n = -1 := by
  rw [depthSeq_closed n hn n (by omega), if_pos rfl]

/-- Every call of a search is the `k`-th of its branch for some `k ≤ n`: its
depth is `depthSeq n k` and its selection holds utxos at indices taken, in
order, from the first `k` visited ones. -/
theorem searchCall_inv (sorted : Poly.Utxos) (hn : 1 ≤ sorted.Utxos.length)
    (depth : Int) (selection : List Utxo) (h : SearchCall sorted depth selection) :
    ∃ k, k ≤ sorted.Utxos.length ∧ depth = depthSeq sorted.Utxos.length k ∧
      ∃ idxs : List Nat, idxs.Sublist ((visitIndices sorted.Utxos.length).take k) ∧
        selection.map some = idxs.map (fun i => sorted.Utxos[i]?) := by
  induction h with
  | start => exact ⟨0, by omega, rfl, [], by simp, by simp⟩
  | withUtxo depth selection u _ hne hpos hu ih =>
    obtain ⟨k, hk, hd, idxs, hsub, heq⟩ := ih
    have hkn : k < sorted.Utxos.length := by
      rcases Nat.lt_or_ge k sorted.Utxos.length with h | h
      · exact h
      · have : k = sorted.Utxos.length := by omega
        rw [this, depthSeq_last _ hn] at hd
        exact absurd hd hne
    obtain ⟨i, hvi, hdi, hin⟩ := depthSeq_visit _ hn k hkn
    have hlen : k < (visitIndices sorted.Utxos.length).length := by
      rw [visitIndices_length]; exact hkn
    have hget : (visitIndices sorted.Utxos.length)[k] = i := by
      have := List.getElem?_eq_getElem hlen
      rw [hvi] at this
      exact (Option.some.inj this).symm
    refine ⟨k + 1, by omega, by rw [hd]; rfl, idxs ++ [i], ?_, ?_⟩
    · rw [List.take_succ, List.getElem?_eq_getElem hlen, hget]
      exact List.Sublist.append hsub (List.Sublist.refl _)
    · rw [hd, hdi, Int.toNat_ofNat] at hu
      simp [heq, hu]
  | withoutUtxo depth selection _ hne _ ih =>
    obtain ⟨k, hk, hd, idxs, hsub, heq⟩ := ih
    have hkn : k < sorted.Utxos.length := by
      rcases Nat.lt_or_ge k sorted.Utxos.length with h | h
      · exact h
      · have : k = sorted.Utxos.length := by omega
        rw [this, depthSeq_last _ hn] at hd
        exact absurd hd hne
    refine ⟨k + 1, by omega, by rw [hd]; rfl, idxs, ?_, heq⟩
    exact hsub.trans (List.take_sublist_take_left _ (Nat.le_succ k))

theorem depthSeq_range (n : Nat) (hn : 1 ≤ n) :
    (List.range n).map (depthSeq n) = (visitIndices n).map Int.ofNat := by
  apply List.ext_getElem?
  intro k
  rcases Nat.lt_or_ge k n with h | h
  · obtain ⟨i, hvi, hd, _⟩ := depthSeq_visit n hn k h
    simp [List.getElem?_map, List.getElem?_range h, hvi, hd]
  · rw [List.getElem?_eq_none (by simpa using h), List.getElem?_eq_none]
    simpa [visitIndices_length] using h

theorem select_no_fault (selector : CoinSelector) (sorted : Poly.Utxos)
    (hs : selector.SortedUtxos = some sorted) (hn : 1 ≤ sorted.Utxos.length) :
    ∃ r, selector.Select (sorted.Utxos.length + 1) = .ok r := by
  obtain ⟨su, mc, tg, tr, f1, f2, f3, f4, f5⟩ := selector
  simp only at hs
  subst hs
  obtain ⟨res, t, e, _⟩ := bnb_search_from ⟨some sorted, mc, tg, tr, f1, f2, f3, f4, f5⟩ sorted
    rfl hn sorted.Utxos.length 0 (by omega) (sorted.Utxos.length + 1) (by omega) tr [] 0
  have e2 : CoinSelector.SimpleBnbSearch ⟨some sorted, mc, tg, tr, f1, f2, f3, f4, f5⟩
      (sorted.Utxos.length + 1) tr 0 [] 0 = .ok (res, t) := e
  obtain ⟨r, hr⟩ := sortedLoop_no_fault ⟨some sorted, mc, tg, t, f1, f2, f3, f4, f5⟩
    sorted.Utxos [] 0 0 0 (fun h => absurd h (by omega))
  simp only [CoinSelector.Select, CoinSelector.SortedSearch]
  rw [if_neg (by omega), e2]
  obtain ⟨o, a, b⟩ := res
  cases o with
  | some s => exact ⟨_, rfl⟩
  | none =>
    simp only
    rw [hr]
    exact ⟨_, rfl⟩

/-! ## The sorted search -/

theorem sumValues_concat (l : List Utxo) (u : Utxo) :
    sumValues (l ++ [u]) = sumValues l + u.Value := by
  simp [sumValues]

/-- The second pass of `SortedSearch`: as long as the sums fit, it returns a
selection, the sum of its values, and that sum has reached the target. -/
theorem sortedLoop_pass1 (selector : CoinSelector)
    (hT : selector.Target + selector.Mc < 2 ^ 64) (pre : List Utxo) :
    ∀ (us : List Utxo) (last : Utxo) (fee : Nat),
      (∀ u ∈ us, sumValues pre + u.Value < 2 ^ 64) →
      sumValues pre + last.Value < 2 ^ 64 →
      (sumValues pre + last.Value = selector.Target ∨
        sumValues pre + last.Value ≥ selector.Target + selector.Mc) →
      ∃ s sum fee2,
        selector.sortedLoop us (pre ++ [last]) (sumValues pre + last.Value) 1 fee
          = .ok (some s, sum, fee2) ∧
        sum = sumValues s ∧
        (sum = selector.Target ∨ sum ≥ selector.Target + selector.Mc) := by
  intro us
  induction us with
  | nil =>
    intro last fee _ _ hreach
    refine ⟨pre ++ [last], _, fee, ?_, (sumValues_concat pre last).symm, hreach⟩
    simp [CoinSelector.sortedLoop]
  | cons u us ih =>
    intro last fee hfit hlast hreach
    have hu : sumValues pre + u.Value < 2 ^ 64 := hfit u (List.mem_cons_self _ _)
    have hsum : ((sumValues pre + last.Value + 2 ^ 64 - last.Value) % 2 ^ 64 + u.Value) % 2 ^ 64
        = sumValues pre + u.Value := by
      omega
    have hmc : (selector.Target + selector.Mc) % 2 ^ 64 = selector.Target + selector.Mc :=
      Nat.mod_eq_of_lt hT
    rw [CoinSelector.sortedLoop]
    simp only [one_ne_zero, if_false, if_true, List.getLast?_concat, List.dropLast_concat,
      hsum, hmc]
    by_cases hc : sumValues pre + u.Value = selector.Target ∨
        sumValues pre + u.Value ≥ selector.Target + selector.Mc
    · rw [if_pos hc]
      exact ih u fee (fun v hv => hfit v (List.mem_cons_of_mem _ hv)) hu hc
    · rw [if_neg hc]
      exact ⟨pre ++ [last], _, _, rfl, (sumValues_concat pre last).symm, hreach⟩

/-- The first pass of `SortedSearch`, for the utxos `done` already taken and
the utxos `us` still to come: it returns; a selection it returns comes with
the sum of its values, which has reached the target; nil comes with the sum 0;
and it returns nil exactly when no prefix reaches the target before the loss
ratio reaches `MaxP`. -/
theorem sortedLoop_pass0 (selector : CoinSelector)
    (hT : selector.Target + selector.Mc < 2 ^ 64) :
    ∀ (us done : List Utxo) (fee : Nat),
      (∀ k m, k ≤ m → ∀ u, (done ++ us)[m]? = some u →
        sumValues ((done ++ us).take k) + u.Value < 2 ^ 64) →
      ∃ r, selector.sortedLoop us done (sumValues done) 0 fee = .ok r ∧
        (∀ s, r.1 = some s →
          r.2.1 = sumValues s ∧
          (r.2.1 = selector.Target ∨ r.2.1 ≥ selector.Target + selector.Mc)) ∧
        (r.1 = none → r = (none, 0, 0)) ∧
        (r.1 = none ↔
          ¬ ∃ j, 1 ≤ j ∧ j ≤ us.length ∧
            (sumValues (done ++ us.take j) = selector.Target ∨
              sumValues (done ++ us.take j) ≥ selector.Target + selector.Mc) ∧
            ∀ j2, 1 ≤ j2 → j2 ≤ j → selector.lossRatioReached (done ++ us.take j2) = false) := by
  intro us
  induction us with
  | nil =>
    intro done fee _
    refine ⟨(none, 0, 0), by simp [CoinSelector.sortedLoop], by simp, fun _ => rfl, ?_⟩
    simp only [true_iff]
    rintro ⟨j, hj1, hj2, _⟩
    simp at hj2
    omega
  | cons u us ih =>
    intro done fee hfit
    have htake : (done ++ u :: us).take done.length = done := by simp
    have hu : sumValues done + u.Value < 2 ^ 64 := by
      have := hfit done.length done.length le_rfl u
        (by rw [List.getElem?_append_right (le_refl _)]; simp)
      rw [htake] at this
      exact this
    have hsum : (sumValues done + u.Value) % 2 ^ 64 = sumValues done + u.Value :=
      Nat.mod_eq_of_lt hu
    have hmc : (selector.Target + selector.Mc) % 2 ^ 64 = selector.Target + selector.Mc :=
      Nat.mod_eq_of_lt hT
    rw [CoinSelector.sortedLoop]
    simp only [if_true, hsum, hmc]
    by_cases hl : selector.lossRatioReached (done ++ [u]) = true
    · rw [if_pos hl]
      refine ⟨(none, 0, 0), rfl, by simp, fun _ => rfl, ?_⟩
      simp only [true_iff]
      rintro ⟨j, hj1, _, _, hall⟩
      have := hall 1 le_rfl hj1
      simp only [List.take_succ_cons, List.take_zero] at this
      rw [this] at hl
      exact Bool.noConfusion hl
    rw [if_neg hl]
    by_cases hc : sumValues done + u.Value = selector.Target ∨
        sumValues done + u.Value ≥ selector.Target + selector.Mc
    · rw [if_pos hc]
      have hfit1 : ∀ v ∈ us, sumValues done + v.Value < 2 ^ 64 := by
        intro v hv
        obtain ⟨i, hi⟩ := List.getElem?_of_mem hv
        have := hfit done.length (done.length + (i + 1)) (by omega) v
          (by rw [List.getElem?_append_right (by omega)]; simpa using hi)
        rw [htake] at this
        exact this
      obtain ⟨s, sum, fee2, e, h1, h2⟩ := sortedLoop_pass1 selector hT done us u
        (selector.estimateTxFee (done ++ [u])) hfit1 hu hc
      refine ⟨(some s, sum, fee2), e, ?_, ?_, ?_⟩
      · intro s2 hs2
        simp only [Option.some.injEq] at hs2
        subst hs2
        exact ⟨h1, h2⟩
      · intro h; simp at h
      · refine ⟨fun h => Option.noConfusion h, fun h => absurd ?_ h⟩
        refine ⟨1, le_rfl, by simp, ?_, ?_⟩
        · simp only [List.take_succ_cons, List.take_zero]
          rw [sumValues_concat]
          exact hc
        · intro j2 h1 h2
          have : j2 = 1 := by omega
          subst this
          simp only [List.take_succ_cons, List.take_zero]
          simpa using hl
    · rw [if_neg hc]
      have hfit2 : ∀ k m, k ≤ m → ∀ v, ((done ++ [u]) ++ us)[m]? = some v →
          sumValues (((done ++ [u]) ++ us).take k) + v.Value < 2 ^ 64 := by
        intro k m hkm v hv
        rw [List.append_assoc] at hv ⊢
        exact hfit k m hkm v hv
      obtain ⟨r, e, p1, p2, p3⟩ := ih (done ++ [u]) (selector.estimateTxFee (done ++ [u])) hfit2
      rw [sumValues_concat] at e
      refine ⟨r, e, p1, p2, ?_⟩
      rw [p3]
      apply not_congr
      constructor
      · rintro ⟨j, hj1, hj2, hr, hall⟩
        refine ⟨j + 1, by omega, by simp; omega, ?_, ?_⟩
        · simpa [List.take_succ_cons] using hr
        · intro j2 h1 h2
          rcases Nat.lt_or_ge 1 j2 with h3 | h3
          · obtain ⟨j3, rfl⟩ : ∃ j3, j2 = j3 + 1 := ⟨j2 - 1, by omega⟩
            have := hall j3 (by omega) (by omega)
            simpa [List.take_succ_cons] using this
          · have : j2 = 1 := by omega
            subst this
            simp only [List.take_succ_cons, List.take_zero]
            simpa using hl
      · rintro ⟨j, hj1, hj2, hr, hall⟩
        rcases Nat.lt_or_ge 1 j with h3 | h3
        · obtain ⟨j3, rfl⟩ : ∃ j3, j = j3 + 1 := ⟨j - 1, by omega⟩
          refine ⟨j3, by omega, by simp at hj2; omega, ?_, ?_⟩
          · simpa [List.take_succ_cons] using hr
          · intro j2 h1 h2
            have := hall (j2 + 1) (by omega) (by omega)
            simpa [List.take_succ_cons] using this
        · have : j = 1 := by omega
          subst this
          simp only [List.take_succ_cons, List.take_zero] at hr
          rw [sumValues_concat] at hr
          exact absurd hr hc

theorem value_le_sumValues (l : List Utxo) (u : Utxo) (h : u ∈ l) : u.Value ≤ sumValues l := by
  induction l with
  | nil => simp at h
  | cons v l ih =>
    simp only [sumValues, List.map_cons, List.sum_cons]
    rcases List.mem_cons.1 h with rfl | h2
    · omega
    · have := ih h2
      simp only [sumValues] at this
      omega

/-- When the values of all utxos together fit `uint64`, so does every sum
that the sorted search computes. -/
theorem runningSums_of_total (l : List Utxo) (h : sumValues l < 2 ^ 64) :
    ∀ k m, k ≤ m → ∀ u, l[m]? = some u → sumValues (l.take k) + u.Value < 2 ^ 64 := by
  intro k m hkm u hu
  have hmem : u ∈ l.drop k := by
    have hd : (l.drop k)[m - k]? = some u := by
      rw [List.getElem?_drop, show k + (m - k) = m by omega]
      exact hu
    exact List.getElem?_mem hd
  have h1 := value_le_sumValues _ u hmem
  have h2 : sumValues l = sumValues (l.take k) + sumValues (l.drop k) := by
    conv_lhs => rw [← List.take_append_drop k l]
    simp [sumValues]
  omega

/-! ## Claims -/

/-- C1 (chain of trust). For a chain whose stored record is `cur`, any header
batch and any optional message: (1) a header `v` of the batch that is a
rotation for the record `n` tracked when it is reached and after which the
loop goes on has passed `verifyHeader` against `n`, that is, its witness
script hash is `n.NextConsensus` and `VerifyMultiSignatureWitness` holds on
its `GetMessage()` bytes, and the loop then tracks the record made from `v`
with `n` as the previous one; (2) the record tracked at the end of the loop
is linked to `cur` by verified rotation steps of this batch only; (3) every
consensus record found in the database after `processHeadersAndMsg` was
either there before the call or is linked to `cur` in that way. -/
theorem chain_of_trust (env : Env) (native : NativeService) (chainId : Nat)
    (headers : List Bytes) (msg : Option NeoCrossChainMsg) (cur : NeoConsensus)
    (hcur : native.cacheDB.consensusPeer chainId = some cur) :
    (∀ pre v post p n header q,
        headers = pre ++ v :: post →
        headerLoop env pre (cur, cur) = .ok (p, n) →
        env.decodeNeoBlockHeader v = some header →
        header.NextConsensus ≠ n.NextConsensus → header.Index > n.Height →
        headerLoop env (pre ++ [v]) (cur, cur) = .ok q →
        verifyHeader env header n = .ok () ∧
        env.witnessGetScriptHash header.Witness = n.NextConsensus ∧
        (∃ m, env.headerGetMessage header = some m ∧
          env.VerifyMultiSignatureWitness m header.Witness = true) ∧
        q = (n, { ChainID := n.ChainID, Height := header.Index,
                  NextConsensus := header.NextConsensus })) ∧
    (∀ prior newest, headerLoop env headers (cur, cur) = .ok (prior, newest) →
        Lineage env headers cur newest) ∧
    (∀ c r,
        (processHeadersAndMsg env native chainId headers msg).2.cacheDB.consensusPeer c
          = some r →
        native.cacheDB.consensusPeer c = some r ∨ Lineage env headers cur r) := by
  refine ⟨?_, ?_, ?_⟩
  · intro pre v post p n header q _ hpre hd hne hgt hq
    rw [headerLoop_append, hpre] at hq
    simp only [Except.bind] at hq
    rw [headerLoop_single env v p n header hd, if_pos ⟨hne, hgt⟩] at hq
    cases hv : verifyHeader env header n with
    | error e => simp [hv] at hq
    | ok u =>
      simp only [hv, Except.ok.injEq] at hq
      have h := (verifyHeader_ok_iff env header n).1 hv
      exact ⟨rfl, h.1, h.2, hq.symm⟩
  · intro prior newest hloop
    exact headerLoop_lineage env headers headers cur cur prior newest (fun _ h => h) hloop
  · intro c r hr
    cases hloop : headerLoop env headers (cur, cur) with
    | error e =>
      rw [processHeadersAndMsg_loop_error env native chainId headers msg cur e hcur hloop] at hr
      exact Or.inl hr
    | ok st =>
      obtain ⟨prior, newest⟩ := st
      rw [processHeadersAndMsg_consensusPeer env native chainId headers msg cur prior newest
        hcur hloop, storeIfHigher_consensusPeer] at hr
      split at hr
      · simp only [Option.some.injEq] at hr
        subst hr
        exact Or.inr
          (headerLoop_lineage env headers headers cur cur prior newest (fun _ h => h) hloop)
      · exact Or.inl hr

/-- C1 at a concrete batch: chain 7 tracked at 100 with `A`, then the header
at 150 signed by `A` and the header at 200 signed by `B`. The second header
is checked against the record made from the first, and the record stored at
the end, height 200 with `C`, is linked to the stored one. -/
theorem chain_of_trust_witness :
    (Demo.nativeOn Demo.db100A []).cacheDB.consensusPeer 7
        = some { ChainID := 7, Height := 100, NextConsensus := Demo.setA } ∧
    verifyHeader Demo.env
        { Index := 200, NextConsensus := Demo.setC,
          Witness := { InvocationScript := [2, 200, 3], VerificationScript := [2] },
          body := [] }
        { ChainID := 7, Height := 150, NextConsensus := Demo.setB } = .ok () ∧
    Lineage Demo.env [Demo.header150AB, Demo.header200BC]
        { ChainID := 7, Height := 100, NextConsensus := Demo.setA }
        { ChainID := 7, Height := 200, NextConsensus := Demo.setC } :=
  have h := chain_of_trust Demo.env (Demo.nativeOn Demo.db100A []) 7
    [Demo.header150AB, Demo.header200BC] none
    { ChainID := 7, Height := 100, NextConsensus := Demo.setA } rfl
  ⟨rfl,
    (h.1 [Demo.header150AB] Demo.header200BC []
      { ChainID := 7, Height := 100, NextConsensus := Demo.setA }
      { ChainID := 7, Height := 150, NextConsensus := Demo.setB } _ _
      rfl rfl rfl (by decide) (by decide) rfl).1,
    (h.2.2 7 { ChainID := 7, Height := 200, NextConsensus := Demo.setC } rfl).resolve_left
      (by decide)⟩

/-- C2 (epoch selection inside one call). Let the loop over `headers` end
with `(prior, newest)`. Then `prior` is the stored record when no header was
accepted, and otherwise the record tracked just before the last accepted
rotation of the batch, `newest` being the record made from that rotation.
For a message with `msg.Index = newest.Height` the result of
`processHeadersAndMsg` is the result of `verifyCrossChainMsg` against
`prior`, and for `msg.Index > newest.Height` it is the result of
`verifyCrossChainMsg` against `newest` (both on the database as it stands
after the write of the new record). -/
theorem epoch_selection (env : Env) (native : NativeService) (chainId : Nat)
    (headers : List Bytes) (msg : NeoCrossChainMsg) (cur prior newest : NeoConsensus)
    (hcur : native.cacheDB.consensusPeer chainId = some cur)
    (hloop : headerLoop env headers (cur, cur) = .ok (prior, newest)) :
    ((prior = cur ∧ newest = cur ∧ ∀ v ∈ headers, Skipped env cur v) ∨
      (∃ pre v post header p0,
        headers = pre ++ v :: post ∧
        headerLoop env pre (cur, cur) = .ok (p0, prior) ∧
        env.decodeNeoBlockHeader v = some header ∧
        header.NextConsensus ≠ prior.NextConsensus ∧ header.Index > prior.Height ∧
        verifyHeader env header prior = .ok () ∧
        newest = { ChainID := prior.ChainID, Height := header.Index,
                   NextConsensus := header.NextConsensus } ∧
        ∀ w ∈ post, Skipped env newest w)) ∧
    (msg.Index = newest.Height →
      (processHeadersAndMsg env native chainId headers (some msg)).1 =
        (verifyCrossChainMsg env (storeIfHigher native cur newest) msg prior).mapError
          Err.processVerifyCrossChainMsg) ∧
    (msg.Index > newest.Height →
      (processHeadersAndMsg env native chainId headers (some msg)).1 =
        (verifyCrossChainMsg env (storeIfHigher native cur newest) msg newest).mapError
          Err.processVerifyCrossChainMsg) := by
  refine ⟨headerLoop_prior env headers cur cur prior newest hloop, ?_, ?_⟩
  · intro hidx
    simp only [processHeadersAndMsg, getConsensusValByChainId, hcur, hloop, processMsg]
    rw [if_neg (by omega), if_pos hidx]
    cases hv : verifyCrossChainMsg env (storeIfHigher native cur newest) msg prior with
    | error e => rfl
    | ok u =>
      obtain ⟨bs, hbs⟩ := verifyCrossChainMsg_ok_getMessage env _ msg prior hv
      simp [hbs, Except.mapError]
  · intro hidx
    simp only [processHeadersAndMsg, getConsensusValByChainId, hcur, hloop, processMsg]
    rw [if_neg (by omega), if_neg (by omega)]
    cases hv : verifyCrossChainMsg env (storeIfHigher native cur newest) msg newest with
    | error e => rfl
    | ok u => rfl

/-- C2 at a concrete call: chain 7 tracked at 100 with `A`, the batch holds
the header at 150 signed by `A` with `NextConsensus = B`. The message at 150
signed by `A` is accepted against the prior record, the message at 151
signed by `B` against the new one, and the message at 150 signed by `B` is
refused. -/
theorem epoch_selection_witness :
    (processHeadersAndMsg Demo.env (Demo.nativeOn Demo.db100A []) 7 [Demo.header150AB]
        (some (Demo.msgAt 150 1))).1 = .ok () ∧
    (processHeadersAndMsg Demo.env (Demo.nativeOn Demo.db100A []) 7 [Demo.header150AB]
        (some (Demo.msgAt 151 2))).1 = .ok () ∧
    (processHeadersAndMsg Demo.env (Demo.nativeOn Demo.db100A []) 7 [Demo.header150AB]
        (some (Demo.msgAt 150 2))).1
      = .error (.processVerifyCrossChainMsg .verifyMsgFailed) :=
  ⟨((epoch_selection Demo.env (Demo.nativeOn Demo.db100A []) 7 [Demo.header150AB]
      (Demo.msgAt 150 1) { ChainID := 7, Height := 100, NextConsensus := Demo.setA }
      { ChainID := 7, Height := 100, NextConsensus := Demo.setA }
      { ChainID := 7, Height := 150, NextConsensus := Demo.setB } rfl rfl).2.1 rfl).trans rfl,
   ((epoch_selection Demo.env (Demo.nativeOn Demo.db100A []) 7 [Demo.header150AB]
      (Demo.msgAt 151 2) { ChainID := 7, Height := 100, NextConsensus := Demo.setA }
      { ChainID := 7, Height := 100, NextConsensus := Demo.setA }
      { ChainID := 7, Height := 150, NextConsensus := Demo.setB } rfl rfl).2.2
        (by decide)).trans rfl,
   ((epoch_selection Demo.env (Demo.nativeOn Demo.db100A []) 7 [Demo.header150AB]
      (Demo.msgAt 150 2) { ChainID := 7, Height := 100, NextConsensus := Demo.setA }
      { ChainID := 7, Height := 100, NextConsensus := Demo.setA }
      { ChainID := 7, Height := 150, NextConsensus := Demo.setB } rfl rfl).2.1 rfl).trans rfl⟩

/-- C3, the claim as stated fails. Chain 7 is bootstrapped at 100 with `A`
and `SyncBlockHeader` stores the rotation at 150 from `A` to `B`; nothing is
cached. With no headers, the message at index 150 signed by `B` is accepted
although its script hash is not `A`, and the message at index 150 signed by
`A` is refused. -/
theorem epoch_boundary_counterexample :
    Demo.dbRotated.consensusPeer 7
        = some { ChainID := 7, Height := 150, NextConsensus := Demo.setB } ∧
    Demo.dbRotated.keyHash 7 = none ∧
    Demo.env.msgGetScriptHash (Demo.msgAt 150 2) = some Demo.setB ∧
    Demo.env.msgGetScriptHash (Demo.msgAt 150 1) = some Demo.setA ∧
    Demo.setA ≠ Demo.setB ∧
    verifyCrossChainMsgSig Demo.env (Demo.msgAt 150 1)
        { ChainID := 7, Height := 100, NextConsensus := Demo.setA } = .ok () ∧
    (VerifyCrossChainMsgSig Demo.env (Demo.nativeOn Demo.dbRotated []) 7
        (Demo.msgAt 150 2) []).1 = .ok () ∧
    (VerifyCrossChainMsgSig Demo.env (Demo.nativeOn Demo.dbRotated []) 7
        (Demo.msgAt 150 1) []).1 = .error .verifyMsgFailed ∧
    ¬ ((VerifyCrossChainMsgSig Demo.env (Demo.nativeOn Demo.dbRotated []) 7
          (Demo.msgAt 150 2) []).1 = .ok () →
        Demo.env.msgGetScriptHash (Demo.msgAt 150 2) = some Demo.setA) :=
  ⟨rfl, rfl, rfl, rfl, by decide, rfl, rfl, rfl, fun h => absurd (h rfl) (by decide)⟩

/-- C3, amended. With an empty header list and no cached digest matching
the message under the stored record's chain id, `VerifyCrossChainMsgSig`
succeeds exactly when the message is signed by the stored `NextConsensus`
(its script hash is that value and the multi-signature holds on its
`GetMessage()` bytes), whatever the message's `Index` is: at the rotation
height `H` as well as at `H + 1` the set that must have signed is the stored,
incoming set. -/
theorem epoch_boundary_no_headers (env : Env) (native : NativeService) (chainID : Nat)
    (msg : NeoCrossChainMsg) (r : NeoConsensus)
    (hcur : native.cacheDB.consensusPeer chainID = some r)
    (hcache : ∀ bs, env.msgGetMessage msg = some bs →
      native.cacheDB.keyHash r.ChainID ≠ some (env.sha256Sum256 bs)) :
    (VerifyCrossChainMsgSig env native chainID msg []).1 = .ok () ↔
      env.msgGetScriptHash msg = some r.NextConsensus ∧
      ∃ bs, env.msgGetMessage msg = some bs ∧
        env.VerifyMultiSignatureWitness bs
          { InvocationScript := env.hexDecodeString msg.Witness.InvocationScript
            VerificationScript := env.hexDecodeString msg.Witness.VerificationScript }
          = true := by
  have h0 : (VerifyCrossChainMsgSig env native chainID msg []).1 =
      verifyCrossChainMsg env native msg r := by
    simp [VerifyCrossChainMsgSig, getConsensusValByChainId, hcur]
  rw [h0, verifyCrossChainMsg_ok_iff, ← verifyCrossChainMsgSig_ok_iff]
  constructor
  · rintro (h | ⟨bs, h1, h2⟩)
    · exact h
    · exact absurd h2 (hcache bs h1)
  · exact Or.inl

/-- C3 amended, at the rotated chain 7: the messages at 150 and at 151 that
are accepted with no headers carry the script hash `B`. -/
theorem epoch_boundary_no_headers_witness :
    Demo.env.msgGetScriptHash (Demo.msgAt 150 2) = some Demo.setB ∧
    Demo.env.msgGetScriptHash (Demo.msgAt 151 2) = some Demo.setB :=
  ⟨((epoch_boundary_no_headers Demo.env (Demo.nativeOn Demo.dbRotated []) 7
      (Demo.msgAt 150 2) { ChainID := 7, Height := 150, NextConsensus := Demo.setB }
      rfl (fun _ _ h => Option.noConfusion
        ((show (Demo.nativeOn Demo.dbRotated []).cacheDB.keyHash 7 = none from rfl).symm.trans
          h))).1 rfl).1,
   ((epoch_boundary_no_headers Demo.env (Demo.nativeOn Demo.dbRotated []) 7
      (Demo.msgAt 151 2) { ChainID := 7, Height := 150, NextConsensus := Demo.setB }
      rfl (fun _ _ h => Option.noConfusion
        ((show (Demo.nativeOn Demo.dbRotated []).cacheDB.keyHash 7 = none from rfl).symm.trans
          h))).1 rfl).1⟩

/-- C4 (height monotonicity). Let `db` be any database the entry points
produce from the empty one (after any sequence `history` of calls of
`SyncGenesisHeader`, `SyncBlockHeader` and `VerifyCrossChainMsgSig`, failed
calls included with the writes they made). If `db` holds a record `r` for
chain id `c`, then after any single call, successful or failing, a record is
still held for `c` and its height is at least `r.Height`; the same holds after
any further sequence of calls. -/
theorem height_monotone (env : Env) (history : List Call) (call : Call)
    (calls : List Call) (c : Nat) (r : NeoConsensus)
    (h : (runCalls env CacheDB.empty history).consensusPeer c = some r) :
    (∃ r2, (call.run env (runCalls env CacheDB.empty history)).2.consensusPeer c = some r2 ∧
      r.Height ≤ r2.Height) ∧
    (∃ r3, (runCalls env (runCalls env CacheDB.empty history) calls).consensusPeer c
        = some r3 ∧ r.Height ≤ r3.Height) := by
  have hk := (runCalls_keeps env history CacheDB.empty keyedByChainID_empty).1
  exact ⟨(callRun_keeps env _ call hk).2 c r h, (runCalls_keeps env calls _ hk).2 c r h⟩

/-- C4 at chain 7: after the bootstrap at 100, the call that stores the
rotation at 150 leaves a record for chain 7 of height at least 100. -/
theorem height_monotone_witness :
    (runCalls Demo.env CacheDB.empty
        [Call.syncGenesisHeader [7, 100, 1, 0] Demo.governance]).consensusPeer 7
      = some { ChainID := 7, Height := 100, NextConsensus := Demo.setA } ∧
    ∃ r2,
      ((Call.syncBlockHeader (7 :: Demo.header150AB) Demo.governance).run Demo.env
        (runCalls Demo.env CacheDB.empty
          [Call.syncGenesisHeader [7, 100, 1, 0] Demo.governance])).2.consensusPeer 7
        = some r2 ∧ 100 ≤ r2.Height :=
  ⟨rfl,
    (height_monotone Demo.env [Call.syncGenesisHeader [7, 100, 1, 0] Demo.governance]
      (Call.syncBlockHeader (7 :: Demo.header150AB) Demo.governance) [] 7
      { ChainID := 7, Height := 100, NextConsensus := Demo.setA } rfl).1⟩

/-- C5, the code at the failing input. Chain 7 is tracked at height 150 with
`B`. The message at index 50 signed by `B` is accepted by
`VerifyCrossChainMsgSig` when the header list is empty, although
`50 < 150`; with a header list that holds one skipped header the same message,
on the same database, is refused as not at the current epoch. -/
theorem stale_message_accepted_without_headers :
    Demo.dbRotated.consensusPeer 7
        = some { ChainID := 7, Height := 150, NextConsensus := Demo.setB } ∧
    Demo.dbRotated.keyHash 7 = none ∧
    (Demo.msgAt 50 2).Index < 150 ∧
    (VerifyCrossChainMsgSig Demo.env (Demo.nativeOn Demo.dbRotated []) 7
        (Demo.msgAt 50 2) []).1 = .ok () ∧
    (VerifyCrossChainMsgSig Demo.env (Demo.nativeOn Demo.dbRotated []) 7
        (Demo.msgAt 50 2) [Demo.header50Z]).1 = .error .msgNotAtCurrentEpoch :=
  ⟨rfl, rfl, by decide, rfl, rfl⟩

/-- C6 (cache fallback of `verifyCrossChainMsg`). When the signature check
`verifyCrossChainMsgSig` fails, `verifyCrossChainMsg` succeeds exactly when
`msg.GetMessage()` succeeds and the digest cached under the record's chain id
is the sha256 of those bytes; so with no cached digest, or with a cached
digest that differs, it fails. When the signature check succeeds the result
is success on every database: the cache plays no part. -/
theorem cache_fallback (env : Env) (native : NativeService) (msg : NeoCrossChainMsg)
    (r : NeoConsensus) :
    (∀ e, verifyCrossChainMsgSig env msg r = .error e →
      (verifyCrossChainMsg env native msg r = .ok () ↔
        ∃ bs, env.msgGetMessage msg = some bs ∧
          native.cacheDB.keyHash r.ChainID = some (env.sha256Sum256 bs))) ∧
    (∀ e, verifyCrossChainMsgSig env msg r = .error e →
      native.cacheDB.keyHash r.ChainID = none →
      verifyCrossChainMsg env native msg r ≠ .ok ()) ∧
    (∀ e bs d, verifyCrossChainMsgSig env msg r = .error e →
      env.msgGetMessage msg = some bs →
      native.cacheDB.keyHash r.ChainID = some d → d ≠ env.sha256Sum256 bs →
      verifyCrossChainMsg env native msg r ≠ .ok ()) ∧
    (verifyCrossChainMsgSig env msg r = .ok () →
      ∀ other : NativeService, verifyCrossChainMsg env other msg r = .ok ()) := by
  have key : ∀ e, verifyCrossChainMsgSig env msg r = .error e →
      (verifyCrossChainMsg env native msg r = .ok () ↔
        ∃ bs, env.msgGetMessage msg = some bs ∧
          native.cacheDB.keyHash r.ChainID = some (env.sha256Sum256 bs)) := by
    intro e he
    rw [verifyCrossChainMsg_ok_iff, he]
    simp
  refine ⟨key, ?_, ?_, ?_⟩
  · intro e he hnone hok
    obtain ⟨bs, _, h2⟩ := (key e he).1 hok
    rw [hnone] at h2
    exact absurd h2 (by simp)
  · intro e bs d he hbs hd hne hok
    obtain ⟨bs2, h1, h2⟩ := (key e he).1 hok
    rw [hbs] at h1
    simp only [Option.some.injEq] at h1
    rw [hd, ← h1] at h2
    simp only [Option.some.injEq] at h2
    exact hne h2
  · intro hok other
    exact (verifyCrossChainMsg_ok_iff env other msg r).2 (Or.inl hok)

/-- C6 at chain 7 tracked at 150 with `B`: the message at 150 signed by `A`
fails the signature check and is accepted when its digest is the cached one,
refused when nothing is cached. -/
theorem cache_fallback_witness :
    verifyCrossChainMsgSig Demo.env (Demo.msgAt 150 1)
        { ChainID := 7, Height := 150, NextConsensus := Demo.setB } = .error .sigScriptHash ∧
    verifyCrossChainMsg Demo.env (Demo.nativeOn Demo.dbCached []) (Demo.msgAt 150 1)
        { ChainID := 7, Height := 150, NextConsensus := Demo.setB } = .ok () ∧
    verifyCrossChainMsg Demo.env (Demo.nativeOn Demo.dbRotated []) (Demo.msgAt 150 1)
        { ChainID := 7, Height := 150, NextConsensus := Demo.setB } ≠ .ok () :=
  ⟨rfl,
   ((cache_fallback Demo.env (Demo.nativeOn Demo.dbCached []) (Demo.msgAt 150 1)
      { ChainID := 7, Height := 150, NextConsensus := Demo.setB }).1 _ rfl).2
        ⟨[150], rfl, rfl⟩,
   (cache_fallback Demo.env (Demo.nativeOn Demo.dbRotated []) (Demo.msgAt 150 1)
      { ChainID := 7, Height := 150, NextConsensus := Demo.setB }).2.1 _ rfl rfl⟩

/-- C7, the claim as stated fails. On chain 7 tracked at 150 with `B`, the
message at 200 signed by `B` is accepted with no headers, and nothing is
cached by that call. `SyncBlockHeader` then stores the rotation at 200 from
`B` to `C`, which leaves the digest cache as it was. The second call with the
same message and no headers fails: the signature check is against `C` and no
digest is cached. -/
theorem cache_replay_counterexample :
    (VerifyCrossChainMsgSig Demo.env (Demo.nativeOn Demo.dbRotated []) 7
        (Demo.msgAt 200 2) []).1 = .ok () ∧
    Demo.dbAfterMsg200.keyHash 7 = none ∧
    (SyncBlockHeader Demo.env
        (Demo.nativeOn Demo.dbAfterMsg200 (7 :: Demo.header200BC))).1 = .ok () ∧
    Demo.dbRotatedAgain.keyHash 7 = Demo.dbAfterMsg200.keyHash 7 ∧
    Demo.dbRotatedAgain.consensusPeer 7
        = some { ChainID := 7, Height := 200, NextConsensus := Demo.setC } ∧
    (VerifyCrossChainMsgSig Demo.env (Demo.nativeOn Demo.dbRotatedAgain []) 7
        (Demo.msgAt 200 2) []).1 = .error .verifyMsgFailed :=
  ⟨rfl, rfl, rfl, rfl, rfl, rfl⟩

/-- C7, amended. Let `VerifyCrossChainMsgSig` succeed for chain `X` and
message `M` with a non-empty header list after which the tracked height
equals `M.Index`, the branch that writes the digest. On any later database
that still holds a record for `X` (stored under its own chain id) and whose
cached digest for `X` is the one the first call left, the call with the same
`M` and no headers succeeds, whatever the record now is and whether or not
the signature check passes against it. -/
theorem cache_replay (env : Env) (native later : NativeService) (X : Nat)
    (M : NeoCrossChainMsg) (hs : List Bytes) (cur prior newest r2 : NeoConsensus)
    (hne : hs ≠ [])
    (hcur : native.cacheDB.consensusPeer X = some cur)
    (hloop : headerLoop env hs (cur, cur) = .ok (prior, newest))
    (hidx : M.Index = newest.Height)
    (hok : (VerifyCrossChainMsgSig env native X M hs).1 = .ok ())
    (hcache : later.cacheDB.keyHash X =
      (VerifyCrossChainMsgSig env native X M hs).2.cacheDB.keyHash X)
    (hrec : later.cacheDB.consensusPeer X = some r2)
    (hkey : r2.ChainID = X) :
    (VerifyCrossChainMsgSig env later X M []).1 = .ok () := by
  have hlen : hs.length > 0 := List.length_pos.2 hne
  have hfirst : VerifyCrossChainMsgSig env native X M hs =
      processMsg env (storeIfHigher native cur newest) X M prior newest := by
    simp only [VerifyCrossChainMsgSig, if_pos hlen, processHeadersAndMsg,
      getConsensusValByChainId, hcur, hloop]
  rw [hfirst] at hok hcache
  unfold processMsg at hok hcache
  rw [if_neg (by omega), if_pos hidx] at hok hcache
  cases hv : verifyCrossChainMsg env (storeIfHigher native cur newest) M prior with
  | error e => simp [hv] at hok
  | ok u =>
    obtain ⟨bs, hbs⟩ := verifyCrossChainMsg_ok_getMessage env _ M prior hv
    simp only [hv, hbs, putMsgHash, if_true] at hcache
    have h2 : (VerifyCrossChainMsgSig env later X M []).1 =
        verifyCrossChainMsg env later M r2 := by
      simp [VerifyCrossChainMsgSig, getConsensusValByChainId, hrec]
    rw [h2]
    exact (verifyCrossChainMsg_ok_iff env later M r2).2
      (Or.inr ⟨bs, hbs, by rw [hkey]; exact hcache⟩)

/-- C7 amended, at chain 7: the message at 150 signed by `A` is accepted
together with the rotation header at 150; afterwards, with the record at 150
with `B`, the same message is accepted with no headers although its
signature check against `B` fails. -/
theorem cache_replay_witness :
    verifyCrossChainMsgSig Demo.env (Demo.msgAt 150 1)
        { ChainID := 7, Height := 150, NextConsensus := Demo.setB } = .error .sigScriptHash ∧
    (VerifyCrossChainMsgSig Demo.env (Demo.nativeOn Demo.dbCached []) 7
        (Demo.msgAt 150 1) []).1 = .ok () :=
  ⟨rfl,
   cache_replay Demo.env (Demo.nativeOn Demo.db100A []) (Demo.nativeOn Demo.dbCached []) 7
     (Demo.msgAt 150 1) [Demo.header150AB]
     { ChainID := 7, Height := 100, NextConsensus := Demo.setA }
     { ChainID := 7, Height := 100, NextConsensus := Demo.setA }
     { ChainID := 7, Height := 150, NextConsensus := Demo.setB }
     { ChainID := 7, Height := 150, NextConsensus := Demo.setB }
     (by decide) rfl rfl rfl rfl rfl rfl rfl⟩

/-- C8, the claim as stated fails. On chain 7 tracked at 150 with `B` the
message at 151 signed by `B` is accepted with no headers, and on chain 7
tracked at 100 with `A` it is accepted together with the rotation header at
150 (`151 > 150`); in both calls no digest is cached afterwards, so the cached
value is not the digest of the message. -/
theorem cache_write_counterexample :
    (VerifyCrossChainMsgSig Demo.env (Demo.nativeOn Demo.dbRotated []) 7
        (Demo.msgAt 151 2) []).1 = .ok () ∧
    (VerifyCrossChainMsgSig Demo.env (Demo.nativeOn Demo.dbRotated []) 7
        (Demo.msgAt 151 2) []).2.cacheDB.keyHash 7 = none ∧
    (VerifyCrossChainMsgSig Demo.env (Demo.nativeOn Demo.db100A []) 7
        (Demo.msgAt 151 2) [Demo.header150AB]).1 = .ok () ∧
    (VerifyCrossChainMsgSig Demo.env (Demo.nativeOn Demo.db100A []) 7
        (Demo.msgAt 151 2) [Demo.header150AB]).2.cacheDB.keyHash 7 = none ∧
    Demo.env.msgGetMessage (Demo.msgAt 151 2) = some [151] ∧
    (VerifyCrossChainMsgSig Demo.env (Demo.nativeOn Demo.dbRotated []) 7
        (Demo.msgAt 151 2) []).2.cacheDB.keyHash 7 ≠ some (Demo.env.sha256Sum256 [151]) :=
  ⟨rfl, rfl, rfl, rfl, rfl, by decide⟩

/-- C8, amended. Whenever `VerifyCrossChainMsgSig` returns success, the chain
has a stored record `cur`, the loop over the headers ends with some
`(prior, newest)`, and the message has signing bytes `bs`. If the header list
is non-empty and `msg.Index = newest.Height`, the digest cached for the chain
id after the call is the sha256 of `bs`, replacing what was there, and the
digests of the other chain ids are as before. In the other two cases
(`msg.Index > newest.Height`, or no headers) the digest cache after the call
is the one before the call. -/
theorem cache_write_on_success (env : Env) (native : NativeService) (chainID : Nat)
    (msg : NeoCrossChainMsg) (headers : List Bytes)
    (hok : (VerifyCrossChainMsgSig env native chainID msg headers).1 = .ok ()) :
    ∃ cur prior newest bs,
      native.cacheDB.consensusPeer chainID = some cur ∧
      headerLoop env headers (cur, cur) = .ok (prior, newest) ∧
      env.msgGetMessage msg = some bs ∧
      (VerifyCrossChainMsgSig env native chainID msg headers).2.cacheDB.keyHash =
        if headers ≠ [] ∧ msg.Index = newest.Height then
          fun c => if c = chainID then some (env.sha256Sum256 bs) else native.cacheDB.keyHash c
        else native.cacheDB.keyHash := by
  cases hcur : native.cacheDB.consensusPeer chainID with
  | none =>
    have : (VerifyCrossChainMsgSig env native chainID msg headers).1 = .error .notInitialized := by
      unfold VerifyCrossChainMsgSig
      split
      · rw [processHeadersAndMsg_uninitialised env native chainID headers _ hcur]
      · simp [getConsensusValByChainId, hcur]
    rw [this] at hok
    exact absurd hok (by simp)
  | some cur =>
    by_cases hne : headers = []
    · subst hne
      have h0 : VerifyCrossChainMsgSig env native chainID msg [] =
          (verifyCrossChainMsg env native msg cur, native) := by
        simp [VerifyCrossChainMsgSig, getConsensusValByChainId, hcur]
      rw [h0] at hok ⊢
      obtain ⟨bs, hbs⟩ := verifyCrossChainMsg_ok_getMessage env native msg cur hok
      exact ⟨cur, cur, cur, bs, rfl, rfl, hbs, by simp⟩
    · have hlen : headers.length > 0 := List.length_pos.2 hne
      cases hloop : headerLoop env headers (cur, cur) with
      | error e =>
        have : VerifyCrossChainMsgSig env native chainID msg headers = (.error e, native) := by
          simp only [VerifyCrossChainMsgSig, if_pos hlen]
          exact processHeadersAndMsg_loop_error env native chainID headers _ cur e hcur hloop
        rw [this] at hok
        exact absurd hok (by simp)
      | ok st =>
        obtain ⟨prior, newest⟩ := st
        have hfirst : VerifyCrossChainMsgSig env native chainID msg headers =
            processMsg env (storeIfHigher native cur newest) chainID msg prior newest := by
          simp only [VerifyCrossChainMsgSig, if_pos hlen, processHeadersAndMsg,
            getConsensusValByChainId, hcur, hloop]
        rw [hfirst] at hok ⊢
        unfold processMsg at hok ⊢
        by_cases hlt : msg.Index < newest.Height
        · rw [if_pos hlt] at hok
          exact absurd hok (by simp)
        · rw [if_neg hlt] at hok ⊢
          by_cases hidx : msg.Index = newest.Height
          · rw [if_pos hidx] at hok ⊢
            cases hv : verifyCrossChainMsg env (storeIfHigher native cur newest) msg prior with
            | error e => simp [hv] at hok
            | ok u =>
              obtain ⟨bs, hbs⟩ := verifyCrossChainMsg_ok_getMessage env _ msg prior hv
              refine ⟨cur, prior, newest, bs, rfl, hloop, hbs, ?_⟩
              simp only [hbs, putMsgHash, storeIfHigher_keyHash, hne, hidx, ne_eq,
                not_false_eq_true, and_self, if_true]
          · rw [if_neg hidx] at hok ⊢
            cases hv : verifyCrossChainMsg env (storeIfHigher native cur newest) msg newest with
            | error e => simp [hv] at hok
            | ok u =>
              obtain ⟨bs, hbs⟩ := verifyCrossChainMsg_ok_getMessage env _ msg newest hv
              refine ⟨cur, prior, newest, bs, rfl, hloop, hbs, ?_⟩
              simp only [storeIfHigher_keyHash, hidx, and_false, if_false]

/-- C8 amended, at chain 7 tracked at 100 with `A`: after the successful call
with the rotation header at 150 and the message at 150 signed by `A`, a digest
is cached for chain 7. -/
theorem cache_write_on_success_witness :
    (VerifyCrossChainMsgSig Demo.env (Demo.nativeOn Demo.db100A []) 7
        (Demo.msgAt 150 1) [Demo.header150AB]).1 = .ok () ∧
    (VerifyCrossChainMsgSig Demo.env (Demo.nativeOn Demo.db100A []) 7
        (Demo.msgAt 150 1) [Demo.header150AB]).2.cacheDB.keyHash 7
      = some (Demo.env.sha256Sum256 [150]) ∧
    ∃ cur prior newest bs,
      (Demo.nativeOn Demo.db100A []).cacheDB.consensusPeer 7 = some cur ∧
      headerLoop Demo.env [Demo.header150AB] (cur, cur) = .ok (prior, newest) ∧
      Demo.env.msgGetMessage (Demo.msgAt 150 1) = some bs ∧
      (VerifyCrossChainMsgSig Demo.env (Demo.nativeOn Demo.db100A []) 7
          (Demo.msgAt 150 1) [Demo.header150AB]).2.cacheDB.keyHash =
        if [Demo.header150AB] ≠ [] ∧ (Demo.msgAt 150 1).Index = newest.Height then
          fun c => if c = 7 then some (Demo.env.sha256Sum256 bs)
            else (Demo.nativeOn Demo.db100A []).cacheDB.keyHash c
        else (Demo.nativeOn Demo.db100A []).cacheDB.keyHash :=
  ⟨rfl, rfl,
   cache_write_on_success Demo.env (Demo.nativeOn Demo.db100A []) 7 (Demo.msgAt 150 1)
     [Demo.header150AB] rfl⟩

/-- C9 (idempotent genesis). If a consensus record `r` is stored for chain id
`c`, then after any call of `SyncGenesisHeader` (any input, any caller, any
genesis header bytes) the record stored for `c` is still `r`; and when the
call is for chain id `c` itself, the call leaves the whole database, digests
included, as it was. -/
theorem genesis_idempotent (env : Env) (native : NativeService) (c : Nat)
    (r : NeoConsensus) (h : native.cacheDB.consensusPeer c = some r) :
    (SyncGenesisHeader env native).2.cacheDB.consensusPeer c = some r ∧
    (∀ params, env.decodeSyncGenesisHeaderParam native.input = some params →
      params.ChainID = c → (SyncGenesisHeader env native).2 = native) := by
  constructor
  · rcases SyncGenesisHeader_consensusPeer env native with h1 | ⟨params, header, _, _, hnone, h1⟩
    · rw [h1]; exact h
    · rw [h1]
      by_cases hc : c = params.ChainID
      · rw [hc, hnone] at h
        exact absurd h (by simp)
      · simp only [hc, if_false]
        exact h
  · intro params hp hc
    unfold SyncGenesisHeader
    rw [hp]
    simp only
    cases AddressFromBookkeepers env env.GenesisBookkeepers with
    | error e => rfl
    | ok operatorAddress =>
      simp only
      cases ValidateOwner native operatorAddress with
      | error e => rfl
      | ok u =>
        simp only
        cases env.decodeNeoBlockHeader params.GenesisHeader with
        | none => rfl
        | some header =>
          simp only [getConsensusValByChainId, hc, h]

/-- C9 at chain 7 bootstrapped at 100 with `A`: a second, authorised genesis
call for chain 7 with another header (index 120, `NextConsensus = B`)
succeeds and the record is still the one at 100 with `A`. -/
theorem genesis_idempotent_witness :
    Demo.dbBootstrapped.consensusPeer 7
        = some { ChainID := 7, Height := 100, NextConsensus := Demo.setA } ∧
    (SyncGenesisHeader Demo.env (Demo.nativeOn Demo.dbBootstrapped [7, 120, 2, 0])).1
        = .ok () ∧
    (SyncGenesisHeader Demo.env
        (Demo.nativeOn Demo.dbBootstrapped [7, 120, 2, 0])).2.cacheDB.consensusPeer 7
      = some { ChainID := 7, Height := 100, NextConsensus := Demo.setA } :=
  ⟨rfl, rfl,
   (genesis_idempotent Demo.env (Demo.nativeOn Demo.dbBootstrapped [7, 120, 2, 0]) 7
     { ChainID := 7, Height := 100, NextConsensus := Demo.setA } rfl).1⟩

/-- C10, the claim as stated fails. Chain 7 is tracked at height 100 with
`A`. The header at index 50 with `NextConsensus = C` decodes, its
`NextConsensus` is not the tracked one and its witness script hash is not
`A`, so `verifyHeader` refuses it; yet `SyncBlockHeader` and
`processHeadersAndMsg` return success on the batch that holds it, because
`50 ≤ 100` and the header is skipped. -/
theorem unrelated_signer_counterexample :
    Demo.env.decodeNeoBlockHeader Demo.header50Z
      = some { Index := 50, NextConsensus := Demo.setC,
               Witness := { InvocationScript := [0], VerificationScript := [8] },
               body := [] } ∧
    Demo.setC ≠ Demo.setA ∧
    verifyHeader Demo.env
        { Index := 50, NextConsensus := Demo.setC,
          Witness := { InvocationScript := [0], VerificationScript := [8] }, body := [] }
        { ChainID := 7, Height := 100, NextConsensus := Demo.setA }
      = .error .verifyHeaderScriptHash ∧
    (SyncBlockHeader Demo.env (Demo.nativeOn Demo.db100A (7 :: Demo.header50Z))).1 = .ok () ∧
    (processHeadersAndMsg Demo.env (Demo.nativeOn Demo.db100A []) 7 [Demo.header50Z] none).1
      = .ok () :=
  ⟨rfl, by decide, rfl, rfl, rfl⟩

/-- C10, amended. On an initialised chain, let the batch hold a decodable
header whose `NextConsensus` differs from the one tracked when the header is
reached, whose `Index` is greater than the tracked `Height`, and whose
witness script hash is not the tracked `NextConsensus`. Then
`processHeadersAndMsg` returns the `verifyHeader` error and writes nothing,
and so does `SyncBlockHeader` on an input that decodes to this batch. -/
theorem unrelated_signer_rejected (env : Env) (native : NativeService) (chainId : Nat)
    (pre post : List Bytes) (v : Bytes) (msg : Option NeoCrossChainMsg)
    (cur p n : NeoConsensus) (header : NeoBlockHeader)
    (hcur : native.cacheDB.consensusPeer chainId = some cur)
    (hpre : headerLoop env pre (cur, cur) = .ok (p, n))
    (hd : env.decodeNeoBlockHeader v = some header)
    (hne : header.NextConsensus ≠ n.NextConsensus)
    (hgt : header.Index > n.Height)
    (hsh : env.witnessGetScriptHash header.Witness ≠ n.NextConsensus) :
    processHeadersAndMsg env native chainId (pre ++ v :: post) msg =
      (.error (.processVerifyHeader .verifyHeaderScriptHash), native) ∧
    (env.decodeSyncBlockHeaderParam native.input =
        some { ChainID := chainId, Headers := pre ++ v :: post } →
      SyncBlockHeader env native =
        (.error (.processVerifyHeader .verifyHeaderScriptHash), native)) := by
  have hv : verifyHeader env header n = .error .verifyHeaderScriptHash := by
    unfold verifyHeader
    rw [if_pos (fun e => hsh e.symm)]
  have hloop : headerLoop env (pre ++ v :: post) (cur, cur) =
      .error (.processVerifyHeader .verifyHeaderScriptHash) := by
    rw [headerLoop_append, hpre]
    simp only [Except.bind, headerLoop, hd]
    rw [if_pos ⟨hne, hgt⟩, hv]
  have hmain := processHeadersAndMsg_loop_error env native chainId (pre ++ v :: post) msg cur _
    hcur hloop
  refine ⟨hmain, ?_⟩
  intro hp
  unfold SyncBlockHeader
  rw [hp]
  exact processHeadersAndMsg_loop_error env native chainId (pre ++ v :: post) none cur _
    hcur hloop

/-- C10 amended, at chain 7 tracked at 100 with `A`: the header at 150 with
`NextConsensus = B` whose witness carries the key 8 is refused. -/
theorem unrelated_signer_rejected_witness :
    (SyncBlockHeader Demo.env (Demo.nativeOn Demo.db100A [7, 150, 2, 8, 8, 150, 2])).1
      = .error (.processVerifyHeader .verifyHeaderScriptHash) :=
  congrArg Prod.fst
    ((unrelated_signer_rejected Demo.env (Demo.nativeOn Demo.db100A [7, 150, 2, 8, 8, 150, 2])
      7 [] [] [150, 2, 8, 8, 150, 2] none
      { ChainID := 7, Height := 100, NextConsensus := Demo.setA }
      { ChainID := 7, Height := 100, NextConsensus := Demo.setA }
      { ChainID := 7, Height := 100, NextConsensus := Demo.setA }
      { Index := 150, NextConsensus := Demo.setB,
        Witness := { InvocationScript := [8, 150, 2], VerificationScript := [8] }, body := [] }
      rfl rfl rfl (by decide) (by decide) (by decide)).2 rfl)

/-- C11 (a header failure aborts the call before any write). On an
initialised chain, for every batch and optional message: if some header of
the batch does not decode, `processHeadersAndMsg` returns an error and the
`NativeService`, with every consensus record and every cached digest, is
exactly as before the call; and if some header that is a rotation for the
record tracked when it is reached fails `verifyHeader`, the call returns that
error and again nothing is written, even when earlier headers of the batch
were accepted rotations. -/
theorem header_failure_aborts (env : Env) (native : NativeService) (chainId : Nat)
    (headers : List Bytes) (msg : Option NeoCrossChainMsg) (cur : NeoConsensus)
    (hcur : native.cacheDB.consensusPeer chainId = some cur) :
    ((∃ v ∈ headers, env.decodeNeoBlockHeader v = none) →
      ∃ e, processHeadersAndMsg env native chainId headers msg = (.error e, native)) ∧
    (∀ pre v post p n header e,
      headers = pre ++ v :: post →
      headerLoop env pre (cur, cur) = .ok (p, n) →
      env.decodeNeoBlockHeader v = some header →
      header.NextConsensus ≠ n.NextConsensus → header.Index > n.Height →
      verifyHeader env header n = .error e →
      processHeadersAndMsg env native chainId headers msg =
        (.error (.processVerifyHeader e), native)) := by
  constructor
  · intro h
    obtain ⟨e, he⟩ := headerLoop_undecodable env headers (cur, cur) h
    exact ⟨e, processHeadersAndMsg_loop_error env native chainId headers msg cur e hcur he⟩
  · intro pre v post p n header e hsplit hpre hd hne hgt hv
    have hloop : headerLoop env headers (cur, cur) = .error (.processVerifyHeader e) := by
      rw [hsplit, headerLoop_append, hpre]
      simp only [Except.bind, headerLoop, hd]
      rw [if_pos ⟨hne, hgt⟩, hv]
    exact processHeadersAndMsg_loop_error env native chainId headers msg cur _ hcur hloop

/-- C11 at chain 7 tracked at 100 with `A`: the batch holds the valid
rotation at 150 and then bytes that do not decode; the call fails and the
record of chain 7 is still the one at 100. -/
theorem header_failure_aborts_witness :
    headerLoop Demo.env [Demo.header150AB]
        ({ ChainID := 7, Height := 100, NextConsensus := Demo.setA },
         { ChainID := 7, Height := 100, NextConsensus := Demo.setA })
      = .ok ({ ChainID := 7, Height := 100, NextConsensus := Demo.setA },
             { ChainID := 7, Height := 150, NextConsensus := Demo.setB }) ∧
    ∃ e, processHeadersAndMsg Demo.env (Demo.nativeOn Demo.db100A []) 7
        [Demo.header150AB, [1]] (some (Demo.msgAt 150 1))
      = (.error e, Demo.nativeOn Demo.db100A []) :=
  ⟨rfl,
   (header_failure_aborts Demo.env (Demo.nativeOn Demo.db100A []) 7
      [Demo.header150AB, [1]] (some (Demo.msgAt 150 1))
      { ChainID := 7, Height := 100, NextConsensus := Demo.setA } rfl).1
      ⟨[1], by simp, rfl⟩⟩

/-- C12, the claim as stated fails. On chain 7 tracked at 100 with `A`,
`VerifyCrossChainMsgSig` with the valid rotation header at 150 and the
message at 150 signed by `B` (not the prior set, nothing cached) returns an
error, and so does the call with the message at 120 (stale); in both calls
the record of chain 7 is at 150 with `B` when the function returns, not the
one at 100 with `A` stored before the call. -/
theorem atomicity_counterexample :
    (Demo.nativeOn Demo.db100A []).cacheDB.consensusPeer 7
      = some { ChainID := 7, Height := 100, NextConsensus := Demo.setA } ∧
    (VerifyCrossChainMsgSig Demo.env (Demo.nativeOn Demo.db100A []) 7
        (Demo.msgAt 150 2) [Demo.header150AB]).1
      = .error (.processVerifyCrossChainMsg .verifyMsgFailed) ∧
    (VerifyCrossChainMsgSig Demo.env (Demo.nativeOn Demo.db100A []) 7
        (Demo.msgAt 150 2) [Demo.header150AB]).2.cacheDB.consensusPeer 7
      = some { ChainID := 7, Height := 150, NextConsensus := Demo.setB } ∧
    (VerifyCrossChainMsgSig Demo.env (Demo.nativeOn Demo.db100A []) 7
        (Demo.msgAt 120 1) [Demo.header150AB]).1 = .error .msgNotAtCurrentEpoch ∧
    (VerifyCrossChainMsgSig Demo.env (Demo.nativeOn Demo.db100A []) 7
        (Demo.msgAt 120 1) [Demo.header150AB]).2.cacheDB.consensusPeer 7
      = some { ChainID := 7, Height := 150, NextConsensus := Demo.setB } ∧
    (VerifyCrossChainMsgSig Demo.env (Demo.nativeOn Demo.db100A []) 7
        (Demo.msgAt 150 2) [Demo.header150AB]).2.cacheDB.consensusPeer 7
      ≠ (Demo.nativeOn Demo.db100A []).cacheDB.consensusPeer 7 :=
  ⟨rfl, rfl, rfl, rfl, rfl, by decide⟩

/-- C12, amended. An error of `SyncGenesisHeader` or of `SyncBlockHeader`
leaves the `NativeService`, with all consensus records and all cached digests,
as before the call. An error of `VerifyCrossChainMsgSig` leaves it as before
the call when the header list is empty and when the error comes before the
message check (chain not initialised, header that does not decode, failed
`verifyHeader`); when the error is that of the message check after a
non-empty header list, the function returns with the record tracked after
the headers written if its height has grown, and with the digests
untouched. -/
theorem error_leaves_store (env : Env) (native : NativeService) :
    (∀ e, (SyncGenesisHeader env native).1 = .error e →
      (SyncGenesisHeader env native).2 = native) ∧
    (∀ e, (SyncBlockHeader env native).1 = .error e →
      (SyncBlockHeader env native).2 = native) ∧
    (∀ chainID msg headers e,
      (VerifyCrossChainMsgSig env native chainID msg headers).1 = .error e →
      (VerifyCrossChainMsgSig env native chainID msg headers).2.cacheDB.keyHash
          = native.cacheDB.keyHash ∧
      ((VerifyCrossChainMsgSig env native chainID msg headers).2 = native ∨
        (headers ≠ [] ∧ ∃ cur prior newest inner,
          native.cacheDB.consensusPeer chainID = some cur ∧
          headerLoop env headers (cur, cur) = .ok (prior, newest) ∧
          (e = .msgNotAtCurrentEpoch ∨ e = .processVerifyCrossChainMsg inner) ∧
          (VerifyCrossChainMsgSig env native chainID msg headers).2
            = storeIfHigher native cur newest))) := by
  refine ⟨?_, ?_, ?_⟩
  · intro e h
    unfold SyncGenesisHeader at h ⊢
    cases hp : env.decodeSyncGenesisHeaderParam native.input with
    | none => rfl
    | some params =>
      simp only [hp] at h ⊢
      cases ha : AddressFromBookkeepers env env.GenesisBookkeepers with
      | error e2 => rfl
      | ok operatorAddress =>
        simp only [ha] at h ⊢
        cases hv : ValidateOwner native operatorAddress with
        | error e2 => rfl
        | ok u =>
          simp only [hv] at h ⊢
          cases hh : env.decodeNeoBlockHeader params.GenesisHeader with
          | none => rfl
          | some header =>
            simp only [hh] at h ⊢
            cases hg : getConsensusValByChainId native params.ChainID with
            | ok r => rfl
            | error e2 => simp [hg] at h
  · intro e h
    unfold SyncBlockHeader at h ⊢
    cases hp : env.decodeSyncBlockHeaderParam native.input with
    | none => rfl
    | some params =>
      simp only [hp] at h ⊢
      cases hcur : native.cacheDB.consensusPeer params.ChainID with
      | none => rw [processHeadersAndMsg_uninitialised env native _ _ _ hcur]
      | some cur =>
        cases hloop : headerLoop env params.Headers (cur, cur) with
        | error e2 => rw [processHeadersAndMsg_loop_error env native _ _ _ cur e2 hcur hloop]
        | ok st =>
          obtain ⟨prior, newest⟩ := st
          simp [processHeadersAndMsg, getConsensusValByChainId, hcur, hloop] at h
  · intro chainID msg headers e h
    by_cases hne : headers = []
    · subst hne
      have h0 : (VerifyCrossChainMsgSig env native chainID msg []).2 = native := by
        unfold VerifyCrossChainMsgSig
        simp only [List.length_nil, gt_iff_lt, lt_self_iff_false, if_false]
        cases getConsensusValByChainId native chainID <;> rfl
      exact ⟨by rw [h0], Or.inl h0⟩
    · have hlen : headers.length > 0 := List.length_pos.2 hne
      have hv : VerifyCrossChainMsgSig env native chainID msg headers =
          processHeadersAndMsg env native chainID headers (some msg) := by
        simp only [VerifyCrossChainMsgSig, if_pos hlen]
      rw [hv] at h ⊢
      cases hcur : native.cacheDB.consensusPeer chainID with
      | none =>
        rw [processHeadersAndMsg_uninitialised env native _ _ _ hcur]
        exact ⟨rfl, Or.inl rfl⟩
      | some cur =>
        cases hloop : headerLoop env headers (cur, cur) with
        | error e2 =>
          rw [processHeadersAndMsg_loop_error env native _ _ _ cur e2 hcur hloop]
          exact ⟨rfl, Or.inl rfl⟩
        | ok st =>
          obtain ⟨prior, newest⟩ := st
          have hp : processHeadersAndMsg env native chainID headers (some msg) =
              processMsg env (storeIfHigher native cur newest) chainID msg prior newest := by
            simp only [processHeadersAndMsg, getConsensusValByChainId, hcur, hloop]
          rw [hp] at h ⊢
          have h2 := processMsg_error env _ chainID msg prior newest e h
          refine ⟨by rw [h2, storeIfHigher_keyHash], Or.inr ⟨hne, cur, prior, newest, ?_⟩⟩
          unfold processMsg at h
          by_cases hlt : msg.Index < newest.Height
          · rw [if_pos hlt] at h
            simp only [Except.error.injEq] at h
            exact ⟨e, rfl, hloop, Or.inl h.symm, h2⟩
          · rw [if_neg hlt] at h
            by_cases hidx : msg.Index = newest.Height
            · rw [if_pos hidx] at h
              cases hv2 : verifyCrossChainMsg env (storeIfHigher native cur newest) msg prior with
              | error e3 =>
                simp only [hv2, Except.error.injEq] at h
                exact ⟨e3, rfl, hloop, Or.inr h.symm, h2⟩
              | ok u =>
                obtain ⟨bs, hbs⟩ := verifyCrossChainMsg_ok_getMessage env _ msg prior hv2
                simp [hv2, hbs] at h
            · rw [if_neg hidx] at h
              cases hv2 : verifyCrossChainMsg env (storeIfHigher native cur newest) msg newest with
              | error e3 =>
                simp only [hv2, Except.error.injEq] at h
                exact ⟨e3, rfl, hloop, Or.inr h.symm, h2⟩
              | ok u => simp [hv2] at h

/-- C12 amended, at chain 7 tracked at 100 with `A`: the failing
`SyncBlockHeader` with the header at 150 whose witness carries the key 8
leaves the service as it was. -/
theorem error_leaves_store_witness :
    (SyncBlockHeader Demo.env (Demo.nativeOn Demo.db100A [7, 150, 2, 8, 8, 150, 2])).1
      = .error (.processVerifyHeader .verifyHeaderScriptHash) ∧
    (SyncBlockHeader Demo.env (Demo.nativeOn Demo.db100A [7, 150, 2, 8, 8, 150, 2])).2
      = Demo.nativeOn Demo.db100A [7, 150, 2, 8, 8, 150, 2] :=
  ⟨rfl,
   (error_leaves_store Demo.env (Demo.nativeOn Demo.db100A [7, 150, 2, 8, 8, 150, 2])).2.1
     _ rfl⟩

/-- C13 (non-rotation headers are no-ops). On a chain whose stored record is
`r`, let every header of the batch decode and have `NextConsensus` equal to
`r.NextConsensus` or `Index` at most `r.Height`, whatever their witnesses,
order and repetitions are. Then `processHeadersAndMsg` without a message
succeeds and leaves the `NativeService`, record and digests, exactly as it
was, and so does `SyncBlockHeader` on an input that decodes to this batch. -/
theorem non_rotation_headers_noop (env : Env) (native : NativeService) (chainId : Nat)
    (headers : List Bytes) (r : NeoConsensus)
    (hcur : native.cacheDB.consensusPeer chainId = some r)
    (hall : ∀ v ∈ headers, ∃ header, env.decodeNeoBlockHeader v = some header ∧
      (header.NextConsensus = r.NextConsensus ∨ header.Index ≤ r.Height)) :
    processHeadersAndMsg env native chainId headers none = (.ok (), native) ∧
    (env.decodeSyncBlockHeaderParam native.input =
        some { ChainID := chainId, Headers := headers } →
      SyncBlockHeader env native = (.ok (), native)) := by
  have hskip : ∀ v ∈ headers, Skipped env r v := by
    intro v hv
    obtain ⟨header, hd, hc⟩ := hall v hv
    refine ⟨header, hd, ?_⟩
    rintro ⟨h1, h2⟩
    rcases hc with hc | hc
    · exact h1 hc
    · omega
  have hloop := headerLoop_skipped env headers r r hskip
  have hmain : processHeadersAndMsg env native chainId headers none = (.ok (), native) := by
    simp only [processHeadersAndMsg, getConsensusValByChainId, hcur, hloop, storeIfHigher_self]
  refine ⟨hmain, ?_⟩
  intro hp
  unfold SyncBlockHeader
  rw [hp]
  exact hmain

/-- C13 at chain 7 tracked at 100 with `A`: a batch with the header at 50
twice, whose witness is of an unknown key, and a header at 150 that keeps
`NextConsensus = A` is accepted and nothing changes. -/
theorem non_rotation_headers_noop_witness :
    processHeadersAndMsg Demo.env (Demo.nativeOn Demo.db100A []) 7
        [Demo.header50Z, [150, 1, 8, 0], Demo.header50Z] none
      = (.ok (), Demo.nativeOn Demo.db100A []) :=
  (non_rotation_headers_noop Demo.env (Demo.nativeOn Demo.db100A []) 7
    [Demo.header50Z, [150, 1, 8, 0], Demo.header50Z]
    { ChainID := 7, Height := 100, NextConsensus := Demo.setA } rfl
    (by
      intro v hv
      simp only [List.mem_cons, List.mem_singleton, List.not_mem_nil, or_false] at hv
      rcases hv with rfl | rfl | rfl
      · exact ⟨_, rfl, Or.inr (by decide)⟩
      · exact ⟨_, rfl, Or.inl rfl⟩
      · exact ⟨_, rfl, Or.inr (by decide)⟩)).1

/-- C14, the claim as stated fails. On chain 7 tracked at 150 with `B` and
nothing cached: for the message at 50 signed by `B`, `VerifyCrossChainMsgSig`
with no headers succeeds while `processHeadersAndMsg` with the empty batch
fails; and for the message at 150 signed by `B` both succeed, but
`processHeadersAndMsg` leaves the digest of the message cached and
`VerifyCrossChainMsgSig` leaves the cache empty. -/
theorem no_header_equivalence_counterexample :
    (VerifyCrossChainMsgSig Demo.env (Demo.nativeOn Demo.dbRotated []) 7
        (Demo.msgAt 50 2) []).1 = .ok () ∧
    (processHeadersAndMsg Demo.env (Demo.nativeOn Demo.dbRotated []) 7 []
        (some (Demo.msgAt 50 2))).1 = .error .msgNotAtCurrentEpoch ∧
    (VerifyCrossChainMsgSig Demo.env (Demo.nativeOn Demo.dbRotated []) 7
        (Demo.msgAt 150 2) []).1 = .ok () ∧
    (processHeadersAndMsg Demo.env (Demo.nativeOn Demo.dbRotated []) 7 []
        (some (Demo.msgAt 150 2))).1 = .ok () ∧
    (VerifyCrossChainMsgSig Demo.env (Demo.nativeOn Demo.dbRotated []) 7
        (Demo.msgAt 150 2) []).2.cacheDB.keyHash 7 = none ∧
    (processHeadersAndMsg Demo.env (Demo.nativeOn Demo.dbRotated []) 7 []
        (some (Demo.msgAt 150 2))).2.cacheDB.keyHash 7 = some [150] :=
  ⟨rfl, rfl, rfl, rfl, rfl, rfl⟩

/-- C14, amended. `VerifyCrossChainMsgSig` with an empty header list and
`processHeadersAndMsg` with the empty batch agree as follows. With no stored
record both fail and write nothing. With a stored record `cur` and
`msg.Index > cur.Height` they return the same result (the error of the second
wrapped once more) and leave the same `NativeService`. With
`msg.Index = cur.Height` they return the same result; the no-header path
leaves the `NativeService` as it was, and `processHeadersAndMsg` does so on
failure and on success has in addition cached the digest of the message for
the chain id. -/
theorem no_header_path_agreement (env : Env) (native : NativeService) (chainID : Nat)
    (msg : NeoCrossChainMsg) :
    (native.cacheDB.consensusPeer chainID = none →
      VerifyCrossChainMsgSig env native chainID msg [] =
        processHeadersAndMsg env native chainID [] (some msg)) ∧
    (∀ cur, native.cacheDB.consensusPeer chainID = some cur → msg.Index > cur.Height →
      (processHeadersAndMsg env native chainID [] (some msg)).1 =
        (VerifyCrossChainMsgSig env native chainID msg []).1.mapError
          Err.processVerifyCrossChainMsg ∧
      (processHeadersAndMsg env native chainID [] (some msg)).2 =
        (VerifyCrossChainMsgSig env native chainID msg []).2) ∧
    (∀ cur, native.cacheDB.consensusPeer chainID = some cur → msg.Index = cur.Height →
      (processHeadersAndMsg env native chainID [] (some msg)).1 =
        (VerifyCrossChainMsgSig env native chainID msg []).1.mapError
          Err.processVerifyCrossChainMsg ∧
      (VerifyCrossChainMsgSig env native chainID msg []).2 = native ∧
      (∀ e, (VerifyCrossChainMsgSig env native chainID msg []).1 = .error e →
        (processHeadersAndMsg env native chainID [] (some msg)).2 = native) ∧
      ((VerifyCrossChainMsgSig env native chainID msg []).1 = .ok () →
        ∃ bs, env.msgGetMessage msg = some bs ∧
          (processHeadersAndMsg env native chainID [] (some msg)).2 =
            putMsgHash native chainID (env.sha256Sum256 bs))) := by
  refine ⟨?_, ?_, ?_⟩
  · intro hnone
    rw [processHeadersAndMsg_uninitialised env native chainID [] _ hnone]
    simp [VerifyCrossChainMsgSig, getConsensusValByChainId, hnone]
  · intro cur hcur hgt
    have hv : VerifyCrossChainMsgSig env native chainID msg [] =
        (verifyCrossChainMsg env native msg cur, native) := by
      simp [VerifyCrossChainMsgSig, getConsensusValByChainId, hcur]
    have hp : processHeadersAndMsg env native chainID [] (some msg) =
        processMsg env native chainID msg cur cur := by
      simp only [processHeadersAndMsg, getConsensusValByChainId, hcur, headerLoop,
        storeIfHigher_self]
    rw [hv, hp]
    unfold processMsg
    rw [if_neg (by omega), if_neg (by omega)]
    cases verifyCrossChainMsg env native msg cur <;> exact ⟨rfl, rfl⟩
  · intro cur hcur hidx
    have hv : VerifyCrossChainMsgSig env native chainID msg [] =
        (verifyCrossChainMsg env native msg cur, native) := by
      simp [VerifyCrossChainMsgSig, getConsensusValByChainId, hcur]
    have hp : processHeadersAndMsg env native chainID [] (some msg) =
        processMsg env native chainID msg cur cur := by
      simp only [processHeadersAndMsg, getConsensusValByChainId, hcur, headerLoop,
        storeIfHigher_self]
    rw [hv, hp]
    unfold processMsg
    rw [if_neg (by omega), if_pos hidx]
    cases hr : verifyCrossChainMsg env native msg cur with
    | error e2 => exact ⟨rfl, rfl, fun _ _ => rfl, fun h => absurd h (by simp)⟩
    | ok u =>
      obtain ⟨bs, hbs⟩ := verifyCrossChainMsg_ok_getMessage env native msg cur hr
      refine ⟨?_, rfl, fun e h => absurd h (by simp), fun _ => ⟨bs, hbs, ?_⟩⟩
      · simp [hbs, Except.mapError]
      · simp [hbs]

/-- C14 amended, at chain 7 tracked at 150 with `B`: for the message at 151
signed by `B` the two paths return the same result and leave the same
service. -/
theorem no_header_path_agreement_witness :
    (processHeadersAndMsg Demo.env (Demo.nativeOn Demo.dbRotated []) 7 []
        (some (Demo.msgAt 151 2))).1 = .ok () ∧
    (processHeadersAndMsg Demo.env (Demo.nativeOn Demo.dbRotated []) 7 []
        (some (Demo.msgAt 151 2))).2 =
      (VerifyCrossChainMsgSig Demo.env (Demo.nativeOn Demo.dbRotated []) 7
        (Demo.msgAt 151 2) []).2 :=
  ⟨(((no_header_path_agreement Demo.env (Demo.nativeOn Demo.dbRotated []) 7
      (Demo.msgAt 151 2)).2.1
        { ChainID := 7, Height := 150, NextConsensus := Demo.setB } rfl (by decide)).1).trans
      rfl,
   ((no_header_path_agreement Demo.env (Demo.nativeOn Demo.dbRotated []) 7
      (Demo.msgAt 151 2)).2.1
        { ChainID := 7, Height := 150, NextConsensus := Demo.setB } rfl (by decide)).2⟩

/-- C15 (genesis stores the header's epoch, no signature check). On a chain
id with no stored record, for a call whose input decodes, whose caller
carries the witness of the governance address, and whose genesis header
bytes decode to `header`, whatever the witness of `header` is:
`SyncGenesisHeader` succeeds and `getConsensusValByChainId` then returns
exactly the record made of the chain id, `header.Index` and
`header.NextConsensus`; the digests and the records of the other chain ids
are as before. -/
theorem genesis_bootstrap (env : Env) (native : NativeService)
    (params : SyncGenesisHeaderParam) (operatorAddress : Address) (header : NeoBlockHeader)
    (hp : env.decodeSyncGenesisHeaderParam native.input = some params)
    (ha : AddressFromBookkeepers env env.GenesisBookkeepers = .ok operatorAddress)
    (hw : native.checkWitness operatorAddress = true)
    (hh : env.decodeNeoBlockHeader params.GenesisHeader = some header)
    (hnone : native.cacheDB.consensusPeer params.ChainID = none) :
    (SyncGenesisHeader env native).1 = .ok () ∧
    getConsensusValByChainId (SyncGenesisHeader env native).2 params.ChainID =
      .ok { ChainID := params.ChainID, Height := header.Index,
            NextConsensus := header.NextConsensus } ∧
    (∀ c, c ≠ params.ChainID →
      (SyncGenesisHeader env native).2.cacheDB.consensusPeer c
        = native.cacheDB.consensusPeer c) ∧
    (SyncGenesisHeader env native).2.cacheDB.keyHash = native.cacheDB.keyHash := by
  have hs : SyncGenesisHeader env native =
      (.ok (), putConsensusValByChainId native
        { ChainID := params.ChainID, Height := header.Index,
          NextConsensus := header.NextConsensus }) := by
    simp only [SyncGenesisHeader, hp, ha, ValidateOwner, hw, if_true, hh,
      getConsensusValByChainId, hnone]
  rw [hs]
  refine ⟨rfl, ?_, ?_, rfl⟩
  · simp [getConsensusValByChainId, putConsensusValByChainId]
  · intro c hc
    simp [putConsensusValByChainId, hc]

/-- C15 on the empty database: the genesis call for chain 7 with a header at
100 whose `NextConsensus` is `A` and whose witness is the unknown key 0 with
an empty signature stores the record at 100 with `A`. -/
theorem genesis_bootstrap_witness :
    (SyncGenesisHeader Demo.env (Demo.nativeOn CacheDB.empty [7, 100, 1, 0])).1 = .ok () ∧
    getConsensusValByChainId
        (SyncGenesisHeader Demo.env (Demo.nativeOn CacheDB.empty [7, 100, 1, 0])).2 7
      = .ok { ChainID := 7, Height := 100, NextConsensus := Demo.setA } :=
  have h := genesis_bootstrap Demo.env (Demo.nativeOn CacheDB.empty [7, 100, 1, 0])
    { ChainID := 7, GenesisHeader := [100, 1, 0] } [9]
    { Index := 100, NextConsensus := Demo.setA,
      Witness := { InvocationScript := [], VerificationScript := [0] }, body := [] }
    rfl rfl rfl rfl rfl
  ⟨h.1, h.2.1⟩

/-- C16 (genesis authorisation). For every input: if the governance address
cannot be derived from `GenesisBookkeepers`, or the transaction does not
carry its witness, `SyncGenesisHeader` returns an error and the
`NativeService` is exactly as before the call, whether or not a record is
stored for the chain id and whatever the genesis header bytes are; so no
write is made before the check has passed. -/
theorem genesis_unauthorized (env : Env) (native : NativeService)
    (hauth : (∃ e, AddressFromBookkeepers env env.GenesisBookkeepers = .error e) ∨
      (∃ operatorAddress,
        AddressFromBookkeepers env env.GenesisBookkeepers = .ok operatorAddress ∧
        native.checkWitness operatorAddress = false)) :
    ∃ e, SyncGenesisHeader env native = (.error e, native) := by
  unfold SyncGenesisHeader
  cases hp : env.decodeSyncGenesisHeaderParam native.input with
  | none => exact ⟨_, rfl⟩
  | some params =>
    rcases hauth with ⟨e, he⟩ | ⟨operatorAddress, ha, hw⟩
    · simp only [he]
      exact ⟨_, rfl⟩
    · simp only [ha, ValidateOwner, hw]
      exact ⟨_, rfl⟩

/-- C16 on the database of chain 7 and on the empty one: a genesis call
whose transaction carries no witness fails and leaves the service as it
was. -/
theorem genesis_unauthorized_witness :
    (∃ e, SyncGenesisHeader Demo.env
        { input := [7, 100, 1, 0], checkWitness := fun _ => false, cacheDB := CacheDB.empty }
      = (.error e,
        { input := [7, 100, 1, 0], checkWitness := fun _ => false,
          cacheDB := CacheDB.empty })) ∧
    (∃ e, SyncGenesisHeader Demo.env
        { input := [7, 120, 2, 0], checkWitness := fun _ => false,
          cacheDB := Demo.dbBootstrapped }
      = (.error e,
        { input := [7, 120, 2, 0], checkWitness := fun _ => false,
          cacheDB := Demo.dbBootstrapped })) :=
  ⟨genesis_unauthorized Demo.env
      { input := [7, 100, 1, 0], checkWitness := fun _ => false, cacheDB := CacheDB.empty }
      (Or.inr ⟨[9], rfl, rfl⟩),
   genesis_unauthorized Demo.env
      { input := [7, 120, 2, 0], checkWitness := fun _ => false,
        cacheDB := Demo.dbBootstrapped }
      (Or.inr ⟨[9], rfl, rfl⟩)⟩

/-- C17 (operations before genesis fail). On a chain id with no stored
record, `VerifyCrossChainMsgSig` returns an error for every message and every
header list, empty or not, and `SyncBlockHeader` returns an error on every
input that names this chain id; in both the `NativeService` is exactly as
before the call. -/
theorem uninitialized_fails (env : Env) (native : NativeService) (chainID : Nat)
    (hnone : native.cacheDB.consensusPeer chainID = none) :
    (∀ msg headers,
      VerifyCrossChainMsgSig env native chainID msg headers
        = (.error .notInitialized, native)) ∧
    (∀ params, env.decodeSyncBlockHeaderParam native.input = some params →
      params.ChainID = chainID →
      SyncBlockHeader env native = (.error .notInitialized, native)) := by
  constructor
  · intro msg headers
    unfold VerifyCrossChainMsgSig
    split
    · exact processHeadersAndMsg_uninitialised env native chainID headers _ hnone
    · simp [getConsensusValByChainId, hnone]
  · intro params hp hc
    unfold SyncBlockHeader
    rw [hp]
    simp only
    rw [hc]
    exact processHeadersAndMsg_uninitialised env native chainID _ none hnone

/-- C17 on the empty database: the header sync and the message check for
chain 7 fail. -/
theorem uninitialized_fails_witness :
    SyncBlockHeader Demo.env (Demo.nativeOn CacheDB.empty (7 :: Demo.header150AB))
      = (.error .notInitialized, Demo.nativeOn CacheDB.empty (7 :: Demo.header150AB)) ∧
    VerifyCrossChainMsgSig Demo.env (Demo.nativeOn CacheDB.empty (7 :: Demo.header150AB)) 7
        (Demo.msgAt 150 1) [Demo.header150AB]
      = (.error .notInitialized, Demo.nativeOn CacheDB.empty (7 :: Demo.header150AB)) :=
  have h := uninitialized_fails Demo.env
    (Demo.nativeOn CacheDB.empty (7 :: Demo.header150AB)) 7 rfl
  ⟨h.2 { ChainID := 7, Headers := [Demo.header150AB] } rfl rfl,
   h.1 (Demo.msgAt 150 1) [Demo.header150AB]⟩

/-- C18 (bookkeeper threshold). For a bookkeeper list of length `n ≥ 2`:
(1) whatever the two functions called by `AddressFromBookkeepers` are, its
result is the result of the call `multi bookkeepers m` with
`m = n - (n - 1) / 3`, the division rounding down: this is the call made to
`AddressFromMultiPubKeys`, as (2) says for `AddressFromBookkeepers` itself;
(3) when the second function hands back its arguments, the list it got is
`bookkeepers` and the threshold `m` it got satisfies, with `f = (n - 1) / 3`
rounded down: `m = n - f`, `n - m = f`, `1 ≤ m ≤ n`, `n ≥ 3 f + 1` and
`m ≥ 2 f + 1`. -/
theorem bookkeeper_threshold (bookkeepers : List PublicKey)
    (hn : 2 ≤ bookkeepers.length) :
    (∀ (α : Type) (single : PublicKey → α) (multi : List PublicKey → Int → α),
      AddressFromBookkeepersWith single multi bookkeepers =
        multi bookkeepers
          ((bookkeepers.length - (bookkeepers.length - 1) / 3 : Nat) : Int)) ∧
    (∀ env : Env,
      AddressFromBookkeepers env bookkeepers =
        AddressFromMultiPubKeys env bookkeepers
          ((bookkeepers.length - (bookkeepers.length - 1) / 3 : Nat) : Int)) ∧
    (∀ (pubkeys : List PublicKey) (m : Int),
      AddressFromBookkeepersWith (fun _ => none) (fun pubkeys m => some (pubkeys, m))
          bookkeepers = some (pubkeys, m) →
      pubkeys = bookkeepers ∧
      ∃ mN f : Nat, m = (mN : Int) ∧ f = (bookkeepers.length - 1) / 3 ∧
        mN = bookkeepers.length - f ∧ bookkeepers.length - mN = f ∧
        1 ≤ mN ∧ mN ≤ bookkeepers.length ∧
        3 * f + 1 ≤ bookkeepers.length ∧ 2 * f + 1 ≤ mN) := by
  have hm : (bookkeepers.length : Int) - Int.tdiv ((bookkeepers.length : Int) - 1) 3 =
      ((bookkeepers.length - (bookkeepers.length - 1) / 3 : Nat) : Int) := by
    have h1 : Int.tdiv ((bookkeepers.length : Int) - 1) 3
        = ((bookkeepers.length : Int) - 1) / 3 :=
      Int.tdiv_eq_ediv (by omega) (by omega)
    rw [h1]
    omega
  have hcall : ∀ (α : Type) (single : PublicKey → α) (multi : List PublicKey → Int → α),
      AddressFromBookkeepersWith single multi bookkeepers =
        multi bookkeepers
          ((bookkeepers.length - (bookkeepers.length - 1) / 3 : Nat) : Int) := by
    intro α single multi
    rw [← hm]
    match bookkeepers, hn with
    | [], h => simp at h
    | [_], h => simp at h
    | _ :: _ :: _, _ => rfl
  refine ⟨hcall, fun env => hcall _ _ _, ?_⟩
  intro pubkeys m h
  rw [hcall] at h
  simp only [Option.some.injEq, Prod.mk.injEq] at h
  refine ⟨h.1.symm, _, _, h.2.symm, rfl, rfl, ?_, ?_, ?_, ?_, ?_⟩ <;> omega

/-- C18 for the four bookkeepers `[1]`, `[2]`, `[3]`, `[4]`: the call made is
the one with the four keys and the threshold 3, and the address is that of
the multi-signature of the four keys. -/
theorem bookkeeper_threshold_witness :
    2 ≤ [[1], [2], [3], [4]].length ∧
    AddressFromBookkeepersWith (fun _ => none) (fun pubkeys m => some (pubkeys, m))
        [[1], [2], [3], [4]] = some ([[1], [2], [3], [4]], 3) ∧
    AddressFromBookkeepers Demo.env [[1], [2], [3], [4]]
      = AddressFromMultiPubKeys Demo.env [[1], [2], [3], [4]] 3 ∧
    AddressFromBookkeepers Demo.env [[1], [2], [3], [4]]
      = .ok [1, 1, 1, 2, 1, 3, 1, 4] :=
  ⟨by decide,
    ((bookkeeper_threshold [[1], [2], [3], [4]] (by decide)).1 _ (fun _ => none)
      (fun pubkeys m => some (pubkeys, m))).trans rfl,
    ((bookkeeper_threshold [[1], [2], [3], [4]] (by decide)).2.1 Demo.env).trans rfl, rfl⟩

/-- C19 (chain-id independence). Let `db` and `db2` be databases the entry
points produce from the empty one, `X ≠ Y` two chain ids, and `call` a call
of `SyncGenesisHeader`, `SyncBlockHeader` or `VerifyCrossChainMsgSig` made
for `X`. (1) The call leaves the consensus record and the cached digest of
`Y` as they were. (2) If `db` and `db2` hold the same record and the same
digest for `X`, the call gives the same result on both and leaves the same
record and the same digest for `X`, whatever the entries of the other chain
ids are. (3) The store keys do not collide: for chain ids below `2 ^ 64` the
keys of `X` and `Y` differ within each of the two key families, and with
distinct tags no key of one family is a key of the other. -/
theorem chain_id_independence (env : Env) (history history2 : List Call) (call : Call)
    (X Y : Nat) (contract CONSENSUS_PEER KEY_HASH : Bytes)
    (hcall : call.chainOf env = some X) (hXY : X ≠ Y) :
    ((call.run env (runCalls env CacheDB.empty history)).2.consensusPeer Y =
        (runCalls env CacheDB.empty history).consensusPeer Y ∧
      (call.run env (runCalls env CacheDB.empty history)).2.keyHash Y =
        (runCalls env CacheDB.empty history).keyHash Y) ∧
    ((runCalls env CacheDB.empty history).consensusPeer X =
        (runCalls env CacheDB.empty history2).consensusPeer X →
      (runCalls env CacheDB.empty history).keyHash X =
        (runCalls env CacheDB.empty history2).keyHash X →
      (call.run env (runCalls env CacheDB.empty history)).1 =
        (call.run env (runCalls env CacheDB.empty history2)).1 ∧
      (call.run env (runCalls env CacheDB.empty history)).2.consensusPeer X =
        (call.run env (runCalls env CacheDB.empty history2)).2.consensusPeer X ∧
      (call.run env (runCalls env CacheDB.empty history)).2.keyHash X =
        (call.run env (runCalls env CacheDB.empty history2)).2.keyHash X) ∧
    (X < 2 ^ 64 → Y < 2 ^ 64 →
      consensusPeerKey contract CONSENSUS_PEER X ≠ consensusPeerKey contract CONSENSUS_PEER Y ∧
      keyHashKey contract KEY_HASH X ≠ keyHashKey contract KEY_HASH Y) ∧
    (CONSENSUS_PEER ≠ KEY_HASH →
      ∀ a b, consensusPeerKey contract CONSENSUS_PEER a ≠ keyHashKey contract KEY_HASH b) := by
  have hk := (runCalls_keeps env history CacheDB.empty keyedByChainID_empty).1
  refine ⟨callRun_frame env _ call X Y hcall hXY hk, ?_, ?_, ?_⟩
  · intro hc hh
    exact callRun_local env _ _ call X hcall hk hc hh
  · intro hx hy
    exact ⟨fun h => hXY (consensusPeerKey_inj contract CONSENSUS_PEER X Y hx hy h),
      fun h => hXY (keyHashKey_inj contract KEY_HASH X Y hx hy h)⟩
  · intro hne a b
    exact consensusPeerKey_ne_keyHashKey contract CONSENSUS_PEER KEY_HASH a b hne

/-- C19 at two chains: chain 8 is bootstrapped at 10 with `C` and chain 7 at
100 with `A`; the header sync for chain 7 that stores the rotation at 150
leaves the record of chain 8 as it was. -/
theorem chain_id_independence_witness :
    (runCalls Demo.env CacheDB.empty
        [Call.syncGenesisHeader [8, 10, 3, 0] Demo.governance,
         Call.syncGenesisHeader [7, 100, 1, 0] Demo.governance]).consensusPeer 8
      = some { ChainID := 8, Height := 10, NextConsensus := Demo.setC } ∧
    ((Call.syncBlockHeader (7 :: Demo.header150AB) Demo.governance).run Demo.env
        (runCalls Demo.env CacheDB.empty
          [Call.syncGenesisHeader [8, 10, 3, 0] Demo.governance,
           Call.syncGenesisHeader [7, 100, 1, 0] Demo.governance])).2.consensusPeer 7
      = some { ChainID := 7, Height := 150, NextConsensus := Demo.setB } ∧
    ((Call.syncBlockHeader (7 :: Demo.header150AB) Demo.governance).run Demo.env
        (runCalls Demo.env CacheDB.empty
          [Call.syncGenesisHeader [8, 10, 3, 0] Demo.governance,
           Call.syncGenesisHeader [7, 100, 1, 0] Demo.governance])).2.consensusPeer 8
      = (runCalls Demo.env CacheDB.empty
          [Call.syncGenesisHeader [8, 10, 3, 0] Demo.governance,
           Call.syncGenesisHeader [7, 100, 1, 0] Demo.governance]).consensusPeer 8 :=
  ⟨rfl, rfl,
   (chain_id_independence Demo.env
      [Call.syncGenesisHeader [8, 10, 3, 0] Demo.governance,
       Call.syncGenesisHeader [7, 100, 1, 0] Demo.governance] []
      (Call.syncBlockHeader (7 :: Demo.header150AB) Demo.governance) 7 8 [] [] []
      rfl (by decide)).1.1⟩

/-- C20, the claim as stated fails. Chain 7 has a stored record and the
transaction carries the witness of the governance address; the genesis header
bytes are empty and do not decode. `SyncGenesisHeader` returns the decode
error, not success. -/
theorem genesis_initialized_counterexample :
    Demo.dbBootstrapped.consensusPeer 7
      = some { ChainID := 7, Height := 100, NextConsensus := Demo.setA } ∧
    Demo.env.decodeSyncGenesisHeaderParam [7] = some { ChainID := 7, GenesisHeader := [] } ∧
    AddressFromBookkeepers Demo.env Demo.env.GenesisBookkeepers = .ok [9] ∧
    ValidateOwner (Demo.nativeOn Demo.dbBootstrapped [7]) [9] = .ok () ∧
    Demo.env.decodeNeoBlockHeader [] = none ∧
    (SyncGenesisHeader Demo.env (Demo.nativeOn Demo.dbBootstrapped [7])).1
      = .error .genesisDeserializeHeader :=
  ⟨rfl, rfl, rfl, rfl, rfl, rfl⟩

/-- C20, amended. On a chain id that already has a stored record, for an
authorised call of `SyncGenesisHeader`: when the genesis header bytes decode
as a block header the call returns success and the `NativeService` is as it
was; when they do not decode the call returns the decode error, the
`NativeService` again as it was. The header is decoded before the record is
looked up. -/
theorem genesis_initialized (env : Env) (native : NativeService)
    (params : SyncGenesisHeaderParam) (operatorAddress : Address) (r : NeoConsensus)
    (hp : env.decodeSyncGenesisHeaderParam native.input = some params)
    (ha : AddressFromBookkeepers env env.GenesisBookkeepers = .ok operatorAddress)
    (hw : native.checkWitness operatorAddress = true)
    (hcur : native.cacheDB.consensusPeer params.ChainID = some r) :
    ((∃ header, env.decodeNeoBlockHeader params.GenesisHeader = some header) →
      SyncGenesisHeader env native = (.ok (), native)) ∧
    (env.decodeNeoBlockHeader params.GenesisHeader = none →
      SyncGenesisHeader env native = (.error .genesisDeserializeHeader, native)) := by
  constructor
  · rintro ⟨header, hh⟩
    simp only [SyncGenesisHeader, hp, ha, ValidateOwner, hw, if_true, hh,
      getConsensusValByChainId, hcur]
  · intro hh
    simp only [SyncGenesisHeader, hp, ha, ValidateOwner, hw, if_true, hh]

/-- C20 amended, at chain 7 bootstrapped at 100 with `A`: the authorised
genesis call with a header at 120 is a success that changes nothing, the one
with empty header bytes is the decode error. -/
theorem genesis_initialized_witness :
    SyncGenesisHeader Demo.env (Demo.nativeOn Demo.dbBootstrapped [7, 120, 2, 0])
      = (.ok (), Demo.nativeOn Demo.dbBootstrapped [7, 120, 2, 0]) ∧
    SyncGenesisHeader Demo.env (Demo.nativeOn Demo.dbBootstrapped [7])
      = (.error .genesisDeserializeHeader, Demo.nativeOn Demo.dbBootstrapped [7]) :=
  ⟨(genesis_initialized Demo.env (Demo.nativeOn Demo.dbBootstrapped [7, 120, 2, 0])
      { ChainID := 7, GenesisHeader := [120, 2, 0] } [9]
      { ChainID := 7, Height := 100, NextConsensus := Demo.setA } rfl rfl rfl rfl).1
      ⟨_, rfl⟩,
   (genesis_initialized Demo.env (Demo.nativeOn Demo.dbBootstrapped [7])
      { ChainID := 7, GenesisHeader := [] } [9]
      { ChainID := 7, Height := 100, NextConsensus := Demo.setA } rfl rfl rfl rfl).2 rfl⟩

/-- C21 (the multi-signature address does not commit to the threshold). For
every key list and every two thresholds that both pass the parameter check
of `AddressFromMultiPubKeys`, the two addresses are the same: the result is
`AddressFromVmCode` of the keys written one after the other as var-bytes, in
which the threshold does not occur. -/
theorem multisig_address_ignores_threshold (env : Env) (pubkeys : List PublicKey)
    (m1 m2 : Int)
    (h1 : 1 ≤ m1 ∧ m1 ≤ (pubkeys.length : Int) ∧ (pubkeys.length : Int) > 1 ∧
      (pubkeys.length : Int) ≤ (env.MULTI_SIG_MAX_PUBKEY_SIZE : Int))
    (h2 : 1 ≤ m2 ∧ m2 ≤ (pubkeys.length : Int) ∧ (pubkeys.length : Int) > 1 ∧
      (pubkeys.length : Int) ≤ (env.MULTI_SIG_MAX_PUBKEY_SIZE : Int)) :
    AddressFromMultiPubKeys env pubkeys m1 = AddressFromMultiPubKeys env pubkeys m2 ∧
    AddressFromMultiPubKeys env pubkeys m1 =
      .ok (env.AddressFromVmCode
        (pubkeys.foldl
          (fun sink v => sink ++ env.WriteVarBytes (env.SerializePublicKey v)) [])) := by
  have e1 : AddressFromMultiPubKeys env pubkeys m1 =
      .ok (env.AddressFromVmCode
        (pubkeys.foldl
          (fun sink v => sink ++ env.WriteVarBytes (env.SerializePublicKey v)) [])) := by
    unfold AddressFromMultiPubKeys
    simp only [h1, and_self, not_true_eq_false, if_false]
  have e2 : AddressFromMultiPubKeys env pubkeys m2 =
      .ok (env.AddressFromVmCode
        (pubkeys.foldl
          (fun sink v => sink ++ env.WriteVarBytes (env.SerializePublicKey v)) [])) := by
    unfold AddressFromMultiPubKeys
    simp only [h2, and_self, not_true_eq_false, if_false]
  exact ⟨e1.trans e2.symm, e1⟩

/-- C21 for the four keys `[1]`, `[2]`, `[3]`, `[4]`: the 1-of-4 and the
3-of-4 address are the same. -/
theorem multisig_address_ignores_threshold_witness :
    AddressFromMultiPubKeys Demo.env [[1], [2], [3], [4]] 1
      = AddressFromMultiPubKeys Demo.env [[1], [2], [3], [4]] 3 ∧
    AddressFromMultiPubKeys Demo.env [[1], [2], [3], [4]] 1 = .ok [1, 1, 1, 2, 1, 3, 1, 4] :=
  ⟨(multisig_address_ignores_threshold Demo.env [[1], [2], [3], [4]] 1 3
      (by decide) (by decide)).1, rfl⟩

/-- C22 (`AddressFromBookkeepers` fails exactly on an empty or oversized
set). With `MULTI_SIG_MAX_PUBKEY_SIZE` at least 1: for a bookkeeper list of
length `n` the function returns an error if and only if `n = 0` or `n`
exceeds `MULTI_SIG_MAX_PUBKEY_SIZE`; for the one-key list it returns
`AddressFromPubKey` of that key; and for `2 ≤ n ≤ MULTI_SIG_MAX_PUBKEY_SIZE`
it returns, without error, the address `AddressFromMultiPubKeys` computes
from the keys. -/
theorem bookkeepers_error_iff (env : Env) (bookkeepers : List PublicKey)
    (hmax : 1 ≤ env.MULTI_SIG_MAX_PUBKEY_SIZE) :
    ((∃ e, AddressFromBookkeepers env bookkeepers = .error e) ↔
      bookkeepers.length = 0 ∨ bookkeepers.length > env.MULTI_SIG_MAX_PUBKEY_SIZE) ∧
    (∀ pk, bookkeepers = [pk] →
      AddressFromBookkeepers env bookkeepers = .ok (AddressFromPubKey env pk)) ∧
    (2 ≤ bookkeepers.length → bookkeepers.length ≤ env.MULTI_SIG_MAX_PUBKEY_SIZE →
      AddressFromBookkeepers env bookkeepers =
        .ok (env.AddressFromVmCode
          (bookkeepers.foldl
            (fun sink v => sink ++ env.WriteVarBytes (env.SerializePublicKey v)) []))) := by
  have hmulti : 2 ≤ bookkeepers.length →
      AddressFromBookkeepers env bookkeepers =
        AddressFromMultiPubKeys env bookkeepers
          ((bookkeepers.length : Int) - Int.tdiv ((bookkeepers.length : Int) - 1) 3) := by
    intro hn
    match bookkeepers, hn with
    | [], h => simp at h
    | [_], h => simp at h
    | _ :: _ :: _, _ => rfl
  have hdiv : 1 ≤ bookkeepers.length →
      Int.tdiv ((bookkeepers.length : Int) - 1) 3 = ((bookkeepers.length : Int) - 1) / 3 :=
    fun h => Int.tdiv_eq_ediv (by omega) (by omega)
  have hok : 2 ≤ bookkeepers.length → bookkeepers.length ≤ env.MULTI_SIG_MAX_PUBKEY_SIZE →
      AddressFromBookkeepers env bookkeepers =
        .ok (env.AddressFromVmCode
          (bookkeepers.foldl
            (fun sink v => sink ++ env.WriteVarBytes (env.SerializePublicKey v)) [])) := by
    intro h2 hle
    rw [hmulti h2]
    refine (multisig_threshold_free_aux env bookkeepers _ ?_)
    rw [hdiv (by omega)]
    omega
  refine ⟨?_, ?_, hok⟩
  · constructor
    · rintro ⟨e, he⟩
      by_contra hcon
      have h0 : bookkeepers.length ≠ 0 := fun h => hcon (Or.inl h)
      have hle : bookkeepers.length ≤ env.MULTI_SIG_MAX_PUBKEY_SIZE := by
        by_contra h; exact hcon (Or.inr (by omega))
      by_cases h1 : bookkeepers.length = 1
      · match bookkeepers, h1 with
        | [pk], _ => simp [AddressFromBookkeepers, AddressFromBookkeepersWith] at he
      · rw [hok (by omega) hle] at he
        exact absurd he (by simp)
    · rintro (h0 | hgt)
      · have : bookkeepers = [] := List.length_eq_zero.1 h0
        subst this
        exact ⟨.wrongMultiSigParam, by
          simp [AddressFromBookkeepers, AddressFromBookkeepersWith, AddressFromMultiPubKeys]⟩
      · have h2 : 2 ≤ bookkeepers.length := by omega
        rw [hmulti h2]
        refine ⟨.wrongMultiSigParam, ?_⟩
        unfold AddressFromMultiPubKeys
        rw [if_pos]
        intro h
        omega
  · intro pk hpk
    subst hpk
    rfl

/-- C22 with `MULTI_SIG_MAX_PUBKEY_SIZE = 16`: the empty list and a list of
17 keys are refused, the one-key list gives the address of the key. -/
theorem bookkeepers_error_iff_witness :
    AddressFromBookkeepers Demo.env [] = .error .wrongMultiSigParam ∧
    AddressFromBookkeepers Demo.env (List.replicate 17 [5]) = .error .wrongMultiSigParam ∧
    AddressFromBookkeepers Demo.env [[5]] = .ok [5] ∧
    ((∃ e, AddressFromBookkeepers Demo.env (List.replicate 17 [5]) = .error e) ↔
      (List.replicate 17 ([5] : PublicKey)).length = 0 ∨
      (List.replicate 17 ([5] : PublicKey)).length > Demo.env.MULTI_SIG_MAX_PUBKEY_SIZE) :=
  ⟨rfl, rfl, rfl,
   (bookkeepers_error_iff Demo.env (List.replicate 17 [5]) (by decide)).1⟩

/-- C24 (`Utxos` round trip and truncation). With readers and writers that
keep the promises of the codec layer, and for a `Utxos` value whose entries
have an `Op` and whose fields fit their wire types: `Deserialization` of the
bytes `Serialization` wrote, followed by any further bytes, succeeds, yields
the same list in the same order with every field equal, and leaves exactly
the further bytes unread; and `Deserialization` of every strict prefix of
the written bytes is an error. -/
theorem utxos_round_trip (c : Codec) (hc : c.Lawful) (u : Poly.Utxos) (hu : u.InRange) :
    (∀ rest, Utxos.Deserialization c (u.Serialization c ++ rest) = some (u, rest)) ∧
    (∀ p, p <+: u.Serialization c → p ≠ u.Serialization c →
      Utxos.Deserialization c p = none) := by
  constructor
  · intro rest
    unfold Utxos.Deserialization Utxos.Serialization
    rw [Utxos_foldl_eq, List.append_assoc, hc.uint64_read _ _ hu.1]
    simp only
    rw [Utxos_readLoop_read c hc u.Utxos hu.2]
    simp
  · intro p hp hne
    unfold Utxos.Serialization at hp hne
    rw [Utxos_foldl_eq] at hp hne
    unfold Utxos.Deserialization
    rcases strictPrefix_append p _ _ hp hne with ⟨h1, h2⟩ | ⟨q, rfl, h1, h2⟩
    · rw [hc.uint64_short _ p hu.1 h1 h2]
    · rw [hc.uint64_read _ _ hu.1]
      simp only
      rw [Utxos_readLoop_short c hc u.Utxos hu.2 [] q h1 h2]

/-- C24 for the concrete codec and two utxos: the written bytes followed by
`[9, 9]` read back as the two utxos with `[9, 9]` left, and the written bytes
without their last byte do not read back. -/
theorem utxos_round_trip_witness :
    Utxos.Deserialization Demo.codec
        (Utxos.Serialization Demo.codec { Utxos := [Demo.utxoA, Demo.utxoB] } ++ [9, 9])
      = some ({ Utxos := [Demo.utxoA, Demo.utxoB] }, [9, 9]) ∧
    Utxos.Deserialization Demo.codec
        ((Utxos.Serialization Demo.codec { Utxos := [Demo.utxoA, Demo.utxoB] }).dropLast)
      = none :=
  ⟨(utxos_round_trip Demo.codec demo_codec_lawful { Utxos := [Demo.utxoA, Demo.utxoB] }
      ⟨by decide, fun v hv => by
        simp only [List.mem_cons, List.mem_singleton, List.not_mem_nil, or_false] at hv
        rcases hv with rfl | rfl <;> (unfold Utxo.InRange OutPoint.InRange; decide)⟩).1 [9, 9],
   by decide⟩

/-- C23 (`MultiSignInfo` serialization is canonical and round-trips). With
readers and writers that keep the promises of the codec layer, and for a map
whose sizes fit their wire types (its keys are distinct, as the keys of a map
are): (1) `Serialization` writes the entry count and then, for the keys in
strictly descending order, the key and its list of byte strings; (2) the
bytes are the same for every order in which `range` yields the entries;
(3) `Deserialization` of these bytes, followed by any further bytes, succeeds,
leaves the further bytes, and yields a map with the same entries: the same
keys, and under each key the same list of byte strings. -/
theorem multiSignInfo_canonical (c : Codec) (hc : c.Lawful) (m : Poly.MultiSignInfo)
    (hk : (m.MultiSignInfo.map Prod.fst).Nodup) (hr : m.InRange) :
    (∃ sorted : List Bytes,
      sorted.Perm (m.MultiSignInfo.map Prod.fst) ∧
      List.Sorted (fun a b => strLess b a = true) sorted ∧
      m.Serialization c =
        c.WriteUint64 m.MultiSignInfo.length ++
          (sorted.map
            (fun k => MultiSignInfo.entryBytes c k (mapIndex m.MultiSignInfo k))).flatten) ∧
    (∀ m2 : Poly.MultiSignInfo, m2.MultiSignInfo.Perm m.MultiSignInfo →
      m2.Serialization c = m.Serialization c) ∧
    (∀ rest, ∃ m2 : Poly.MultiSignInfo,
      MultiSignInfo.Deserialization c (m.Serialization c ++ rest) = some (m2, rest) ∧
      m2.MultiSignInfo.Perm m.MultiSignInfo ∧
      ∀ k, mapIndex m2.MultiSignInfo k = mapIndex m.MultiSignInfo k) := by
  have hperm := List.perm_insertionSort (fun a b => strLess b a = true)
    (m.MultiSignInfo.map Prod.fst)
  refine ⟨⟨_, hperm, sorted_insertionSort_desc _ hk, MultiSignInfo_Serialization_eq c m⟩,
    ?_, ?_⟩
  · intro m2 hp
    rw [MultiSignInfo_Serialization_eq, MultiSignInfo_Serialization_eq, hp.length_eq,
      insertionSort_desc_perm _ _ (hp.map Prod.fst) hk]
    have hf : (fun k => MultiSignInfo.entryBytes c k (mapIndex m2.MultiSignInfo k)) =
        (fun k => MultiSignInfo.entryBytes c k (mapIndex m.MultiSignInfo k)) := by
      funext k
      rw [mapIndex_perm _ _ hp hk k]
    rw [hf]
  · intro rest
    have hsnd : ((m.MultiSignInfo.map Prod.fst).insertionSort
        (fun a b => strLess b a = true)).Nodup := hperm.nodup_iff.2 hk
    have hrange : ∀ k ∈ (m.MultiSignInfo.map Prod.fst).insertionSort
        (fun a b => strLess b a = true),
        k.length < 2 ^ 64 ∧ (mapIndex m.MultiSignInfo k).length < 2 ^ 64 ∧
          ∀ b ∈ mapIndex m.MultiSignInfo k, b.length < 2 ^ 64 := by
      intro k hkm
      exact hr.2 _ (mapIndex_mem m.MultiSignInfo k (hperm.mem_iff.1 hkm))
    have hloop := MultiSignInfo_readLoop_read c hc (mapIndex m.MultiSignInfo) _ hsnd hrange []
      (by intro k _; simp) rest
    have hpm : (((m.MultiSignInfo.map Prod.fst).insertionSort
        (fun a b => strLess b a = true)).map
          (fun k => (k, mapIndex m.MultiSignInfo k))).Perm m.MultiSignInfo := by
      have := hperm.map (fun k => (k, mapIndex m.MultiSignInfo k))
      rw [map_keys_mapIndex m.MultiSignInfo hk] at this
      exact this
    refine ⟨{ MultiSignInfo := ((m.MultiSignInfo.map Prod.fst).insertionSort
        (fun a b => strLess b a = true)).map (fun k => (k, mapIndex m.MultiSignInfo k)) },
      ?_, hpm, fun k => mapIndex_perm _ _ hpm hk k⟩
    unfold MultiSignInfo.Deserialization
    rw [MultiSignInfo_Serialization_eq, List.append_assoc, hc.uint64_read _ _ hr.1]
    simp only
    rw [hperm.length_eq, List.length_map] at hloop
    rw [hloop]
    simp

/-- C23 for the concrete codec and the map with the keys `"k"` and `"z"`:
the bytes are the same for both orders of `range`, the entry of `"z"` is
written first, and the bytes read back as the map. -/
theorem multiSignInfo_canonical_witness :
    MultiSignInfo.Serialization Demo.codec Demo.signInfoSwapped
      = MultiSignInfo.Serialization Demo.codec Demo.signInfo ∧
    MultiSignInfo.Serialization Demo.codec Demo.signInfo
      = [2, 0, 0, 0, 0, 0, 0, 0,
         1, 122, 1, 0, 0, 0, 0, 0, 0, 0, 0,
         1, 107, 2, 0, 0, 0, 0, 0, 0, 0, 2, 1, 2, 1, 3] ∧
    MultiSignInfo.Deserialization Demo.codec
        (MultiSignInfo.Serialization Demo.codec Demo.signInfo)
      = some (Demo.signInfoSwapped, []) :=
  ⟨(multiSignInfo_canonical Demo.codec demo_codec_lawful Demo.signInfo (by decide)
      ⟨by decide, fun e he => by
        simp only [Demo.signInfo, List.mem_cons, List.mem_singleton, List.not_mem_nil,
          or_false] at he
        rcases he with rfl | rfl <;> decide⟩).2.1 Demo.signInfoSwapped
      (List.Perm.swap _ _ _),
   by decide, by decide⟩

/-- C25 (the index traversal of `SimpleBnbSearch` is a permutation). For a
selector whose `SortedUtxos` is not empty, of length `n`: (1) the first `n`
depths `d 0 = 0`, `d (k + 1) = next (d k)` are the indices `0, n - 1, 1,
n - 2, ...`, which are the indices below `n`, each once; (2) the depth after
`n` steps is `-1`, and no earlier one is; (3) whatever `Tries` is, a search
from depth 0 with an empty selection returns within `n + 1` nested calls,
without an access out of bounds, and a selection it returns holds the utxos
at indices taken in order from the visited ones, none twice; (4) `Select`
returns; (5) every call such a search can make has depth `-1` or an index
below `n`, and its selection holds utxos at pairwise distinct indices, none of
which is the index that this call adds. -/
theorem bnb_index_traversal (selector : CoinSelector) (sorted : Poly.Utxos)
    (hs : selector.SortedUtxos = some sorted) (hn : 1 ≤ sorted.Utxos.length) :
    ((List.range sorted.Utxos.length).map (depthSeq sorted.Utxos.length)
        = (visitIndices sorted.Utxos.length).map Int.ofNat ∧
      (visitIndices sorted.Utxos.length).Perm (List.range sorted.Utxos.length)) ∧
    (depthSeq sorted.Utxos.length sorted.Utxos.length = -1 ∧
      ∀ k, k < sorted.Utxos.length → depthSeq sorted.Utxos.length k ≠ -1) ∧
    (∀ tries : Int, ∃ res t,
      selector.SimpleBnbSearch (sorted.Utxos.length + 1) tries 0 [] 0 = .ok (res, t) ∧
      ∀ s, res.1 = some s →
        ∃ idxs : List Nat, idxs.Sublist (visitIndices sorted.Utxos.length) ∧ idxs.Nodup ∧
          s.map some = idxs.map (fun i => sorted.Utxos[i]?)) ∧
    (∃ r, selector.Select (sorted.Utxos.length + 1) = .ok r) ∧
    (∀ depth selection, SearchCall sorted depth selection →
      (depth = -1 ∨ (0 ≤ depth ∧ depth < sorted.Utxos.length)) ∧
      ∃ idxs : List Nat, idxs.Nodup ∧ (∀ i ∈ idxs, i < sorted.Utxos.length) ∧
        selection.map some = idxs.map (fun i => sorted.Utxos[i]?) ∧
        (depth ≠ -1 → depth.toNat ∉ idxs)) := by
  refine ⟨⟨depthSeq_range _ hn, visitIndices_perm _⟩, ⟨depthSeq_last _ hn, ?_⟩, ?_,
    select_no_fault selector sorted hs hn, ?_⟩
  · intro k hk
    obtain ⟨i, _, hd, _⟩ := depthSeq_visit _ hn k hk
    rw [hd]
    omega
  · intro tries
    obtain ⟨res, t, e, p⟩ := bnb_search_from selector sorted hs hn sorted.Utxos.length 0
      (by omega) (sorted.Utxos.length + 1) (by omega) tries [] 0
    refine ⟨res, t, e, fun s h => ?_⟩
    obtain ⟨idxs, hsub, heq⟩ := p s h
    rw [List.drop_zero] at hsub
    exact ⟨idxs, hsub, hsub.nodup (visitIndices_nodup _), by simpa using heq⟩
  · intro depth selection h
    obtain ⟨k, hk, hd, idxs, hsub, heq⟩ := searchCall_inv sorted hn depth selection h
    have hsub2 : idxs.Sublist (visitIndices sorted.Utxos.length) :=
      hsub.trans (List.take_sublist _ _)
    refine ⟨?_, idxs, hsub2.nodup (visitIndices_nodup _),
      fun i hi => visitIndices_lt _ i (hsub2.subset hi), heq, ?_⟩
    · rcases Nat.lt_or_ge k sorted.Utxos.length with h1 | h1
      · obtain ⟨i, _, hdi, hin⟩ := depthSeq_visit _ hn k h1
        right
        rw [hd, hdi]
        omega
      · left
        have : k = sorted.Utxos.length := by omega
        rw [hd, this, depthSeq_last _ hn]
    · intro hne hmem
      have h1 : k < sorted.Utxos.length := by
        rcases Nat.lt_or_ge k sorted.Utxos.length with h1 | h1
        · exact h1
        · have : k = sorted.Utxos.length := by omega
          rw [this, depthSeq_last _ hn] at hd
          exact absurd hd hne
      obtain ⟨i, hvi, hdi, hin⟩ := depthSeq_visit _ hn k h1
      rw [hd, hdi, Int.toNat_ofNat] at hmem
      have hlen : k < (visitIndices sorted.Utxos.length).length := by
        rw [visitIndices_length]; exact h1
      have hget : (visitIndices sorted.Utxos.length)[k] = i := by
        have := List.getElem?_eq_getElem hlen
        rw [hvi] at this
        exact (Option.some.inj this).symm
      have hnd := visitIndices_nodup sorted.Utxos.length
      rw [← List.take_append_drop k (visitIndices sorted.Utxos.length),
        List.drop_eq_getElem_cons hlen, hget] at hnd
      have hdis := (List.nodup_append.1 hnd).2.2
      exact hdis (hsub.subset hmem) (List.mem_cons_self _ _)

/-- C25 for the selector over five utxos with the values 9, 7, 5, 3 and 2:
the depths are 0, 4, 1, 3, 2 and then -1; the search for the target 10 tries
the utxos at the indices 0 and 4, drops the one at 4 and returns those at 0
and 1, within six nested calls; `Select` returns them. -/
theorem bnb_index_traversal_witness :
    1 ≤ Demo.coins.Utxos.length ∧
    (List.range 6).map (depthSeq 5) = [0, 4, 1, 3, 2, -1] ∧
    visitIndices 5 = [0, 4, 1, 3, 2] ∧
    Demo.selector.SimpleBnbSearch 6 100 0 [] 0
      = .ok ((some [Demo.coin 9, Demo.coin 7], 16, 2), 97) ∧
    Demo.selector.Select 6 = .ok (some [Demo.coin 9, Demo.coin 7], 16, 2) ∧
    ∃ r, Demo.selector.Select (Demo.coins.Utxos.length + 1) = .ok r :=
  ⟨by decide, by decide, by decide, rfl, rfl,
    (bnb_index_traversal Demo.selector Demo.coins rfl (by decide)).2.2.2.1⟩

/-- C26 (the postcondition of `SortedSearch`). For a selector in which
`Target + Mc` fits `uint64`, and so does every sum of a prefix of
`SortedUtxos` and the value of a utxo after it: `SortedSearch` returns, and
(1) a selection it returns comes with the sum of the `Value` fields of its
utxos, and that sum is `Target` or at least `Target + Mc`; (2) when no prefix
has such a sum, it returns nil with sum 0 and fee 0; (3) so it does when the
loss ratio of a prefix reaches `MaxP` and no shorter prefix has such a sum;
(4) it returns a selection when a prefix has such a sum and the loss ratio of
no prefix up to it reaches `MaxP`. -/
theorem sortedSearch_postcondition (selector : CoinSelector) (sorted : Poly.Utxos)
    (hs : selector.SortedUtxos = some sorted)
    (hT : selector.Target + selector.Mc < 2 ^ 64)
    (hfit : ∀ k m, k ≤ m → ∀ u, sorted.Utxos[m]? = some u →
      sumValues (sorted.Utxos.take k) + u.Value < 2 ^ 64) :
    ∃ r, selector.SortedSearch = .ok r ∧
      (∀ s, r.1 = some s →
        r.2.1 = sumValues s ∧
        (r.2.1 = selector.Target ∨ r.2.1 ≥ selector.Target + selector.Mc)) ∧
      ((∀ j, 1 ≤ j → j ≤ sorted.Utxos.length →
          ¬ (sumValues (sorted.Utxos.take j) = selector.Target ∨
            sumValues (sorted.Utxos.take j) ≥ selector.Target + selector.Mc)) →
        r = (none, 0, 0)) ∧
      (∀ j0, 1 ≤ j0 → selector.lossRatioReached (sorted.Utxos.take j0) = true →
        (∀ j, 1 ≤ j → j < j0 →
          ¬ (sumValues (sorted.Utxos.take j) = selector.Target ∨
            sumValues (sorted.Utxos.take j) ≥ selector.Target + selector.Mc)) →
        r = (none, 0, 0)) ∧
      ((∃ j, 1 ≤ j ∧ j ≤ sorted.Utxos.length ∧
          (sumValues (sorted.Utxos.take j) = selector.Target ∨
            sumValues (sorted.Utxos.take j) ≥ selector.Target + selector.Mc) ∧
          ∀ j2, 1 ≤ j2 → j2 ≤ j → selector.lossRatioReached (sorted.Utxos.take j2) = false) →
        ∃ s, r.1 = some s) := by
  obtain ⟨r, e, p1, p2, p3⟩ := sortedLoop_pass0 selector hT sorted.Utxos [] 0
    (by simpa using hfit)
  simp only [List.nil_append] at p3
  refine ⟨r, ?_, p1, ?_, ?_, ?_⟩
  · unfold CoinSelector.SortedSearch
    rw [hs]
    exact e
  · intro hno
    apply p2
    rw [p3]
    rintro ⟨j, hj1, hj2, hr, _⟩
    exact hno j hj1 hj2 hr
  · intro j0 hj0 hloss hno
    apply p2
    rw [p3]
    rintro ⟨j, hj1, hj2, hr, hall⟩
    rcases Nat.lt_or_ge j j0 with h | h
    · exact hno j hj1 h hr
    · rw [hall j0 hj0 h] at hloss
      exact Bool.noConfusion hloss
  · intro hex
    cases hr : r.1 with
    | some s => exact ⟨s, rfl⟩
    | none => exact absurd hex (p3.1 hr)

/-- C26 for the selector over the utxos with the values 9, 7, 5, 3 and 2,
the target 10 and `Mc = 4`: the first two utxos reach 16, the second is then
replaced by the third, and the sorted search returns the utxos with the values
9 and 5 with the sum 14. -/
theorem sortedSearch_postcondition_witness :
    (Demo.selector.Target + Demo.selector.Mc < 2 ^ 64 ∧
      sumValues Demo.coins.Utxos < 2 ^ 64) ∧
    Demo.selector.SortedSearch = .ok (some [Demo.coin 9, Demo.coin 5], 14, 2) ∧
    sumValues [Demo.coin 9, Demo.coin 5] = 14 ∧
    ∃ r, Demo.selector.SortedSearch = .ok r ∧
      (∀ s, r.1 = some s →
        r.2.1 = sumValues s ∧
        (r.2.1 = Demo.selector.Target ∨
          r.2.1 ≥ Demo.selector.Target + Demo.selector.Mc)) :=
  ⟨⟨by decide, by decide⟩, rfl, by decide,
    (sortedSearch_postcondition Demo.selector Demo.coins rfl (by decide)
      (runningSums_of_total Demo.coins.Utxos (by decide))).imp
      (fun _ h => ⟨h.1, h.2.1⟩)⟩

end Poly
